import Mathlib

/-!
The queue `WifiMacQueue` (src/devices/wifi/wifi-mac-queue.cc)

A shallow embedding of the bounded, time-windowed MAC queue of
`wifi-mac-queue.cc`, followed by theorems about its public operations.

Conventions of the embedding

* `Time` is an integer number of nanoseconds; `Simulator::Now ()` is passed
  to every operation as the explicit argument `now`.
* `Ptr<const Packet>` is compared by pointer identity in the source
  (`it->packet == packet`), so a packet is represented by its identity.
* A function that returns a null `Ptr` for "nothing found" and writes the
  header through `*hdr` otherwise returns an `Option` here.
* `m_size`, the local counters `n` and `nPackets` are `uint32_t`: they are
  natural numbers reduced modulo `2^32` at every arithmetic step.
* The file is compiled with `#define MB 0`, so `Enqueue` is the `else`
  branch of `if(MB)`. `EnqueueWith` is the whole body of `Enqueue`, the
  constants `MB`, `ADAPTIVE`, `A`, `B1`, `B2` being arguments.
* A `double` is an exact rational number: rounding is not represented, and
  `pow` of the C library is an argument with finite values. The one value
  that a division by zero can make infinite or NaN, the local `R` of
  `Enqueue`, has the type `Double`, which has these values.
* The values of `u.GetValue ()` are an argument, numbered in the order in
  which one call of `Enqueue` draws them.
-/

namespace ns3

/-- Simulated time, in nanoseconds. -/
abbrev Time := Int

/-- Identity of a `Ptr<const Packet>` (the pointer that `Remove` compares). -/
abbrev Packet := Nat

/-- A 48-bit MAC address, as a number. -/
abbrev Mac48Address := Nat

/-- The constructor `Seconds (s)` for a whole number of seconds. -/
def Seconds (s : Int) : Time := s * 1000000000

/-- The modulus of `uint32_t` arithmetic. -/
def UINT32_MOD : Nat := 4294967296

/-- The statement `x++` on a `uint32_t`. -/
def u32inc (x : Nat) : Nat := (x + 1) % UINT32_MOD

/-- The statement `x--` on a `uint32_t`. -/
def u32dec (x : Nat) : Nat := (x + UINT32_MOD - 1) % UINT32_MOD

/-- The statement `x -= n` on `uint32_t` operands. -/
def u32sub (x n : Nat) : Nat := (x + UINT32_MOD - n % UINT32_MOD) % UINT32_MOD

/-- Modelled from the spec: the enumeration `WifiMacHeader::AddressType` is
declared in `wifi-mac-header.h`, which is not among the sources; the queue
compares it with `ADDR1`, `ADDR2` and `ADDR3` and asserts `type <= 4`. -/
inductive AddressType where
  | ADDR1
  | ADDR2
  | ADDR3
  | ADDR4
  deriving DecidableEq, Repr

/-- Modelled from the spec: `WifiMacHeader` is declared in `wifi-mac-header.h`,
which is not among the sources. The queue reads only `IsQosData ()`,
`GetQosTid ()` and `GetAddr1 ()` .. `GetAddr3 ()`: "protocol header (includes
traffic-class id and up to three addresses)". -/
structure WifiMacHeader where
  qosData : Bool
  qosTid : Nat
  addr1 : Mac48Address
  addr2 : Mac48Address
  addr3 : Mac48Address
  deriving DecidableEq, Repr

namespace WifiMacHeader

/-- The accessor `hdr.IsQosData ()`. -/
def IsQosData (h : WifiMacHeader) : Bool := h.qosData

/-- The accessor `hdr.GetQosTid ()`. -/
def GetQosTid (h : WifiMacHeader) : Nat := h.qosTid

/-- The accessor `hdr.GetAddr1 ()`. -/
def GetAddr1 (h : WifiMacHeader) : Mac48Address := h.addr1

/-- The accessor `hdr.GetAddr2 ()`. -/
def GetAddr2 (h : WifiMacHeader) : Mac48Address := h.addr2

/-- The accessor `hdr.GetAddr3 ()`. -/
def GetAddr3 (h : WifiMacHeader) : Mac48Address := h.addr3

end WifiMacHeader

/-- The queue element `WifiMacQueue::Item`: packet, header and time stamp. -/
structure Item where
  packet : Packet
  hdr : WifiMacHeader
  tstamp : Time
  deriving DecidableEq, Repr

/-- Modelled from the spec: `QosBlockedDestinations::IsBlocked (dest, tid)` is
declared in `qos-blocked-destinations.h`, which is not among the sources:
"`is_blocked(destination, traffic_class) -> bool` predicate supplied by the
caller". -/
abbrev QosBlockedDestinations := Mac48Address → Nat → Bool

/-- The class `Solution`: the three parameters of the bias function and the
utility measured for them. -/
structure Solution where
  ALPHA : ℚ
  BETA1 : ℚ
  BETA2 : ℚ
  utility : ℚ
  deriving DecidableEq, Repr

/-- The constructor `Solution::Solution ()`. -/
def Solution.new : Solution where
  ALPHA := 1 / 2
  BETA1 := 2
  BETA2 := 5
  utility := 0

/-- Modelled from the spec: the class `Tabu` is declared in `wifi-mac-queue.h`,
which is not among the sources; `Enqueue` and `IsTabu` use its members
`expiry`, `ALPHA`, `BETA1` and `BETA2`: "a BiasSolution snapshot plus an
`expiry` timestamp". -/
structure Tabu where
  expiry : Time
  ALPHA : ℚ
  BETA1 : ℚ
  BETA2 : ℚ
  deriving DecidableEq, Repr

/-- The data members of `WifiMacQueue` that the queue operations use: the
deque `m_queue`, the cached `uint32_t` counter `m_size`, the attributes
`m_maxSize` (`uint32_t`) and `m_maxDelay`, and the two counters that the
compiled `Enqueue` increments. `packetCount` and `iterationCount` are declared
in `wifi-mac-queue.h`, which is not among the sources; no queue operation reads
them and they are kept as unbounded counters. The members `distance`,
`current`, `best` and `tabuList` belong to the mixed-bias controller. -/
structure WifiMacQueue where
  m_queue : List Item
  m_size : Nat
  m_maxSize : Nat
  m_maxDelay : Time
  packetCount : Nat
  iterationCount : Nat
  distance : ℚ
  current : Solution
  best : Solution
  tabuList : List Tabu
  deriving Repr

/-- The loop shape `for (it = begin; it != end; it++) if (c (it)) { erase (it);
return; }` shared by `Remove` and the selective dequeue operations: the first
element satisfying `c` together with the list without it. -/
def scanErase (c : Item → Bool) : List Item → Option (Item × List Item)
  | [] => none
  | it :: rest =>
    if c it then some (it, rest)
    else
      match scanErase c rest with
      | some (found, others) => some (found, it :: others)
      | none => none

/-- The body of the `for` loop of `Cleanup`: the entries kept, and the value of
the `uint32_t` counter `n` of erased entries. -/
def CleanupScan (maxDelay now : Time) : List Item → List Item × Nat
  | [] => ([], 0)
  | i :: rest =>
    let r := CleanupScan maxDelay now rest
    if i.tstamp + maxDelay > now then (i :: r.1, r.2) else (r.1, u32inc r.2)

/-- The `for` loop of `GetNPacketsByTidAndAddress` over a `uint32_t` counter. -/
def countScan (c : Item → Bool) : List Item → Nat
  | [] => 0
  | it :: rest => if c it then u32inc (countScan c rest) else countScan c rest

namespace WifiMacQueue

/-- The constructor `WifiMacQueue ()`, the attributes at their defaults
(`MaxPacketNumber` 400, `MaxDelay` 10 s). -/
def new : WifiMacQueue where
  m_queue := []
  m_size := 0
  m_maxSize := 400
  m_maxDelay := Seconds 10
  packetCount := 0
  iterationCount := 0
  distance := -1
  current := Solution.new
  best := Solution.new
  tabuList := []

/-- The setter `SetMaxSize (uint32_t maxSize)`. -/
def SetMaxSize (q : WifiMacQueue) (maxSize : Nat) : WifiMacQueue :=
  { q with m_maxSize := maxSize % UINT32_MOD }

/-- The setter `SetMaxDelay (Time delay)`. -/
def SetMaxDelay (q : WifiMacQueue) (delay : Time) : WifiMacQueue :=
  { q with m_maxDelay := delay }

/-- The getter `GetMaxSize ()`. -/
def GetMaxSize (q : WifiMacQueue) : Nat := q.m_maxSize

/-- The getter `GetMaxDelay ()`. -/
def GetMaxDelay (q : WifiMacQueue) : Time := q.m_maxDelay

/-- The getter `GetSize ()`: the cached counter, without a purge. -/
def GetSize (q : WifiMacQueue) : Nat := q.m_size

/-- The private method `Cleanup ()` run at time `now`. -/
def Cleanup (q : WifiMacQueue) (now : Time) : WifiMacQueue :=
  if q.m_queue.isEmpty then q
  else
    let r := CleanupScan q.m_maxDelay now q.m_queue
    { q with m_queue := r.1, m_size := u32sub q.m_size r.2 }

/-- The method `Enqueue (packet, hdr)` as compiled (`MB` is 0). -/
def Enqueue (q : WifiMacQueue) (now : Time) (packet : Packet) (hdr : WifiMacHeader) :
    WifiMacQueue :=
  let q := q.Cleanup now
  if q.m_size = q.m_maxSize then q
  else
    { q with
      packetCount := q.packetCount + 1
      iterationCount := q.iterationCount + 1
      m_queue := q.m_queue ++ [Item.mk packet hdr now]
      m_size := u32inc q.m_size }

/-- The method `Dequeue (hdr)`. -/
def Dequeue (q : WifiMacQueue) (now : Time) :
    Option (Packet × WifiMacHeader) × WifiMacQueue :=
  let q := q.Cleanup now
  match q.m_queue with
  | i :: rest => (some (i.packet, i.hdr), { q with m_queue := rest, m_size := u32dec q.m_size })
  | [] => (none, q)

/-- The method `Peek (hdr)`. -/
def Peek (q : WifiMacQueue) (now : Time) :
    Option (Packet × WifiMacHeader) × WifiMacQueue :=
  let q := q.Cleanup now
  match q.m_queue with
  | i :: _ => (some (i.packet, i.hdr), q)
  | [] => (none, q)

/-- The method `GetAddressForPacket (type, it)`. For a `type` other than
`ADDR1`, `ADDR2`, `ADDR3` the source executes `return 0;`, which is not the
address of any header: that case is `none`. -/
def GetAddressForPacket (type : AddressType) (it : Item) : Option Mac48Address :=
  if type = AddressType.ADDR1 then some it.hdr.GetAddr1
  else if type = AddressType.ADDR2 then some it.hdr.GetAddr2
  else if type = AddressType.ADDR3 then some it.hdr.GetAddr3
  else none

/-- The test in the loops of `DequeueByTidAndAddress` and `PeekByTidAndAddress`. -/
def tidAddressTest (tid : Nat) (type : AddressType) (dest : Mac48Address) (it : Item) : Bool :=
  it.hdr.IsQosData && (GetAddressForPacket type it == some dest && it.hdr.GetQosTid == tid)

/-- The method `DequeueByTidAndAddress (hdr, tid, type, dest)`. -/
def DequeueByTidAndAddress (q : WifiMacQueue) (now : Time) (tid : Nat) (type : AddressType)
    (dest : Mac48Address) : Option (Packet × WifiMacHeader) × WifiMacQueue :=
  let q := q.Cleanup now
  if q.m_queue.isEmpty then (none, q)
  else
    match scanErase (tidAddressTest tid type dest) q.m_queue with
    | some (it, others) =>
      (some (it.packet, it.hdr), { q with m_queue := others, m_size := u32dec q.m_size })
    | none => (none, q)

/-- The method `PeekByTidAndAddress (hdr, tid, type, dest)`. -/
def PeekByTidAndAddress (q : WifiMacQueue) (now : Time) (tid : Nat) (type : AddressType)
    (dest : Mac48Address) : Option (Packet × WifiMacHeader) × WifiMacQueue :=
  let q := q.Cleanup now
  if q.m_queue.isEmpty then (none, q)
  else
    match q.m_queue.find? (tidAddressTest tid type dest) with
    | some it => (some (it.packet, it.hdr), q)
    | none => (none, q)

/-- The method `IsEmpty ()`. -/
def IsEmpty (q : WifiMacQueue) (now : Time) : Bool × WifiMacQueue :=
  let q := q.Cleanup now
  (q.m_queue.isEmpty, q)

/-- The method `Flush ()`. -/
def Flush (q : WifiMacQueue) : WifiMacQueue :=
  { q with m_queue := [], m_size := 0 }

/-- The method `Remove (packet)`; it does not call `Cleanup`. -/
def Remove (q : WifiMacQueue) (packet : Packet) : Bool × WifiMacQueue :=
  match scanErase (fun it => it.packet == packet) q.m_queue with
  | some (_, others) => (true, { q with m_queue := others, m_size := u32dec q.m_size })
  | none => (false, q)

/-- The method `PushFront (packet, hdr)`. -/
def PushFront (q : WifiMacQueue) (now : Time) (packet : Packet) (hdr : WifiMacHeader) :
    WifiMacQueue :=
  let q := q.Cleanup now
  if q.m_size = q.m_maxSize then q
  else { q with m_queue := Item.mk packet hdr now :: q.m_queue, m_size := u32inc q.m_size }

/-- The test in the loop of `GetNPacketsByTidAndAddress`. -/
def nPacketsTest (tid : Nat) (type : AddressType) (addr : Mac48Address) (it : Item) : Bool :=
  GetAddressForPacket type it == some addr && (it.hdr.IsQosData && it.hdr.GetQosTid == tid)

/-- The method `GetNPacketsByTidAndAddress (tid, type, addr)`. -/
def GetNPacketsByTidAndAddress (q : WifiMacQueue) (now : Time) (tid : Nat) (type : AddressType)
    (addr : Mac48Address) : Nat × WifiMacQueue :=
  let q := q.Cleanup now
  if q.m_queue.isEmpty then (0, q)
  else (countScan (nPacketsTest tid type addr) q.m_queue, q)

/-- The test in the loops of `DequeueFirstAvailable` and `PeekFirstAvailable`;
`||` does not evaluate `IsBlocked` when the header is not QoS data. -/
def availableTest (blockedPackets : QosBlockedDestinations) (it : Item) : Bool :=
  !it.hdr.IsQosData || !blockedPackets it.hdr.GetAddr1 it.hdr.GetQosTid

/-- The method `DequeueFirstAvailable (hdr, timestamp, blockedPackets)`. -/
def DequeueFirstAvailable (q : WifiMacQueue) (now : Time)
    (blockedPackets : QosBlockedDestinations) :
    Option (Packet × WifiMacHeader × Time) × WifiMacQueue :=
  let q := q.Cleanup now
  match scanErase (availableTest blockedPackets) q.m_queue with
  | some (it, others) =>
    (some (it.packet, it.hdr, it.tstamp),
      { q with m_queue := others, m_size := u32dec q.m_size })
  | none => (none, q)

/-- The method `PeekFirstAvailable (hdr, timestamp, blockedPackets)`. -/
def PeekFirstAvailable (q : WifiMacQueue) (now : Time)
    (blockedPackets : QosBlockedDestinations) :
    Option (Packet × WifiMacHeader × Time) × WifiMacQueue :=
  let q := q.Cleanup now
  match q.m_queue.find? (availableTest blockedPackets) with
  | some it => (some (it.packet, it.hdr, it.tstamp), q)
  | none => (none, q)

end WifiMacQueue

/-! ## The mixed-bias controller -/

/-- The `#define` constants that switch the bias on and parametrise it: `MB`,
`ADAPTIVE`, `A`, `B1` and `B2`. -/
structure MixedBias where
  MB : Bool
  ADAPTIVE : Bool
  A : ℚ
  B1 : ℚ
  B2 : ℚ
  deriving Repr

/-- The constants as the file defines them: `MB` 0, `ADAPTIVE` 0, `A` 0.5,
`B1` 2.0, `B2` 5.0. -/
def MixedBias.compiled : MixedBias where
  MB := false
  ADAPTIVE := false
  A := 1 / 2
  B1 := 2
  B2 := 5

/-- The constant `SEPARATIONDISTANCE`. -/
def SEPARATIONDISTANCE : ℚ := 100

/-- The constant `PACKETRESET`. -/
def PACKETRESET : Nat := 5

/-- The constant `TABURESET`. -/
def TABURESET : Nat := 50

/-- The constant `TABULIFE`, in seconds. -/
def TABULIFE : Int := 5

/-- The local `Time delay = Seconds (0.5)` of `Enqueue`, in nanoseconds. -/
def extraDelay : Time := 500000000

/-- Modelled from the spec: `UdpServer` is declared in `udp-server.h`, which is
not among the sources; the controller reads `GetReceived ()`, `GetLost ()` and
`GetTotalDelay ()`: "cumulative received count, lost count, and cumulative
delay for a given traffic sink". -/
structure UdpServer where
  GetReceived : Nat
  GetLost : Nat
  GetTotalDelay : Time
  deriving Repr

/-- The conversion `Time::GetSeconds ()`. -/
def GetSeconds (t : Time) : ℚ := (t : ℚ) / 1000000000

/-- The conversion of a `double` to `int`, which truncates toward zero. -/
def toInt (x : ℚ) : Int := if 0 ≤ x then Rat.floor x else -Rat.floor (-x)

/-- What one call of `Enqueue` reads from outside the queue: `pow` of the C
library; the distance that `ComputeDistance` obtains from the mobility models
(`msource->GetDistanceFrom (mdest)`); the successive values of
`u.GetValue ()`; the `UdpServer` of the gateway, absent when `GetObject`
returns null; the marks `Delayed ()` of the packets, by identity; the identity
of the packet that `packet->Copy ()` creates; and the number of iterations for
which `while (IsTabu (potential))` is followed. -/
structure Environment where
  pow : ℚ → ℚ → ℚ
  GetDistanceFrom : ℚ
  GetValue : Nat → ℚ
  server : Option UdpServer
  Delayed : Packet → Bool
  Copy : Packet
  tries : Nat

/-- Modelled from the spec: `Packet::Copy`, `Packet::Delayed` and
`Packet::Delay` belong to the class `Packet`, which is not among the sources:
"a packet can be marked delayed at most once; the mark travels with the packet
copy, not the original". The marks after the mark of `p` is set to `b`: the
copy `p` starts with the mark of the original, and `p->Delay ()` sets it. -/
def setMark (marks : Packet → Bool) (p : Packet) (b : Bool) : Packet → Bool :=
  fun x => if x = p then b else marks x

/-- A value of the local `double R` of `Enqueue`: a finite value, held exactly,
an infinity, or NaN. `R` is not finite when `pow` returns 0, as `pow (0, b)`
does for a positive `b`: the divisions then follow IEEE 754 arithmetic. -/
inductive Double where
  | finite (x : ℚ)
  | posInf
  | negInf
  | NaN
  deriving DecidableEq, Repr

instance : Coe ℚ Double := ⟨Double.finite⟩

namespace Double

/-- The operator `/` on two finite values: a quotient by zero is an infinity
with the sign of the dividend, and NaN when the dividend is zero as well. The
zero divisor is the positive zero, which is what `pow` returns for the base 0
that `hops` can be. -/
def div (a d : ℚ) : Double :=
  if d = 0 then
    if 0 < a then posInf else if a < 0 then negInf else NaN
  else finite (a / d)

/-- The operator `+`: the sum of two opposite infinities is NaN. -/
def add : Double → Double → Double
  | finite x, finite y => finite (x + y)
  | NaN, _ => NaN
  | _, NaN => NaN
  | posInf, negInf => NaN
  | negInf, posInf => NaN
  | posInf, _ => posInf
  | _, posInf => posInf
  | negInf, _ => negInf
  | _, negInf => negInf

/-- The operator `*` by a finite value `c`. -/
def mul (x : Double) (c : ℚ) : Double :=
  match x with
  | finite x => finite (x * c)
  | posInf => if 0 < c then posInf else if c < 0 then negInf else NaN
  | negInf => if 0 < c then negInf else if c < 0 then posInf else NaN
  | NaN => NaN

/-- The operator `<`: every comparison with NaN is false. -/
def lt : Double → Double → Bool
  | finite x, finite y => decide (x < y)
  | NaN, _ => false
  | _, NaN => false
  | posInf, _ => false
  | _, negInf => false
  | negInf, _ => true
  | _, posInf => true

end Double

instance : LT Double := ⟨fun x y => Double.lt x y = true⟩

instance (x y : Double) : Decidable (x < y) :=
  inferInstanceAs (Decidable (Double.lt x y = true))

/-- The computation of `R` in `Enqueue`: the formula, the factor 5, and the
override for one hop. -/
def biasProbability (pow : ℚ → ℚ → ℚ) (hops : Int) (a b1 b2 : ℚ) : Double :=
  let R := Double.add (Double.div a (pow hops b1)) (Double.div (1 - a) (pow hops b2))
  let R := Double.mul R 5
  if hops = 1 then Double.finite (19 / 20) else R

/-- The loop `for (x = 0; x < tabuList.size (); x++)` that erases expired tabus:
after an erase the source sets `x = 0` and the loop header then increments it.
The first argument bounds the number of iterations followed. -/
def tabuPruneLoop (now : Time) : Nat → Nat → List Tabu → Option (List Tabu)
  | 0, _, _ => none
  | fuel + 1, x, tabuList =>
    match tabuList[x]? with
    | none => some tabuList
    | some t =>
      if t.expiry < now then tabuPruneLoop now fuel 1 (tabuList.eraseIdx x)
      else tabuPruneLoop now fuel (x + 1) tabuList

/-- The tabu list after the erase loop, started at `x = 0`. -/
def tabuPrune (now : Time) (tabuList : List Tabu) : Option (List Tabu) :=
  tabuPruneLoop now ((tabuList.length + 1) * (tabuList.length + 1) + 1) 0 tabuList

/-- The method `IsTabu (potential)`. -/
def IsTabu (tabuList : List Tabu) (potential : Solution) : Bool :=
  tabuList.any (fun t =>
    decide (potential.ALPHA = t.ALPHA) && decide (potential.BETA1 = t.BETA1) &&
      decide (potential.BETA2 = t.BETA2))

/-- The block `//alpha` of `GetPotentialSolution`, drawing from `GetValue k`
on: the value of `potential.ALPHA` and the index of the next draw. A branch
whose guard fails leaves the value that `Solution ()` gave. The sum and the
difference are exact here; the source rounds them to a `double`, so after
several consecutive steps by 0.1 its value can differ from the exact one in the
last place (0.7 + 0.1 is 0.7999999999999999). A random pick, and the steps of
`BETA1` and `BETA2` by 0.5, involve no rounding. -/
def potentialALPHA (current : Solution) (GetValue : Nat → ℚ) (k : Nat) : ℚ × Nat :=
  let choice := GetValue k
  if choice ≤ 9 / 20 then
    (if current.ALPHA + 1 / 10 < 1 then current.ALPHA + 1 / 10 else Solution.new.ALPHA, k + 1)
  else if choice ≤ 9 / 10 then
    (if current.ALPHA - 1 / 10 > 0 then current.ALPHA - 1 / 10 else Solution.new.ALPHA, k + 1)
  else (GetValue (k + 1), k + 2)

/-- The block `//beta1` of `GetPotentialSolution`. -/
def potentialBETA1 (current : Solution) (GetValue : Nat → ℚ) (k : Nat) : ℚ × Nat :=
  let choice := GetValue k
  if choice ≤ 9 / 20 then
    (if current.BETA1 + 1 / 2 < 15 / 2 then current.BETA1 + 1 / 2 else Solution.new.BETA1, k + 1)
  else if choice ≤ 9 / 10 then
    (if current.BETA1 - 1 / 2 > 0 then current.BETA1 - 1 / 2 else Solution.new.BETA1, k + 1)
  else ((toInt (GetValue (k + 1) * 10) : ℚ), k + 2)

/-- The block `//beta2` of `GetPotentialSolution`. -/
def potentialBETA2 (current : Solution) (GetValue : Nat → ℚ) (k : Nat) : ℚ × Nat :=
  let choice := GetValue k
  if choice ≤ 9 / 20 then
    (if current.BETA2 + 1 / 2 < 15 / 2 then current.BETA2 + 1 / 2 else Solution.new.BETA2, k + 1)
  else if choice ≤ 9 / 10 then
    (if current.BETA2 - 1 / 2 > 0 then current.BETA2 - 1 / 2 else Solution.new.BETA2, k + 1)
  else ((toInt (GetValue (k + 1) * 10) : ℚ), k + 2)

/-- The method `GetPotentialSolution ()`, drawing from `GetValue k` on: the
candidate and the index of the next draw. -/
def GetPotentialSolution (current : Solution) (GetValue : Nat → ℚ) (k : Nat) : Solution × Nat :=
  let a := potentialALPHA current GetValue k
  let b1 := potentialBETA1 current GetValue a.2
  let b2 := potentialBETA2 current GetValue b1.2
  (Solution.mk a.1 b1.1 b2.1 Solution.new.utility, b2.2)

/-- The statements `potential = GetPotentialSolution (); while (IsTabu
(potential)) potential = GetPotentialSolution ();` followed for at most `tries`
calls: the candidate found and the index of the next draw. -/
def searchCandidate (current : Solution) (tabuList : List Tabu) (GetValue : Nat → ℚ) :
    Nat → Nat → Option (Solution × Nat)
  | 0, _ => none
  | tries + 1, k =>
    let r := GetPotentialSolution current GetValue k
    if IsTabu tabuList r.1 then searchCandidate current tabuList GetValue tries r.2
    else some r

/-- The computation of `utility` from the statistics of the server; without a
server `received`, `delay` and `pdr` keep their initial value 0. -/
def cycleUtility (server : Option UdpServer) : ℚ :=
  let stats : ℚ × ℚ :=
    match server with
    | some s =>
      let received : ℚ := s.GetReceived
      let received := if received = 0 then 1 else received
      (GetSeconds s.GetTotalDelay / received, (s.GetReceived : ℚ) / (received + (s.GetLost : ℚ)))
    | none => (0, 0)
  let delay := if stats.1 = 0 then 100000 else stats.1
  1 / delay + stats.2

namespace WifiMacQueue

/-- The body of `if(packetCount > PACKETRESET)` in the adaptive branch of
`Enqueue`: one reconfiguration. The draws of `GetPotentialSolution` start at
`GetValue 1` (`GetValue 0` is `prob`); `prob2` is the draw after them. The
result is `none` when the candidate loop is not finished within `env.tries`
calls. -/
def ReconfigurationCycle (env : Environment) (q : WifiMacQueue) (now : Time) :
    Option WifiMacQueue :=
  match tabuPrune now q.tabuList with
  | none => none
  | some pruned =>
    let q := { q with tabuList := pruned, packetCount := 0,
                      iterationCount := q.iterationCount + 1 }
    let utility := cycleUtility env.server
    let q := { q with current := { q.current with utility := utility } }
    let q :=
      if utility > q.best.utility then
        { q with best := Solution.mk q.current.ALPHA q.current.BETA1 q.current.BETA2 utility }
      else q
    match searchCandidate q.current q.tabuList env.GetValue env.tries 1 with
    | none => none
    | some (potential, k) =>
      let q := { q with
        current := Solution.mk potential.ALPHA potential.BETA1 potential.BETA2 0 }
      let newtabu : Tabu :=
        Tabu.mk (now + Seconds TABULIFE) q.current.ALPHA q.current.BETA1 q.current.BETA2
      let q := { q with tabuList := q.tabuList ++ [newtabu] }
      if q.iterationCount > TABURESET then
        let prob2 := env.GetValue k
        if prob2 < 1 / 2 then
          some { q with
            current := Solution.mk q.best.ALPHA q.best.BETA1 q.best.BETA2 q.best.utility
            iterationCount := 0 }
        else some q
      else some q

/-- The statements `if(distance == -1) ComputeDistance (hdr);`. -/
def withDistance (env : Environment) (q : WifiMacQueue) : WifiMacQueue :=
  if q.distance = -1 then { q with distance := env.GetDistanceFrom } else q

/-- The local `int hops = distance / (double)SEPARATIONDISTANCE`. -/
def hops (q : WifiMacQueue) : Int := toInt (q.distance / SEPARATIONDISTANCE)

/-- The value of `R` that `Enqueue` compares `prob` with: from the constants
`A`, `B1`, `B2` in the static branch, from `current` in the adaptive one. -/
def R (mb : MixedBias) (env : Environment) (q : WifiMacQueue) : Double :=
  if !mb.ADAPTIVE then
    biasProbability env.pow (withDistance env q).hops mb.A mb.B1 mb.B2
  else
    biasProbability env.pow (withDistance env q).hops q.current.ALPHA q.current.BETA1
      q.current.BETA2

/-- The statements `m_queue.push_back (Item (p, hdr, now)); m_size++;`. -/
def push (q : WifiMacQueue) (it : Item) : WifiMacQueue :=
  { q with m_queue := q.m_queue ++ [it], m_size := u32inc q.m_size }

/-- The whole method `Enqueue (packet, hdr)`, the constants of the bias being
`mb`: the queue after the call and the marks `Delayed ()` of the packets
(`none` when a reconfiguration does not finish within `env.tries` candidate
calls). -/
def EnqueueWith (mb : MixedBias) (env : Environment) (q : WifiMacQueue) (now : Time)
    (packet : Packet) (hdr : WifiMacHeader) : Option (WifiMacQueue × (Packet → Bool)) :=
  let q := q.Cleanup now
  if q.m_size = q.m_maxSize then some (q, env.Delayed)
  else if mb.MB then
    let R := R mb env q
    let q := withDistance env q
    let prob := env.GetValue 0
    let marks := setMark env.Delayed env.Copy (env.Delayed packet)
    if !mb.ADAPTIVE then
      if prob > R && !marks env.Copy then
        some (q.push (Item.mk env.Copy hdr (now + extraDelay)), setMark marks env.Copy true)
      else
        some (q.push (Item.mk env.Copy hdr now), marks)
    else
      if prob > R && !marks env.Copy then
        let q := { q with packetCount := q.packetCount + 1 }
        let cycle :=
          if q.packetCount > PACKETRESET then ReconfigurationCycle env q now else some q
        cycle.map (fun q =>
          (q.push (Item.mk env.Copy hdr (now + extraDelay)), setMark marks env.Copy true))
      else
        some (q.push (Item.mk env.Copy hdr now), marks)
  else
    some ({ q with
      packetCount := q.packetCount + 1
      iterationCount := q.iterationCount + 1
      m_queue := q.m_queue ++ [Item.mk packet hdr now]
      m_size := u32inc q.m_size }, env.Delayed)

end WifiMacQueue

/-- Successive `EnqueueWith` calls, each with what it reads from outside, its
time, packet and header. -/
def enqueueAllWith (mb : MixedBias) :
    WifiMacQueue → List (Environment × Time × Packet × WifiMacHeader) → Option WifiMacQueue
  | q, [] => some q
  | q, (env, now, packet, hdr) :: rest =>
    match q.EnqueueWith mb env now packet hdr with
    | none => none
    | some r => enqueueAllWith mb r.1 rest

/-! ## Sequences of operations -/

/-- One call of a public method of the queue, with its arguments. -/
inductive Op where
  | SetMaxSize (maxSize : Nat)
  | SetMaxDelay (delay : Time)
  | Enqueue (packet : Packet) (hdr : WifiMacHeader)
  | PushFront (packet : Packet) (hdr : WifiMacHeader)
  | Dequeue
  | Peek
  | DequeueByTidAndAddress (tid : Nat) (type : AddressType) (dest : Mac48Address)
  | PeekByTidAndAddress (tid : Nat) (type : AddressType) (dest : Mac48Address)
  | DequeueFirstAvailable (blockedPackets : QosBlockedDestinations)
  | PeekFirstAvailable (blockedPackets : QosBlockedDestinations)
  | Remove (packet : Packet)
  | GetNPacketsByTidAndAddress (tid : Nat) (type : AddressType) (addr : Mac48Address)
  | IsEmpty
  | GetSize
  | Flush

/-- The queue after the call `op` made at time `now`. -/
def Op.apply (op : Op) (now : Time) (q : WifiMacQueue) : WifiMacQueue :=
  match op with
  | .SetMaxSize maxSize => q.SetMaxSize maxSize
  | .SetMaxDelay delay => q.SetMaxDelay delay
  | .Enqueue packet hdr => q.Enqueue now packet hdr
  | .PushFront packet hdr => q.PushFront now packet hdr
  | .Dequeue => (q.Dequeue now).2
  | .Peek => (q.Peek now).2
  | .DequeueByTidAndAddress tid type dest => (q.DequeueByTidAndAddress now tid type dest).2
  | .PeekByTidAndAddress tid type dest => (q.PeekByTidAndAddress now tid type dest).2
  | .DequeueFirstAvailable blockedPackets => (q.DequeueFirstAvailable now blockedPackets).2
  | .PeekFirstAvailable blockedPackets => (q.PeekFirstAvailable now blockedPackets).2
  | .Remove packet => (q.Remove packet).2
  | .GetNPacketsByTidAndAddress tid type addr =>
    (q.GetNPacketsByTidAndAddress now tid type addr).2
  | .IsEmpty => (q.IsEmpty now).2
  | .GetSize => q
  | .Flush => q.Flush

/-- The queue after a sequence of timed calls, made in order. -/
def run : List (Time × Op) → WifiMacQueue → WifiMacQueue
  | [], q => q
  | (now, op) :: rest, q => run rest (op.apply now q)

/-- A call of `SetMaxSize` does not set the maximum below the current size;
every other call is unconstrained. -/
def Op.keepsBound : Op → WifiMacQueue → Prop
  | .SetMaxSize maxSize, q => q.GetSize ≤ (q.SetMaxSize maxSize).GetMaxSize
  | _, _ => True

/-- The call is a call of `SetMaxSize`. -/
def Op.isSetMaxSize : Op → Bool
  | .SetMaxSize _ => true
  | _ => false

/-- No `SetMaxSize` in the sequence sets the maximum below the size the queue
has at that moment. -/
def Admissible : List (Time × Op) → WifiMacQueue → Prop
  | [], _ => True
  | (now, op) :: rest, q => op.keepsBound q ∧ Admissible rest (op.apply now q)

instance (op : Op) (q : WifiMacQueue) : Decidable (op.keepsBound q) := by
  cases op <;> (unfold Op.keepsBound; infer_instance)

/-- Admissibility of a concrete sequence can be computed. -/
def decAdmissible : (ops : List (Time × Op)) → (q : WifiMacQueue) →
    Decidable (Admissible ops q)
  | [], _ => isTrue trivial
  | (now, op) :: rest, q =>
    match (inferInstance : Decidable (op.keepsBound q)),
      decAdmissible rest (op.apply now q) with
    | isTrue h1, isTrue h2 => isTrue ⟨h1, h2⟩
    | isFalse h1, _ => isFalse (fun h => h1 h.1)
    | _, isFalse h2 => isFalse (fun h => h2 h.2)

instance (ops : List (Time × Op)) (q : WifiMacQueue) : Decidable (Admissible ops q) :=
  decAdmissible ops q

/-- Successive `Enqueue` calls, each with its time, packet and header. -/
def enqueueAll : WifiMacQueue → List (Time × Packet × WifiMacHeader) → WifiMacQueue
  | q, [] => q
  | q, (now, packet, hdr) :: rest => enqueueAll (q.Enqueue now packet hdr) rest

/-- Successive `Dequeue` calls at the given times: the results in call order,
and the queue left. -/
def dequeueAll : WifiMacQueue → List Time →
    List (Option (Packet × WifiMacHeader)) × WifiMacQueue
  | q, [] => ([], q)
  | q, now :: rest =>
    let r := dequeueAll (q.Dequeue now).2 rest
    ((q.Dequeue now).1 :: r.1, r.2)

/-! ## Vocabulary of the specification -/

/-- The purge rule of the specification: the entries, in order, with
`enqueue_time + max_delay > now`. -/
def unexpired (maxDelay now : Time) (l : List Item) : List Item :=
  l.filter (fun it => decide (it.tstamp + maxDelay > now))

/-- The cached counter agrees with the stored entries and fits `uint32_t`. -/
def Consistent (q : WifiMacQueue) : Prop :=
  q.m_size = q.m_queue.length ∧ q.m_queue.length < UINT32_MOD

/-- The address of a header at a role, for the three roles of the
specification (`ADDR4` has none). -/
def addressAt : AddressType → WifiMacHeader → Option Mac48Address
  | .ADDR1, h => some h.addr1
  | .ADDR2, h => some h.addr2
  | .ADDR3, h => some h.addr3
  | .ADDR4, _ => none

/-- The entry is class-qualified (QoS data), its traffic-class id is `tid` and
its address at role `type` is `dest`. -/
def Matches (tid : Nat) (type : AddressType) (dest : Mac48Address) (it : Item) : Prop :=
  it.hdr.qosData = true ∧ it.hdr.qosTid = tid ∧ addressAt type it.hdr = some dest

instance (tid : Nat) (type : AddressType) (dest : Mac48Address) :
    DecidablePred (Matches tid type dest) := fun it => by
  unfold Matches; infer_instance

/-- The entry is not class-qualified, or is not blocked for its
(destination, traffic class) pair. -/
def Available (blockedPackets : QosBlockedDestinations) (it : Item) : Prop :=
  it.hdr.qosData = false ∨ blockedPackets it.hdr.addr1 it.hdr.qosTid = false

instance (blockedPackets : QosBlockedDestinations) :
    DecidablePred (Available blockedPackets) := fun it => by
  unfold Available; infer_instance

instance (q : WifiMacQueue) : Decidable (Consistent q) := by
  unfold Consistent; infer_instance

/-- The class invariant of a queue whose maximum was never lowered below its
size: the counter agrees with the stored entries, which number at most
`m_maxSize`, a `uint32_t`. -/
def WithinBound (q : WifiMacQueue) : Prop :=
  q.m_size = q.m_queue.length ∧ q.m_queue.length ≤ q.m_maxSize ∧ q.m_maxSize < UINT32_MOD

/-- The entry that `Enqueue` stores for a timed call. -/
def entryOf (e : Time × Packet × WifiMacHeader) : Item := Item.mk e.2.1 e.2.2 e.1

/-- Modelled from the spec: `UniformVariable` is declared in
`random-variable.h`, which is not among the sources; every `u.GetValue ()` of
`UniformVariable u(0,1)` is "a uniform random value `p ∈ [0,1)`". -/
def UnitDraws (GetValue : Nat → ℚ) : Prop :=
  ∀ k, 0 ≤ GetValue k ∧ GetValue k < 1

/-- The ranges in which candidate generation keeps the three parameters:
`ALPHA` in [0,1), `BETA1` and `BETA2` in [0,9]. -/
def InRange (ALPHA BETA1 BETA2 : ℚ) : Prop :=
  (0 ≤ ALPHA ∧ ALPHA < 1) ∧ (0 ≤ BETA1 ∧ BETA1 ≤ 9) ∧ (0 ≤ BETA2 ∧ BETA2 ≤ 9)

/-- The solutions `current` and `best` and every entry of the tabu list have
their parameters in range. -/
def ParametersInRange (q : WifiMacQueue) : Prop :=
  InRange q.current.ALPHA q.current.BETA1 q.current.BETA2 ∧
  InRange q.best.ALPHA q.best.BETA1 q.best.BETA2 ∧
  ∀ t ∈ q.tabuList, InRange t.ALPHA t.BETA1 t.BETA2

/-! ## Sample data -/

/-- A QoS data header of traffic class 0 from station 1 to `dest`. -/
def sampleHdr (dest : Mac48Address) : WifiMacHeader where
  qosData := true
  qosTid := 0
  addr1 := dest
  addr2 := 1
  addr3 := 0

/-- A header that is not QoS data, from station 1 to `dest`. -/
def plainHdr (dest : Mac48Address) : WifiMacHeader where
  qosData := false
  qosTid := 0
  addr1 := dest
  addr2 := 1
  addr3 := 0

/-- The bias switched on in static mode, `A`, `B1`, `B2` as in the file. -/
def staticBias : MixedBias where
  MB := true
  ADAPTIVE := false
  A := 1 / 2
  B1 := 2
  B2 := 5

/-- The bias switched on in adaptive mode. -/
def adaptiveBias : MixedBias where
  MB := true
  ADAPTIVE := true
  A := 1 / 2
  B1 := 2
  B2 := 5

/-- A station one separation distance from the gateway (so `pow (1, b)` is 1),
with the given draws and server, unmarked packets, the copy having identity
77, and three candidate calls followed. -/
def sampleEnv (draws : List ℚ) (server : Option UdpServer) : Environment where
  pow := fun _ _ => 1
  GetDistanceFrom := 100
  GetValue := fun k => draws.getD k 0
  server := server
  Delayed := fun _ => false
  Copy := 77
  tries := 3

/-- A call of `Enqueue` at time 0 for packet 1 whose draw 0.99 exceeds
`R` = 0.95; the draws 0.2 of a reconfiguration step each parameter up. -/
def delayedCall (server : Option UdpServer) :
    Environment × Time × Packet × WifiMacHeader :=
  (sampleEnv [99 / 100, 1 / 5, 1 / 5, 1 / 5, 1 / 5] server, 0, 1, sampleHdr 7)

/-- A server that received 10 packets, lost none, with a total delay of 1 s:
mean delay 0.1 s, delivery ratio 1, utility 11. -/
def goodServer : UdpServer where
  GetReceived := 10
  GetLost := 0
  GetTotalDelay := 1000000000

/-- Draws that all lie strictly between 0 and 1: `prob` is 0.99, every choice
is 0.95 (the branch of the random pick), the pick for `ALPHA` and `BETA1` is
0.95 and the pick for `BETA2` is 0.05. -/
def restartDraws : Nat → ℚ :=
  fun k => if k = 0 then 99 / 100 else if k = 6 then 1 / 20 else 19 / 20

/-- A call of `Enqueue` at time 0 for packet 1, one hop from the gateway, with
the draws `restartDraws` and no server. -/
def restartCall : Environment × Time × Packet × WifiMacHeader :=
  ({ sampleEnv [] none with GetValue := restartDraws }, 0, 1, sampleHdr 7)

/-- The station of the gateway itself: its distance from the gateway is 0, so
`hops` is 0, and `pow (0, b)` is 0; elsewhere `pow` returns 1. -/
def gatewayEnv (draws : List ℚ) : Environment :=
  { sampleEnv draws none with
    pow := fun x _ => if x = 0 then 0 else 1
    GetDistanceFrom := 0 }

/-- A server that received 1 packet, lost none, with a total delay of 1 s: mean
delay 1 s, delivery ratio 1, utility 2, all computed without rounding. -/
def exactServer : UdpServer where
  GetReceived := 1
  GetLost := 0
  GetTotalDelay := 1000000000

/-- A call of `Enqueue` at time 0 for packet 1 whose draw 0.99 exceeds
`R` = 0.95, and whose reconfiguration takes the random pick for each parameter
(the three choices are 0.95): `ALPHA` is the draw `i / 64`, `BETA1` is
`(int)(0.25 * 10)` = 2 and `BETA2` is `(int)(0.5 * 10)` = 5; the last draw,
0.25, is `prob2`. The picked values are binary fractions, which `double`
arithmetic holds and compares exactly. -/
def pickCall (i : Nat) (server : Option UdpServer) :
    Environment × Time × Packet × WifiMacHeader :=
  (sampleEnv [99 / 100, 19 / 20, (i : ℚ) / 64, 19 / 20, 1 / 4, 19 / 20, 1 / 2, 1 / 4] server,
    0, 1, sampleHdr 7)

/-- The calls of the first `n` cycles without a server: six delayed packets for
each cycle, the cycle `i` picking `ALPHA` = `i / 64`. -/
def pickCycles : Nat → List (Environment × Time × Packet × WifiMacHeader)
  | 0 => []
  | n + 1 => pickCycles n ++ List.replicate 6 (pickCall (n + 1) none)

/-! ## Arithmetic of the `uint32_t` counters -/

theorem u32inc_eq (x : Nat) (h : x + 1 < UINT32_MOD) : u32inc x = x + 1 := by
  unfold u32inc
  exact Nat.mod_eq_of_lt h

theorem u32dec_eq (x : Nat) (h0 : 0 < x) (h : x < UINT32_MOD) : u32dec x = x - 1 := by
  unfold u32dec
  have e : x + UINT32_MOD - 1 = (x - 1) + UINT32_MOD := by omega
  rw [e, Nat.add_mod_right]
  exact Nat.mod_eq_of_lt (by omega)

theorem u32sub_eq (x n : Nat) (hn : n ≤ x) (h : x < UINT32_MOD) : u32sub x n = x - n := by
  unfold u32sub
  have hn' : n % UINT32_MOD = n := Nat.mod_eq_of_lt (by omega)
  have e : x + UINT32_MOD - n = (x - n) + UINT32_MOD := by omega
  rw [hn', e, Nat.add_mod_right]
  exact Nat.mod_eq_of_lt (by omega)

/-! ## The loops -/

theorem unexpired_length_le (maxDelay now : Time) (l : List Item) :
    (unexpired maxDelay now l).length ≤ l.length :=
  List.length_filter_le _ _

theorem unexpired_idem (maxDelay now : Time) (l : List Item) :
    unexpired maxDelay now (unexpired maxDelay now l) = unexpired maxDelay now l := by
  unfold unexpired
  rw [List.filter_filter]
  congr 1
  funext it
  simp

theorem unexpired_eq_self (maxDelay now : Time) (l : List Item)
    (h : ∀ it ∈ l, it.tstamp + maxDelay > now) : unexpired maxDelay now l = l := by
  unfold unexpired
  rw [List.filter_eq_self]
  intro it hit
  simpa using h it hit

theorem CleanupScan_fst (maxDelay now : Time) (l : List Item) :
    (CleanupScan maxDelay now l).1 = unexpired maxDelay now l := by
  induction l with
  | nil => rfl
  | cons i rest ih =>
    unfold unexpired at ih ⊢
    by_cases h : i.tstamp + maxDelay > now
    · simp [CleanupScan, h, ih]
    · simp [CleanupScan, h, ih]

theorem CleanupScan_snd (maxDelay now : Time) (l : List Item) (hl : l.length < UINT32_MOD) :
    (CleanupScan maxDelay now l).2 = l.length - (unexpired maxDelay now l).length := by
  induction l with
  | nil => rfl
  | cons i rest ih =>
    have hr : rest.length < UINT32_MOD := by simp at hl; omega
    have ih' := ih hr
    have hle := unexpired_length_le maxDelay now rest
    unfold unexpired at ih' hle ⊢
    by_cases h : i.tstamp + maxDelay > now
    · simp [CleanupScan, h, ih']
    · simp only [CleanupScan, h, if_false, ih', List.filter_cons, decide_False]
      rw [u32inc_eq _ (by simp at hl; omega)]
      simp only [List.length_cons, Bool.false_eq_true, if_false]
      omega

theorem scanErase_none (c : Item → Bool) (l : List Item) :
    scanErase c l = none ↔ ∀ it ∈ l, c it = false := by
  induction l with
  | nil => simp [scanErase]
  | cons i rest ih =>
    by_cases h : c i = true
    · simp [scanErase, h]
    · have h' : c i = false := by simpa using h
      cases hs : scanErase c rest with
      | none =>
        have hall := ih.mp hs
        simp [scanErase, h', hs]
        exact hall
      | some r =>
        have : ¬ ∀ it ∈ rest, c it = false := fun hall => by
          rw [ih.mpr hall] at hs; cases hs
        simp [scanErase, h', hs]
        simpa using this

theorem scanErase_split (c : Item → Bool) (l1 l2 : List Item) (it : Item)
    (h1 : ∀ x ∈ l1, c x = false) (hit : c it = true) :
    scanErase c (l1 ++ it :: l2) = some (it, l1 ++ l2) := by
  induction l1 with
  | nil => simp [scanErase, hit]
  | cons x xs ih =>
    have hx : c x = false := h1 x (List.mem_cons_self _ _)
    have hxs : ∀ y ∈ xs, c y = false := fun y hy => h1 y (List.mem_cons_of_mem _ hy)
    simp [scanErase, hx, ih hxs]

theorem scanErase_some (c : Item → Bool) (l : List Item) (it : Item) (others : List Item)
    (h : scanErase c l = some (it, others)) :
    ∃ l1 l2, l = l1 ++ it :: l2 ∧ others = l1 ++ l2 ∧ (∀ x ∈ l1, c x = false) ∧ c it = true := by
  induction l generalizing others with
  | nil => simp [scanErase] at h
  | cons i rest ih =>
    by_cases hc : c i = true
    · simp [scanErase, hc] at h
      obtain ⟨rfl, rfl⟩ := h
      exact ⟨[], rest, rfl, rfl, by simp, hc⟩
    · have hc' : c i = false := by simpa using hc
      cases hs : scanErase c rest with
      | none => simp [scanErase, hc', hs] at h
      | some r =>
        obtain ⟨f, o⟩ := r
        simp [scanErase, hc', hs] at h
        obtain ⟨rfl, rfl⟩ := h
        obtain ⟨l1, l2, e1, e2, hall, hit⟩ := ih o hs
        refine ⟨i :: l1, l2, by simp [e1], by simp [e2], ?_, hit⟩
        intro x hx
        rcases List.mem_cons.mp hx with rfl | hx
        · exact hc'
        · exact hall x hx

theorem scanErase_find (c : Item → Bool) (l : List Item) :
    (scanErase c l).map Prod.fst = l.find? c := by
  induction l with
  | nil => rfl
  | cons i rest ih =>
    by_cases hc : c i = true
    · simp [scanErase, hc]
    · have hc' : c i = false := by simpa using hc
      cases hs : scanErase c rest with
      | none => rw [hs] at ih; simp [scanErase, hc', hs, ← ih]
      | some r => rw [hs] at ih; simp [scanErase, hc', hs, ← ih]

theorem countScan_eq (c : Item → Bool) (l : List Item) (hl : l.length < UINT32_MOD) :
    countScan c l = l.countP c := by
  induction l with
  | nil => rfl
  | cons i rest ih =>
    have hr : rest.length < UINT32_MOD := by simp at hl; omega
    have hle : rest.countP c ≤ rest.length := List.countP_le_length _
    by_cases hc : c i = true
    · simp only [countScan, hc, if_true, ih hr, List.countP_cons_of_pos]
      exact u32inc_eq _ (by simp at hl; omega)
    · simp [countScan, hc, ih hr]

/-! ## Cleanup on a consistent queue -/

theorem Cleanup_queue (q : WifiMacQueue) (now : Time) :
    (q.Cleanup now).m_queue = unexpired q.m_maxDelay now q.m_queue := by
  unfold WifiMacQueue.Cleanup
  by_cases he : q.m_queue = []
  · simp [he, unexpired]
  · simp [he, CleanupScan_fst]

theorem Cleanup_size (q : WifiMacQueue) (now : Time) (hc : Consistent q) :
    (q.Cleanup now).m_size = (unexpired q.m_maxDelay now q.m_queue).length := by
  obtain ⟨hs, hl⟩ := hc
  unfold WifiMacQueue.Cleanup
  by_cases he : q.m_queue = []
  · simp [he, unexpired, hs]
  · have hle := unexpired_length_le q.m_maxDelay now q.m_queue
    simp only [List.isEmpty_iff, he, if_false]
    rw [CleanupScan_snd _ _ _ hl, hs, u32sub_eq _ _ (by omega) hl]
    omega

theorem Cleanup_fields (q : WifiMacQueue) (now : Time) :
    (q.Cleanup now).m_maxSize = q.m_maxSize ∧ (q.Cleanup now).m_maxDelay = q.m_maxDelay := by
  unfold WifiMacQueue.Cleanup
  split <;> simp

theorem Cleanup_consistent (q : WifiMacQueue) (now : Time) (hc : Consistent q) :
    Consistent (q.Cleanup now) := by
  refine ⟨?_, ?_⟩
  · rw [Cleanup_size q now hc, Cleanup_queue]
  · rw [Cleanup_queue]
    exact lt_of_le_of_lt (unexpired_length_le _ _ _) hc.2

/-! ## Enqueue -/

theorem Enqueue_full (q : WifiMacQueue) (now : Time) (packet : Packet) (hdr : WifiMacHeader)
    (hfull : (q.Cleanup now).m_size = (q.Cleanup now).m_maxSize) :
    q.Enqueue now packet hdr = q.Cleanup now := by
  unfold WifiMacQueue.Enqueue
  dsimp only
  rw [if_pos hfull]

theorem Enqueue_free_queue (q : WifiMacQueue) (now : Time) (packet : Packet)
    (hdr : WifiMacHeader) (hfree : ¬ (q.Cleanup now).m_size = (q.Cleanup now).m_maxSize) :
    (q.Enqueue now packet hdr).m_queue = (q.Cleanup now).m_queue ++ [Item.mk packet hdr now] := by
  unfold WifiMacQueue.Enqueue
  dsimp only
  rw [if_neg hfree]

theorem Enqueue_free_size (q : WifiMacQueue) (now : Time) (packet : Packet)
    (hdr : WifiMacHeader) (hfree : ¬ (q.Cleanup now).m_size = (q.Cleanup now).m_maxSize) :
    (q.Enqueue now packet hdr).m_size = u32inc (q.Cleanup now).m_size := by
  unfold WifiMacQueue.Enqueue
  dsimp only
  rw [if_neg hfree]

theorem Enqueue_fields (q : WifiMacQueue) (now : Time) (packet : Packet) (hdr : WifiMacHeader) :
    (q.Enqueue now packet hdr).m_maxSize = q.m_maxSize ∧
    (q.Enqueue now packet hdr).m_maxDelay = q.m_maxDelay := by
  unfold WifiMacQueue.Enqueue
  dsimp only
  split
  · exact Cleanup_fields q now
  · exact Cleanup_fields q now

/-- C1: `Enqueue` at time `now` purges first. When the purged queue holds
exactly `m_maxSize` entries the packet is dropped: the queue is the purged queue
and the size its length. Otherwise one entry with the given packet and header
(stamped `now`) is appended at the tail, every purged entry keeps its position
and the size is one more than the purged length. -/
theorem Enqueue_drops_when_full_else_appends (q : WifiMacQueue) (now : Time)
    (packet : Packet) (hdr : WifiMacHeader) (hc : Consistent q)
    (hroom : q.m_queue.length + 1 < UINT32_MOD) :
    ((unexpired q.m_maxDelay now q.m_queue).length = q.m_maxSize →
      (q.Enqueue now packet hdr).m_queue = unexpired q.m_maxDelay now q.m_queue ∧
      (q.Enqueue now packet hdr).GetSize = (unexpired q.m_maxDelay now q.m_queue).length) ∧
    ((unexpired q.m_maxDelay now q.m_queue).length ≠ q.m_maxSize →
      (q.Enqueue now packet hdr).m_queue =
        unexpired q.m_maxDelay now q.m_queue ++ [Item.mk packet hdr now] ∧
      (∀ k, k < (unexpired q.m_maxDelay now q.m_queue).length →
        (q.Enqueue now packet hdr).m_queue[k]? = (unexpired q.m_maxDelay now q.m_queue)[k]?) ∧
      (q.Enqueue now packet hdr).GetSize =
        (unexpired q.m_maxDelay now q.m_queue).length + 1) := by
  have hq := Cleanup_queue q now
  have hs := Cleanup_size q now hc
  have hm := (Cleanup_fields q now).1
  have hle := unexpired_length_le q.m_maxDelay now q.m_queue
  constructor
  · intro hfull
    rw [Enqueue_full q now packet hdr (by rw [hs, hm, hfull])]
    exact ⟨hq, hs⟩
  · intro hfree
    have hfree' : ¬ (q.Cleanup now).m_size = (q.Cleanup now).m_maxSize := by
      rw [hs, hm]; exact hfree
    have hqueue := Enqueue_free_queue q now packet hdr hfree'
    rw [hq] at hqueue
    refine ⟨hqueue, ?_, ?_⟩
    · intro k hk
      rw [hqueue]
      exact List.getElem?_append_left hk
    · rw [WifiMacQueue.GetSize, Enqueue_free_size q now packet hdr hfree', hs]
      exact u32inc_eq _ (by omega)

/-- Witness for C1: with `max_size = 3`, four enqueues at the same time into an
empty queue leave exactly the first three entries, in order. -/
theorem Enqueue_drops_when_full_else_appends_witness :
    (enqueueAll (WifiMacQueue.new.SetMaxSize 3)
        [(0, 1, sampleHdr 7), (0, 2, sampleHdr 7), (0, 3, sampleHdr 7),
         (0, 4, sampleHdr 7)]).m_queue =
      [Item.mk 1 (sampleHdr 7) 0, Item.mk 2 (sampleHdr 7) 0, Item.mk 3 (sampleHdr 7) 0] ∧
    (enqueueAll (WifiMacQueue.new.SetMaxSize 3)
        [(0, 1, sampleHdr 7), (0, 2, sampleHdr 7), (0, 3, sampleHdr 7),
         (0, 4, sampleHdr 7)]).GetSize = 3 := by
  have h := (Enqueue_drops_when_full_else_appends
    (enqueueAll (WifiMacQueue.new.SetMaxSize 3)
      [(0, 1, sampleHdr 7), (0, 2, sampleHdr 7), (0, 3, sampleHdr 7)])
    0 4 (sampleHdr 7) (by decide) (by decide)).1 (by decide)
  exact ⟨h.1.trans (by decide), h.2.trans (by decide)⟩

/-! ## The bound `size ≤ max_size` along sequences of calls -/

theorem WithinBound.consistent {q : WifiMacQueue} (h : WithinBound q) : Consistent q :=
  ⟨h.1, lt_of_le_of_lt h.2.1 h.2.2⟩

theorem scanErase_length (c : Item → Bool) (l : List Item) (it : Item) (others : List Item)
    (h : scanErase c l = some (it, others)) : others.length + 1 = l.length := by
  obtain ⟨l1, l2, e1, e2, -, -⟩ := scanErase_some c l it others h
  rw [e1, e2]
  simp
  omega

theorem Cleanup_withinBound (q : WifiMacQueue) (now : Time) (h : WithinBound q) :
    WithinBound (q.Cleanup now) := by
  have hle := unexpired_length_le q.m_maxDelay now q.m_queue
  refine ⟨?_, ?_, ?_⟩
  · rw [Cleanup_size q now h.consistent, Cleanup_queue]
  · rw [Cleanup_queue, (Cleanup_fields q now).1]
    exact le_trans hle h.2.1
  · rw [(Cleanup_fields q now).1]
    exact h.2.2

theorem erase_withinBound (q : WifiMacQueue) (c : Item → Bool) (it : Item)
    (others : List Item) (h : WithinBound q) (hs : scanErase c q.m_queue = some (it, others)) :
    WithinBound { q with m_queue := others, m_size := u32dec q.m_size } := by
  have hlen := scanErase_length c q.m_queue it others hs
  obtain ⟨h1, h2, h3⟩ := h
  refine ⟨?_, ?_, h3⟩
  · show u32dec q.m_size = others.length
    rw [u32dec_eq _ (by omega) (by omega)]
    omega
  · show others.length ≤ q.m_maxSize
    omega

theorem insert_withinBound (q : WifiMacQueue) (l : List Item) (h : WithinBound q)
    (hfree : ¬ q.m_size = q.m_maxSize) (hl : l.length = q.m_queue.length + 1)
    (pc ic : Nat) :
    WithinBound { q with packetCount := pc, iterationCount := ic, m_queue := l,
                         m_size := u32inc q.m_size } := by
  obtain ⟨h1, h2, h3⟩ := h
  refine ⟨?_, ?_, h3⟩
  · show u32inc q.m_size = l.length
    rw [u32inc_eq _ (by omega)]
    omega
  · show l.length ≤ q.m_maxSize
    omega

theorem Enqueue_withinBound (q : WifiMacQueue) (now : Time) (packet : Packet)
    (hdr : WifiMacHeader) (h : WithinBound q) : WithinBound (q.Enqueue now packet hdr) := by
  have hc := Cleanup_withinBound q now h
  unfold WifiMacQueue.Enqueue
  dsimp only
  split
  · exact hc
  · next hfree => exact insert_withinBound _ _ hc hfree (by simp) _ _

theorem PushFront_withinBound (q : WifiMacQueue) (now : Time) (packet : Packet)
    (hdr : WifiMacHeader) (h : WithinBound q) : WithinBound (q.PushFront now packet hdr) := by
  have hc := Cleanup_withinBound q now h
  unfold WifiMacQueue.PushFront
  dsimp only
  split
  · exact hc
  · next hfree =>
    exact insert_withinBound _ _ hc hfree (by simp) (q.Cleanup now).packetCount
      (q.Cleanup now).iterationCount

theorem Dequeue_withinBound (q : WifiMacQueue) (now : Time) (h : WithinBound q) :
    WithinBound (q.Dequeue now).2 := by
  have hc := Cleanup_withinBound q now h
  unfold WifiMacQueue.Dequeue
  dsimp only
  split
  · next i rest hq =>
    exact erase_withinBound (q.Cleanup now) (fun _ => true) i rest hc (by simp [hq, scanErase])
  · exact hc

theorem Peek_withinBound (q : WifiMacQueue) (now : Time) (h : WithinBound q) :
    WithinBound (q.Peek now).2 := by
  have hc := Cleanup_withinBound q now h
  unfold WifiMacQueue.Peek
  dsimp only
  split <;> exact hc

theorem DequeueByTidAndAddress_withinBound (q : WifiMacQueue) (now : Time) (tid : Nat)
    (type : AddressType) (dest : Mac48Address) (h : WithinBound q) :
    WithinBound (q.DequeueByTidAndAddress now tid type dest).2 := by
  have hc := Cleanup_withinBound q now h
  unfold WifiMacQueue.DequeueByTidAndAddress
  dsimp only
  split
  · exact hc
  · split
    · next it others hs => exact erase_withinBound _ _ it others hc hs
    · exact hc

theorem PeekByTidAndAddress_withinBound (q : WifiMacQueue) (now : Time) (tid : Nat)
    (type : AddressType) (dest : Mac48Address) (h : WithinBound q) :
    WithinBound (q.PeekByTidAndAddress now tid type dest).2 := by
  have hc := Cleanup_withinBound q now h
  unfold WifiMacQueue.PeekByTidAndAddress
  dsimp only
  split
  · exact hc
  · split <;> exact hc

theorem DequeueFirstAvailable_withinBound (q : WifiMacQueue) (now : Time)
    (blockedPackets : QosBlockedDestinations) (h : WithinBound q) :
    WithinBound (q.DequeueFirstAvailable now blockedPackets).2 := by
  have hc := Cleanup_withinBound q now h
  unfold WifiMacQueue.DequeueFirstAvailable
  dsimp only
  split
  · next it others hs => exact erase_withinBound _ _ it others hc hs
  · exact hc

theorem PeekFirstAvailable_withinBound (q : WifiMacQueue) (now : Time)
    (blockedPackets : QosBlockedDestinations) (h : WithinBound q) :
    WithinBound (q.PeekFirstAvailable now blockedPackets).2 := by
  have hc := Cleanup_withinBound q now h
  unfold WifiMacQueue.PeekFirstAvailable
  dsimp only
  split <;> exact hc

theorem Remove_withinBound (q : WifiMacQueue) (packet : Packet) (h : WithinBound q) :
    WithinBound (q.Remove packet).2 := by
  unfold WifiMacQueue.Remove
  split
  · next it others hs => exact erase_withinBound _ _ it others h hs
  · exact h

theorem GetNPacketsByTidAndAddress_withinBound (q : WifiMacQueue) (now : Time) (tid : Nat)
    (type : AddressType) (addr : Mac48Address) (h : WithinBound q) :
    WithinBound (q.GetNPacketsByTidAndAddress now tid type addr).2 := by
  have hc := Cleanup_withinBound q now h
  unfold WifiMacQueue.GetNPacketsByTidAndAddress
  dsimp only
  split <;> exact hc

theorem apply_withinBound (op : Op) (now : Time) (q : WifiMacQueue) (h : WithinBound q)
    (hk : op.keepsBound q) : WithinBound (op.apply now q) := by
  cases op with
  | SetMaxSize maxSize =>
    refine ⟨h.1, ?_, ?_⟩
    · have := h.1
      simp only [Op.keepsBound, WifiMacQueue.GetSize, WifiMacQueue.GetMaxSize] at hk
      show q.m_queue.length ≤ (q.SetMaxSize maxSize).m_maxSize
      omega
    · show maxSize % UINT32_MOD < UINT32_MOD
      exact Nat.mod_lt _ (by decide)
  | SetMaxDelay delay => exact h
  | Enqueue packet hdr => exact Enqueue_withinBound q now packet hdr h
  | PushFront packet hdr => exact PushFront_withinBound q now packet hdr h
  | Dequeue => exact Dequeue_withinBound q now h
  | Peek => exact Peek_withinBound q now h
  | DequeueByTidAndAddress tid type dest =>
    exact DequeueByTidAndAddress_withinBound q now tid type dest h
  | PeekByTidAndAddress tid type dest =>
    exact PeekByTidAndAddress_withinBound q now tid type dest h
  | DequeueFirstAvailable blockedPackets =>
    exact DequeueFirstAvailable_withinBound q now blockedPackets h
  | PeekFirstAvailable blockedPackets =>
    exact PeekFirstAvailable_withinBound q now blockedPackets h
  | Remove packet => exact Remove_withinBound q packet h
  | GetNPacketsByTidAndAddress tid type addr =>
    exact GetNPacketsByTidAndAddress_withinBound q now tid type addr h
  | IsEmpty => exact Cleanup_withinBound q now h
  | GetSize => exact h
  | Flush => exact ⟨rfl, Nat.zero_le _, h.2.2⟩

theorem run_append (ops1 ops2 : List (Time × Op)) (q : WifiMacQueue) :
    run (ops1 ++ ops2) q = run ops2 (run ops1 q) := by
  induction ops1 generalizing q with
  | nil => rfl
  | cons x xs ih =>
    obtain ⟨now, op⟩ := x
    exact ih _

theorem Admissible_append_left (ops1 ops2 : List (Time × Op)) (q : WifiMacQueue)
    (h : Admissible (ops1 ++ ops2) q) : Admissible ops1 q := by
  induction ops1 generalizing q with
  | nil => trivial
  | cons x xs ih =>
    obtain ⟨now, op⟩ := x
    exact ⟨h.1, ih _ h.2⟩

theorem run_withinBound (ops : List (Time × Op)) (q : WifiMacQueue) (h : WithinBound q)
    (ha : Admissible ops q) : WithinBound (run ops q) := by
  induction ops generalizing q with
  | nil => exact h
  | cons x xs ih =>
    obtain ⟨now, op⟩ := x
    exact ih _ (apply_withinBound op now q h ha.1) ha.2

theorem new_withinBound : WithinBound WifiMacQueue.new :=
  ⟨rfl, Nat.zero_le _, by decide⟩

/-- C2, as the code has it: starting from a freshly constructed queue, along
every sequence of public calls in which no `SetMaxSize` sets the maximum below
the size the queue has at that moment, `GetSize () ≤ GetMaxSize ()` holds after
every call of the sequence, in particular after every `Enqueue` and every
`PushFront`. -/
theorem size_le_maxSize_after_every_call (ops : List (Time × Op))
    (ha : Admissible ops WifiMacQueue.new) :
    ∀ before after, ops = before ++ after →
      (run before WifiMacQueue.new).GetSize ≤ (run before WifiMacQueue.new).GetMaxSize := by
  intro before after e
  subst e
  have hw := run_withinBound before _ new_withinBound (Admissible_append_left _ _ _ ha)
  have h1 := hw.1
  have h2 := hw.2.1
  show (run before WifiMacQueue.new).m_size ≤ (run before WifiMacQueue.new).m_maxSize
  omega

/-- Witness for C2: a sequence that raises and lowers the maximum without going
below the current size keeps the bound after its `Enqueue` and `PushFront`. -/
theorem size_le_maxSize_after_every_call_witness :
    Admissible [(0, Op.SetMaxSize 3), (0, Op.Enqueue 1 (sampleHdr 7)),
        (1, Op.PushFront 2 (sampleHdr 8)), (2, Op.SetMaxSize 2),
        (3, Op.Enqueue 3 (sampleHdr 7))] WifiMacQueue.new ∧
    (run [(0, Op.SetMaxSize 3), (0, Op.Enqueue 1 (sampleHdr 7)),
        (1, Op.PushFront 2 (sampleHdr 8))] WifiMacQueue.new).GetSize ≤
    (run [(0, Op.SetMaxSize 3), (0, Op.Enqueue 1 (sampleHdr 7)),
        (1, Op.PushFront 2 (sampleHdr 8))] WifiMacQueue.new).GetMaxSize :=
  ⟨by decide,
   size_le_maxSize_after_every_call
     [(0, Op.SetMaxSize 3), (0, Op.Enqueue 1 (sampleHdr 7)),
      (1, Op.PushFront 2 (sampleHdr 8)), (2, Op.SetMaxSize 2),
      (3, Op.Enqueue 3 (sampleHdr 7))]
     (by decide)
     [(0, Op.SetMaxSize 3), (0, Op.Enqueue 1 (sampleHdr 7)),
      (1, Op.PushFront 2 (sampleHdr 8))]
     [(2, Op.SetMaxSize 2), (3, Op.Enqueue 3 (sampleHdr 7))] rfl⟩

/-- Counterexample to C2 as stated: after `SetMaxSize 1` on a queue that holds
two entries, the next `Enqueue` is accepted (the test is `m_size == m_maxSize`)
and leaves size 3 above the maximum 1. -/
theorem size_exceeds_maxSize_after_lowering :
    (run [(0, Op.Enqueue 1 (sampleHdr 7)), (0, Op.Enqueue 2 (sampleHdr 7)),
        (0, Op.SetMaxSize 1), (0, Op.Enqueue 3 (sampleHdr 7))] WifiMacQueue.new).GetSize = 3 ∧
    (run [(0, Op.Enqueue 1 (sampleHdr 7)), (0, Op.Enqueue 2 (sampleHdr 7)),
        (0, Op.SetMaxSize 1), (0, Op.Enqueue 3 (sampleHdr 7))] WifiMacQueue.new).GetMaxSize = 1 ∧
    ¬ ((run [(0, Op.Enqueue 1 (sampleHdr 7)), (0, Op.Enqueue 2 (sampleHdr 7)),
        (0, Op.SetMaxSize 1), (0, Op.Enqueue 3 (sampleHdr 7))] WifiMacQueue.new).GetSize ≤
      (run [(0, Op.Enqueue 1 (sampleHdr 7)), (0, Op.Enqueue 2 (sampleHdr 7)),
        (0, Op.SetMaxSize 1), (0, Op.Enqueue 3 (sampleHdr 7))] WifiMacQueue.new).GetMaxSize) := by
  decide

/-! ## Dequeue -/

theorem Dequeue_fst (q : WifiMacQueue) (now : Time) :
    (q.Dequeue now).1 =
      (unexpired q.m_maxDelay now q.m_queue).head?.map (fun i => (i.packet, i.hdr)) := by
  have hq := Cleanup_queue q now
  unfold WifiMacQueue.Dequeue
  dsimp only
  split
  · next i rest h => rw [← hq, h]; rfl
  · next h => rw [← hq, h]; rfl

theorem Dequeue_queue (q : WifiMacQueue) (now : Time) :
    (q.Dequeue now).2.m_queue = (unexpired q.m_maxDelay now q.m_queue).tail := by
  have hq := Cleanup_queue q now
  unfold WifiMacQueue.Dequeue
  dsimp only
  split
  · next i rest h => rw [← hq, h]; rfl
  · next h => rw [← hq, h]; rfl

theorem Dequeue_size (q : WifiMacQueue) (now : Time) (hc : Consistent q) :
    (q.Dequeue now).2.m_size = (unexpired q.m_maxDelay now q.m_queue).tail.length := by
  have hq := Cleanup_queue q now
  have hs := Cleanup_size q now hc
  have hlt := (Cleanup_consistent q now hc).2
  unfold WifiMacQueue.Dequeue
  dsimp only
  split
  · next i rest h =>
    rw [← hq, h]
    rw [h] at hlt
    show u32dec (q.Cleanup now).m_size = rest.length
    rw [hs, ← hq, h, u32dec_eq _ (by simp) hlt]
    simp
  · next h => rw [hs, ← hq, h]; rfl

theorem Dequeue_fields (q : WifiMacQueue) (now : Time) :
    (q.Dequeue now).2.m_maxSize = q.m_maxSize ∧ (q.Dequeue now).2.m_maxDelay = q.m_maxDelay := by
  unfold WifiMacQueue.Dequeue
  dsimp only
  split
  · exact Cleanup_fields q now
  · exact Cleanup_fields q now

theorem Dequeue_consistent (q : WifiMacQueue) (now : Time) (hc : Consistent q) :
    Consistent (q.Dequeue now).2 := by
  refine ⟨?_, ?_⟩
  · rw [Dequeue_size q now hc, Dequeue_queue]
  · rw [Dequeue_queue]
    have h1 := unexpired_length_le q.m_maxDelay now q.m_queue
    have h2 := hc.2
    simp only [List.length_tail]
    omega

/-! ## FIFO order -/

theorem enqueueAll_live (es : List (Time × Packet × WifiMacHeader)) :
    ∀ q : WifiMacQueue, WithinBound q → q.m_queue.length + es.length ≤ q.m_maxSize →
      (∀ it ∈ q.m_queue, ∀ e ∈ es, it.tstamp + q.m_maxDelay > e.1) →
      es.Pairwise (fun e e' => e.1 + q.m_maxDelay > e'.1) →
      (enqueueAll q es).m_queue = q.m_queue ++ es.map entryOf ∧
      WithinBound (enqueueAll q es) ∧
      (enqueueAll q es).m_maxDelay = q.m_maxDelay := by
  induction es with
  | nil => intro q hw _ _ _; exact ⟨by simp [enqueueAll], hw, rfl⟩
  | cons e rest ih =>
    intro q hw hn hlive hpair
    obtain ⟨now, packet, hdr⟩ := e
    have hpurge : unexpired q.m_maxDelay now q.m_queue = q.m_queue :=
      unexpired_eq_self _ _ _ (fun it hit => hlive it hit _ (List.mem_cons_self _ _))
    have hcq := Cleanup_queue q now
    have hcs := Cleanup_size q now hw.consistent
    have hcm := (Cleanup_fields q now).1
    rw [hpurge] at hcq hcs
    have hfree : ¬ (q.Cleanup now).m_size = (q.Cleanup now).m_maxSize := by
      rw [hcs, hcm]
      simp only [List.length_cons] at hn
      omega
    have hq' : (q.Enqueue now packet hdr).m_queue = q.m_queue ++ [Item.mk packet hdr now] := by
      rw [Enqueue_free_queue q now packet hdr hfree, hcq]
    have hf := Enqueue_fields q now packet hdr
    have hw' := Enqueue_withinBound q now packet hdr hw
    obtain ⟨hhead, htail⟩ := List.pairwise_cons.mp hpair
    have := ih (q.Enqueue now packet hdr) hw'
      (by rw [hq', hf.1]; simp only [List.length_append, List.length_cons, List.length_nil] at hn ⊢
          omega)
      (by
        intro it hit e he
        rw [hf.2]
        rw [hq'] at hit
        rcases List.mem_append.mp hit with hit | hit
        · exact hlive it hit e (List.mem_cons_of_mem _ he)
        · have : it = Item.mk packet hdr now := by simpa using hit
          subst this
          exact hhead e he)
      (by rw [hf.2]; exact htail)
    obtain ⟨h1, h2, h3⟩ := this
    refine ⟨?_, h2, h3.trans hf.2⟩
    show (enqueueAll (q.Enqueue now packet hdr) rest).m_queue = _
    rw [h1, hq']
    simp [entryOf]

theorem dequeueAll_live (ds : List Time) :
    ∀ q : WifiMacQueue, Consistent q → ds.length = q.m_queue.length →
      (∀ it ∈ q.m_queue, ∀ t ∈ ds, it.tstamp + q.m_maxDelay > t) →
      (dequeueAll q ds).1 = q.m_queue.map (fun it => some (it.packet, it.hdr)) ∧
      (dequeueAll q ds).2.m_queue = [] := by
  induction ds with
  | nil =>
    intro q _ hlen _
    have : q.m_queue = [] := List.length_eq_zero.mp hlen.symm
    simp [dequeueAll, this]
  | cons now rest ih =>
    intro q hc hlen hlive
    cases hq : q.m_queue with
    | nil => rw [hq] at hlen; simp at hlen
    | cons i others =>
      have hpurge : unexpired q.m_maxDelay now q.m_queue = q.m_queue :=
        unexpired_eq_self _ _ _ (fun it hit => hlive it hit _ (List.mem_cons_self _ _))
      have h1 := Dequeue_fst q now
      have h2 := Dequeue_queue q now
      rw [hpurge, hq] at h1 h2
      simp only [List.head?_cons, Option.map_some', List.tail_cons] at h1 h2
      have hf := (Dequeue_fields q now).2
      have := ih (q.Dequeue now).2 (Dequeue_consistent q now hc)
        (by rw [h2]; rw [hq] at hlen; simpa using hlen)
        (by
          intro it hit t ht
          rw [hf]
          rw [h2] at hit
          exact hlive it (by rw [hq]; exact List.mem_cons_of_mem _ hit) t
            (List.mem_cons_of_mem _ ht))
      obtain ⟨r1, r2⟩ := this
      refine ⟨?_, r2⟩
      show (q.Dequeue now).1 :: (dequeueAll (q.Dequeue now).2 rest).1 = _
      rw [r1, h1, h2]
      simp

/-- C3: FIFO. Into an empty queue, `n ≤ max_size` packets are enqueued in order
(bias is compiled out), no entry reaching its expiry before the calls that
follow it; then `n` successive `Dequeue` calls return exactly those packets
with their headers in enqueue order, and one more `Dequeue` returns nothing. -/
theorem Dequeue_returns_enqueue_order (q : WifiMacQueue)
    (es : List (Time × Packet × WifiMacHeader)) (ds : List Time) (last : Time)
    (hw : WithinBound q) (hempty : q.m_queue = [])
    (hn : es.length ≤ q.GetMaxSize) (hd : ds.length = es.length)
    (hlive : es.Pairwise (fun e e' => e.1 + q.GetMaxDelay > e'.1))
    (hlive' : ∀ e ∈ es, ∀ t ∈ ds, e.1 + q.GetMaxDelay > t) :
    (dequeueAll (enqueueAll q es) ds).1 = es.map (fun e => some (e.2.1, e.2.2)) ∧
    ((dequeueAll (enqueueAll q es) ds).2.Dequeue last).1 = none := by
  obtain ⟨h1, h2, h3⟩ := enqueueAll_live es q hw
    (by rw [hempty]; simpa [WifiMacQueue.GetMaxSize] using hn)
    (by rw [hempty]; intro it hit; cases hit) hlive
  rw [hempty, List.nil_append] at h1
  obtain ⟨r1, r2⟩ := dequeueAll_live ds (enqueueAll q es) h2.consistent
    (by rw [h1, hd]; simp)
    (by
      intro it hit t ht
      rw [h1] at hit
      obtain ⟨e, he, rfl⟩ := List.mem_map.mp hit
      rw [h3]
      exact hlive' e he t ht)
  constructor
  · rw [r1, h1]
    simp [entryOf]
  · rw [Dequeue_fst, r2]
    rfl

/-- Witness for C3: three packets enqueued at times 0, 1, 2 into a fresh queue
come out in that order at times 3, 4, 5, and the fourth `Dequeue` is empty. -/
theorem Dequeue_returns_enqueue_order_witness :
    (dequeueAll (enqueueAll WifiMacQueue.new
        [(0, 11, sampleHdr 7), (1, 12, plainHdr 8), (2, 13, sampleHdr 9)]) [3, 4, 5]).1 =
      [some (11, sampleHdr 7), some (12, plainHdr 8), some (13, sampleHdr 9)] ∧
    ((dequeueAll (enqueueAll WifiMacQueue.new
        [(0, 11, sampleHdr 7), (1, 12, plainHdr 8), (2, 13, sampleHdr 9)]) [3, 4, 5]).2.Dequeue
      6).1 = none :=
  Dequeue_returns_enqueue_order WifiMacQueue.new
    [(0, 11, sampleHdr 7), (1, 12, plainHdr 8), (2, 13, sampleHdr 9)] [3, 4, 5] 6
    new_withinBound rfl (by decide) rfl (by decide) (by decide)

/-! ## Expiry -/

theorem Enqueue_into_empty (q : WifiMacQueue) (T : Time) (packet : Packet)
    (hdr : WifiMacHeader) (hc : Consistent q) (hempty : q.m_queue = [])
    (hmax : 0 < q.GetMaxSize) :
    (q.Enqueue T packet hdr).m_queue = [Item.mk packet hdr T] := by
  have hcq := Cleanup_queue q T
  have hcs := Cleanup_size q T hc
  have hcm := (Cleanup_fields q T).1
  rw [hempty] at hcq hcs
  have hfree : ¬ (q.Cleanup T).m_size = (q.Cleanup T).m_maxSize := by
    rw [hcs, hcm]
    simp only [unexpired, List.filter_nil, List.length_nil]
    unfold WifiMacQueue.GetMaxSize at hmax
    omega
  rw [Enqueue_free_queue q T packet hdr hfree, hcq]
  rfl

/-- C4: expiry. A packet enqueued at time `T` into an empty queue of capacity at
least one, with no call in between, is returned by `Dequeue` at time `t` when
`t < T + max_delay`, and `Dequeue` returns nothing when `T + max_delay ≤ t`
(the purge rule removes an entry with `enqueue_time + max_delay ≤ now`). -/
theorem Dequeue_before_and_after_expiry (q : WifiMacQueue) (T t : Time) (packet : Packet)
    (hdr : WifiMacHeader) (hc : Consistent q) (hempty : q.m_queue = [])
    (hmax : 0 < q.GetMaxSize) :
    (t < T + q.GetMaxDelay → ((q.Enqueue T packet hdr).Dequeue t).1 = some (packet, hdr)) ∧
    (T + q.GetMaxDelay ≤ t → ((q.Enqueue T packet hdr).Dequeue t).1 = none) := by
  have hq := Enqueue_into_empty q T packet hdr hc hempty hmax
  have hd := (Enqueue_fields q T packet hdr).2
  unfold WifiMacQueue.GetMaxDelay
  constructor
  · intro hlt
    rw [Dequeue_fst, hq, hd]
    have : decide (T + q.m_maxDelay > t) = true := by simpa using hlt
    simp [unexpired, List.filter_cons, this]
  · intro hge
    rw [Dequeue_fst, hq, hd]
    have : decide (T + q.m_maxDelay > t) = false := by simpa using hge
    simp [unexpired, List.filter_cons, this]

/-- Witness for C4: with the default `max_delay` of 10 s, a packet enqueued at
time 5 ns is returned one nanosecond before its expiry and is absent at it. -/
theorem Dequeue_before_and_after_expiry_witness :
    ((WifiMacQueue.new.Enqueue 5 21 (sampleHdr 7)).Dequeue 10000000004).1 =
      some (21, sampleHdr 7) ∧
    ((WifiMacQueue.new.Enqueue 5 21 (sampleHdr 7)).Dequeue 10000000005).1 = none :=
  ⟨(Dequeue_before_and_after_expiry WifiMacQueue.new 5 10000000004 21 (sampleHdr 7)
      (by decide) rfl (by decide)).1 (by decide),
   (Dequeue_before_and_after_expiry WifiMacQueue.new 5 10000000005 21 (sampleHdr 7)
      (by decide) rfl (by decide)).2 (by decide)⟩

/-! ## Selective dequeue by traffic class and address -/

theorem tidAddressTest_iff (tid : Nat) (type : AddressType) (dest : Mac48Address) (it : Item) :
    WifiMacQueue.tidAddressTest tid type dest it = true ↔ Matches tid type dest it := by
  cases type <;>
    simp [WifiMacQueue.tidAddressTest, WifiMacQueue.GetAddressForPacket, Matches, addressAt,
      WifiMacHeader.IsQosData, WifiMacHeader.GetQosTid, WifiMacHeader.GetAddr1,
      WifiMacHeader.GetAddr2, WifiMacHeader.GetAddr3] <;>
    exact fun _ => and_comm

theorem tidAddressTest_false (tid : Nat) (type : AddressType) (dest : Mac48Address)
    (it : Item) (h : ¬ Matches tid type dest it) :
    WifiMacQueue.tidAddressTest tid type dest it = false := by
  cases ht : WifiMacQueue.tidAddressTest tid type dest it with
  | false => rfl
  | true => exact absurd ((tidAddressTest_iff tid type dest it).mp ht) h

theorem DequeueByTidAndAddress_none (q : WifiMacQueue) (now : Time) (tid : Nat)
    (type : AddressType) (dest : Mac48Address)
    (hs : scanErase (WifiMacQueue.tidAddressTest tid type dest) (q.Cleanup now).m_queue = none) :
    q.DequeueByTidAndAddress now tid type dest = (none, q.Cleanup now) := by
  unfold WifiMacQueue.DequeueByTidAndAddress
  dsimp only
  split
  · rfl
  · rw [hs]

theorem DequeueByTidAndAddress_some (q : WifiMacQueue) (now : Time) (tid : Nat)
    (type : AddressType) (dest : Mac48Address) (it : Item) (others : List Item)
    (hs : scanErase (WifiMacQueue.tidAddressTest tid type dest) (q.Cleanup now).m_queue =
      some (it, others)) :
    q.DequeueByTidAndAddress now tid type dest =
      (some (it.packet, it.hdr),
        { q.Cleanup now with m_queue := others, m_size := u32dec (q.Cleanup now).m_size }) := by
  unfold WifiMacQueue.DequeueByTidAndAddress
  dsimp only
  split
  · next he =>
    rw [List.isEmpty_iff.mp he] at hs
    cases hs
  · rw [hs]

theorem erased_size (q : WifiMacQueue) (c : Item → Bool) (it : Item) (others : List Item)
    (hc : Consistent q) (hs : scanErase c q.m_queue = some (it, others)) :
    u32dec q.m_size = others.length := by
  have hlen := scanErase_length c q.m_queue it others hs
  obtain ⟨h1, h2⟩ := hc
  rw [u32dec_eq _ (by omega) (by omega)]
  omega

/-- C5: `DequeueByTidAndAddress (tid, type, dest)` purges, then returns the first
entry in queue order that is QoS data with traffic-class id `tid` and whose
address at role `type` is `dest`; exactly that entry is removed, the size goes
down by one and the other entries keep their order. When no entry matches, the
result is empty and the queue is the purged queue. The result is empty only
when no purged entry matches. -/
theorem DequeueByTidAndAddress_first_match (q : WifiMacQueue) (now : Time) (tid : Nat)
    (type : AddressType) (dest : Mac48Address) (hc : Consistent q) :
    ((∀ it ∈ unexpired q.m_maxDelay now q.m_queue, ¬ Matches tid type dest it) →
      (q.DequeueByTidAndAddress now tid type dest).1 = none ∧
      (q.DequeueByTidAndAddress now tid type dest).2.m_queue =
        unexpired q.m_maxDelay now q.m_queue ∧
      (q.DequeueByTidAndAddress now tid type dest).2.GetSize =
        (unexpired q.m_maxDelay now q.m_queue).length) ∧
    (∀ l1 it l2, unexpired q.m_maxDelay now q.m_queue = l1 ++ it :: l2 →
      (∀ x ∈ l1, ¬ Matches tid type dest x) → Matches tid type dest it →
      (q.DequeueByTidAndAddress now tid type dest).1 = some (it.packet, it.hdr) ∧
      (q.DequeueByTidAndAddress now tid type dest).2.m_queue = l1 ++ l2 ∧
      (q.DequeueByTidAndAddress now tid type dest).2.GetSize + 1 =
        (unexpired q.m_maxDelay now q.m_queue).length) ∧
    ((q.DequeueByTidAndAddress now tid type dest).1 = none →
      ∀ it ∈ unexpired q.m_maxDelay now q.m_queue, ¬ Matches tid type dest it) := by
  have hq := Cleanup_queue q now
  have hsz := Cleanup_size q now hc
  have hcc := Cleanup_consistent q now hc
  refine ⟨?_, ?_, ?_⟩
  · intro hno
    have hs : scanErase (WifiMacQueue.tidAddressTest tid type dest) (q.Cleanup now).m_queue =
        none := by
      rw [scanErase_none, hq]
      exact fun it hit => tidAddressTest_false tid type dest it (hno it hit)
    rw [DequeueByTidAndAddress_none q now tid type dest hs]
    exact ⟨rfl, hq, hsz⟩
  · intro l1 it l2 hsplit hl1 hit
    have hs : scanErase (WifiMacQueue.tidAddressTest tid type dest) (q.Cleanup now).m_queue =
        some (it, l1 ++ l2) := by
      rw [hq, hsplit]
      exact scanErase_split _ l1 l2 it
        (fun x hx => tidAddressTest_false tid type dest x (hl1 x hx))
        ((tidAddressTest_iff tid type dest it).mpr hit)
    have he := erased_size (q.Cleanup now) _ it (l1 ++ l2) hcc hs
    rw [DequeueByTidAndAddress_some q now tid type dest it (l1 ++ l2) hs]
    refine ⟨rfl, rfl, ?_⟩
    rw [WifiMacQueue.GetSize, he, hsplit]
    simp only [List.length_append, List.length_cons]
    omega
  · intro hnone it hit hm
    cases hs : scanErase (WifiMacQueue.tidAddressTest tid type dest) (q.Cleanup now).m_queue with
    | none =>
      rw [scanErase_none, hq] at hs
      have := hs it hit
      rw [(tidAddressTest_iff tid type dest it).mpr hm] at this
      cases this
    | some r =>
      obtain ⟨f, o⟩ := r
      rw [DequeueByTidAndAddress_some q now tid type dest f o hs] at hnone
      cases hnone

/-- Witness for C5: with an entry for destination 7 followed by one for
destination 8, dequeuing for destination 8 returns the second packet and the
entry for destination 7 remains, alone, at the head. -/
theorem DequeueByTidAndAddress_first_match_witness :
    ((enqueueAll WifiMacQueue.new
        [(0, 1, sampleHdr 7), (0, 2, sampleHdr 8)]).DequeueByTidAndAddress 0 0
          AddressType.ADDR1 8).1 = some (2, sampleHdr 8) ∧
    ((enqueueAll WifiMacQueue.new
        [(0, 1, sampleHdr 7), (0, 2, sampleHdr 8)]).DequeueByTidAndAddress 0 0
          AddressType.ADDR1 8).2.m_queue = [Item.mk 1 (sampleHdr 7) 0] :=
  have h := (DequeueByTidAndAddress_first_match
    (enqueueAll WifiMacQueue.new [(0, 1, sampleHdr 7), (0, 2, sampleHdr 8)]) 0 0
    AddressType.ADDR1 8 (by decide)).2.1
    [Item.mk 1 (sampleHdr 7) 0] (Item.mk 2 (sampleHdr 8) 0) [] (by decide) (by decide)
    (by decide)
  ⟨h.1, h.2.1⟩

/-! ## Dequeue of the first available entry -/

theorem availableTest_iff (blockedPackets : QosBlockedDestinations) (it : Item) :
    WifiMacQueue.availableTest blockedPackets it = true ↔ Available blockedPackets it := by
  simp [WifiMacQueue.availableTest, Available, WifiMacHeader.IsQosData,
    WifiMacHeader.GetQosTid, WifiMacHeader.GetAddr1]

theorem availableTest_false (blockedPackets : QosBlockedDestinations) (it : Item)
    (h : ¬ Available blockedPackets it) :
    WifiMacQueue.availableTest blockedPackets it = false := by
  cases ht : WifiMacQueue.availableTest blockedPackets it with
  | false => rfl
  | true => exact absurd ((availableTest_iff blockedPackets it).mp ht) h

theorem scanErase_congr (c c' : Item → Bool) (l : List Item) (h : ∀ x ∈ l, c x = c' x) :
    scanErase c l = scanErase c' l := by
  induction l with
  | nil => rfl
  | cons i rest ih =>
    have hi : c i = c' i := h i (List.mem_cons_self _ _)
    have hr := ih (fun x hx => h x (List.mem_cons_of_mem _ hx))
    simp only [scanErase, hi, hr]

theorem DequeueFirstAvailable_none (q : WifiMacQueue) (now : Time)
    (blockedPackets : QosBlockedDestinations)
    (hs : scanErase (WifiMacQueue.availableTest blockedPackets) (q.Cleanup now).m_queue = none) :
    q.DequeueFirstAvailable now blockedPackets = (none, q.Cleanup now) := by
  unfold WifiMacQueue.DequeueFirstAvailable
  dsimp only
  rw [hs]

theorem DequeueFirstAvailable_some (q : WifiMacQueue) (now : Time)
    (blockedPackets : QosBlockedDestinations) (it : Item) (others : List Item)
    (hs : scanErase (WifiMacQueue.availableTest blockedPackets) (q.Cleanup now).m_queue =
      some (it, others)) :
    q.DequeueFirstAvailable now blockedPackets =
      (some (it.packet, it.hdr, it.tstamp),
        { q.Cleanup now with m_queue := others, m_size := u32dec (q.Cleanup now).m_size }) := by
  unfold WifiMacQueue.DequeueFirstAvailable
  dsimp only
  rw [hs]

/-- C6: `DequeueFirstAvailable (blockedPackets)` purges, then returns packet,
header and time stamp of the first entry in queue order that is not QoS data or
is not blocked for (its `ADDR1`, its traffic-class id); exactly that entry is
removed and the others keep their order. The result is empty, with the purged
queue unchanged, exactly when every purged entry is QoS data and blocked. The
answers of `IsBlocked` matter only at QoS entries: two predicates that agree on
the (address, tid) pairs of the purged QoS entries give the same call. -/
theorem DequeueFirstAvailable_first_unblocked (q : WifiMacQueue) (now : Time)
    (blockedPackets : QosBlockedDestinations) (hc : Consistent q) :
    (∀ l1 it l2, unexpired q.m_maxDelay now q.m_queue = l1 ++ it :: l2 →
      (∀ x ∈ l1, ¬ Available blockedPackets x) → Available blockedPackets it →
      (q.DequeueFirstAvailable now blockedPackets).1 = some (it.packet, it.hdr, it.tstamp) ∧
      (q.DequeueFirstAvailable now blockedPackets).2.m_queue = l1 ++ l2 ∧
      (q.DequeueFirstAvailable now blockedPackets).2.GetSize + 1 =
        (unexpired q.m_maxDelay now q.m_queue).length) ∧
    ((q.DequeueFirstAvailable now blockedPackets).1 = none ↔
      ∀ it ∈ unexpired q.m_maxDelay now q.m_queue,
        it.hdr.IsQosData = true ∧
        blockedPackets it.hdr.GetAddr1 it.hdr.GetQosTid = true) ∧
    ((q.DequeueFirstAvailable now blockedPackets).1 = none →
      (q.DequeueFirstAvailable now blockedPackets).2.m_queue =
        unexpired q.m_maxDelay now q.m_queue ∧
      (q.DequeueFirstAvailable now blockedPackets).2.GetSize =
        (unexpired q.m_maxDelay now q.m_queue).length) ∧
    (∀ other : QosBlockedDestinations,
      (∀ it ∈ unexpired q.m_maxDelay now q.m_queue, it.hdr.IsQosData = true →
        other it.hdr.GetAddr1 it.hdr.GetQosTid =
          blockedPackets it.hdr.GetAddr1 it.hdr.GetQosTid) →
      q.DequeueFirstAvailable now other = q.DequeueFirstAvailable now blockedPackets) := by
  have hq := Cleanup_queue q now
  have hsz := Cleanup_size q now hc
  have hcc := Cleanup_consistent q now hc
  refine ⟨?_, ?_, ?_, ?_⟩
  · intro l1 it l2 hsplit hl1 hit
    have hs : scanErase (WifiMacQueue.availableTest blockedPackets) (q.Cleanup now).m_queue =
        some (it, l1 ++ l2) := by
      rw [hq, hsplit]
      exact scanErase_split _ l1 l2 it
        (fun x hx => availableTest_false blockedPackets x (hl1 x hx))
        ((availableTest_iff blockedPackets it).mpr hit)
    have he := erased_size (q.Cleanup now) _ it (l1 ++ l2) hcc hs
    rw [DequeueFirstAvailable_some q now blockedPackets it (l1 ++ l2) hs]
    refine ⟨rfl, rfl, ?_⟩
    rw [WifiMacQueue.GetSize, he, hsplit]
    simp only [List.length_append, List.length_cons]
    omega
  · cases hs : scanErase (WifiMacQueue.availableTest blockedPackets)
        (q.Cleanup now).m_queue with
    | none =>
      rw [DequeueFirstAvailable_none q now blockedPackets hs]
      rw [scanErase_none, hq] at hs
      refine ⟨fun _ it hit => ?_, fun _ => rfl⟩
      have := hs it hit
      simpa [WifiMacQueue.availableTest] using this
    | some r =>
      obtain ⟨f, o⟩ := r
      rw [DequeueFirstAvailable_some q now blockedPackets f o hs]
      obtain ⟨l1, l2, e1, -, -, hf⟩ := scanErase_some _ _ f o hs
      refine ⟨fun h => (by cases h), fun hall => ?_⟩
      have hmem : f ∈ unexpired q.m_maxDelay now q.m_queue := by
        rw [← hq, e1]; simp
      have := hall f hmem
      simp [WifiMacQueue.availableTest, this.1, this.2] at hf
  · intro hnone
    cases hs : scanErase (WifiMacQueue.availableTest blockedPackets)
        (q.Cleanup now).m_queue with
    | none =>
      rw [DequeueFirstAvailable_none q now blockedPackets hs]
      exact ⟨hq, by rw [WifiMacQueue.GetSize, hsz]⟩
    | some r =>
      obtain ⟨f, o⟩ := r
      rw [DequeueFirstAvailable_some q now blockedPackets f o hs] at hnone
      cases hnone
  · intro other hagree
    have hcongr : scanErase (WifiMacQueue.availableTest other) (q.Cleanup now).m_queue =
        scanErase (WifiMacQueue.availableTest blockedPackets) (q.Cleanup now).m_queue := by
      apply scanErase_congr
      intro x hx
      rw [hq] at hx
      cases hqos : x.hdr.IsQosData with
      | false => simp [WifiMacQueue.availableTest, hqos]
      | true => simp [WifiMacQueue.availableTest, hqos, hagree x hx hqos]
    unfold WifiMacQueue.DequeueFirstAvailable
    dsimp only
    rw [hcongr]

/-- Witness for C6: behind a blocked QoS entry for destination 7, the entry that
is not QoS data is returned although destination 8 is blocked as well, and the
blocked entry stays at the head. -/
theorem DequeueFirstAvailable_first_unblocked_witness :
    ((enqueueAll WifiMacQueue.new
        [(0, 1, sampleHdr 7), (1, 2, plainHdr 8)]).DequeueFirstAvailable 2
          (fun _ _ => true)).1 = some (2, plainHdr 8, 1) ∧
    ((enqueueAll WifiMacQueue.new
        [(0, 1, sampleHdr 7), (1, 2, plainHdr 8)]).DequeueFirstAvailable 2
          (fun _ _ => true)).2.m_queue = [Item.mk 1 (sampleHdr 7) 0] :=
  have h := (DequeueFirstAvailable_first_unblocked
    (enqueueAll WifiMacQueue.new [(0, 1, sampleHdr 7), (1, 2, plainHdr 8)]) 2
    (fun _ _ => true) (by decide)).1
    [Item.mk 1 (sampleHdr 7) 0] (Item.mk 2 (plainHdr 8) 1) [] (by decide) (by decide)
    (by decide)
  ⟨h.1, h.2.1⟩

/-! ## Peek and dequeue -/

theorem Peek_fst (q : WifiMacQueue) (now : Time) : (q.Peek now).1 = (q.Dequeue now).1 := by
  unfold WifiMacQueue.Peek WifiMacQueue.Dequeue
  dsimp only
  cases (q.Cleanup now).m_queue <;> rfl

theorem Peek_snd (q : WifiMacQueue) (now : Time) : (q.Peek now).2 = q.Cleanup now := by
  unfold WifiMacQueue.Peek
  dsimp only
  cases (q.Cleanup now).m_queue <;> rfl

theorem DequeueByTidAndAddress_fst (q : WifiMacQueue) (now : Time) (tid : Nat)
    (type : AddressType) (dest : Mac48Address) :
    (q.DequeueByTidAndAddress now tid type dest).1 =
      ((q.Cleanup now).m_queue.find? (WifiMacQueue.tidAddressTest tid type dest)).map
        (fun it => (it.packet, it.hdr)) := by
  rw [← scanErase_find]
  cases hs : scanErase (WifiMacQueue.tidAddressTest tid type dest) (q.Cleanup now).m_queue with
  | none => rw [DequeueByTidAndAddress_none q now tid type dest hs]; rfl
  | some r =>
    obtain ⟨f, o⟩ := r
    rw [DequeueByTidAndAddress_some q now tid type dest f o hs]
    rfl

theorem PeekByTidAndAddress_fst (q : WifiMacQueue) (now : Time) (tid : Nat)
    (type : AddressType) (dest : Mac48Address) :
    (q.PeekByTidAndAddress now tid type dest).1 =
      ((q.Cleanup now).m_queue.find? (WifiMacQueue.tidAddressTest tid type dest)).map
        (fun it => (it.packet, it.hdr)) := by
  unfold WifiMacQueue.PeekByTidAndAddress
  dsimp only
  split
  · next he => rw [List.isEmpty_iff.mp he]; rfl
  · split
    · next it hf => rw [hf]; rfl
    · next hf => rw [hf]; rfl

theorem PeekByTidAndAddress_snd (q : WifiMacQueue) (now : Time) (tid : Nat)
    (type : AddressType) (dest : Mac48Address) :
    (q.PeekByTidAndAddress now tid type dest).2 = q.Cleanup now := by
  unfold WifiMacQueue.PeekByTidAndAddress
  dsimp only
  split
  · rfl
  · split <;> rfl

theorem DequeueFirstAvailable_fst (q : WifiMacQueue) (now : Time)
    (blockedPackets : QosBlockedDestinations) :
    (q.DequeueFirstAvailable now blockedPackets).1 =
      ((q.Cleanup now).m_queue.find? (WifiMacQueue.availableTest blockedPackets)).map
        (fun it => (it.packet, it.hdr, it.tstamp)) := by
  rw [← scanErase_find]
  cases hs : scanErase (WifiMacQueue.availableTest blockedPackets) (q.Cleanup now).m_queue with
  | none => rw [DequeueFirstAvailable_none q now blockedPackets hs]; rfl
  | some r =>
    obtain ⟨f, o⟩ := r
    rw [DequeueFirstAvailable_some q now blockedPackets f o hs]
    rfl

theorem PeekFirstAvailable_fst (q : WifiMacQueue) (now : Time)
    (blockedPackets : QosBlockedDestinations) :
    (q.PeekFirstAvailable now blockedPackets).1 =
      ((q.Cleanup now).m_queue.find? (WifiMacQueue.availableTest blockedPackets)).map
        (fun it => (it.packet, it.hdr, it.tstamp)) := by
  unfold WifiMacQueue.PeekFirstAvailable
  dsimp only
  split
  · next it hf => rw [hf]; rfl
  · next hf => rw [hf]; rfl

theorem PeekFirstAvailable_snd (q : WifiMacQueue) (now : Time)
    (blockedPackets : QosBlockedDestinations) :
    (q.PeekFirstAvailable now blockedPackets).2 = q.Cleanup now := by
  unfold WifiMacQueue.PeekFirstAvailable
  dsimp only
  split <;> rfl

theorem Cleanup_size_unchanged (q : WifiMacQueue) (now : Time) (hc : Consistent q)
    (hlive : ∀ it ∈ q.m_queue, it.tstamp + q.m_maxDelay > now) :
    (q.Cleanup now).m_queue = q.m_queue ∧ (q.Cleanup now).m_size = q.m_size := by
  have he := unexpired_eq_self _ _ _ hlive
  refine ⟨?_, ?_⟩
  · rw [Cleanup_queue, he]
  · rw [Cleanup_size q now hc, he, hc.1]

/-- C7, as the code has it: each of `Peek`, `PeekByTidAndAddress` and
`PeekFirstAvailable` returns exactly the result of `Dequeue`,
`DequeueByTidAndAddress` and `DequeueFirstAvailable` on the same queue at the
same time; a peek removes the expired entries and nothing else: the queue after
it is the purged queue, the size its length, and both equal those before the
peek when no entry has expired. -/
theorem Peek_agrees_with_Dequeue (q : WifiMacQueue) (now : Time) (tid : Nat)
    (type : AddressType) (dest : Mac48Address) (blockedPackets : QosBlockedDestinations)
    (hc : Consistent q) :
    (q.Peek now).1 = (q.Dequeue now).1 ∧
    (q.PeekByTidAndAddress now tid type dest).1 =
      (q.DequeueByTidAndAddress now tid type dest).1 ∧
    (q.PeekFirstAvailable now blockedPackets).1 =
      (q.DequeueFirstAvailable now blockedPackets).1 ∧
    (∀ after : WifiMacQueue,
      after = (q.Peek now).2 ∨ after = (q.PeekByTidAndAddress now tid type dest).2 ∨
        after = (q.PeekFirstAvailable now blockedPackets).2 →
      after.m_queue = unexpired q.m_maxDelay now q.m_queue ∧
      after.GetSize = (unexpired q.m_maxDelay now q.m_queue).length ∧
      ((∀ it ∈ q.m_queue, it.tstamp + q.m_maxDelay > now) →
        after.m_queue = q.m_queue ∧ after.GetSize = q.GetSize)) := by
  refine ⟨Peek_fst q now, ?_, ?_, ?_⟩
  · rw [PeekByTidAndAddress_fst, DequeueByTidAndAddress_fst]
  · rw [PeekFirstAvailable_fst, DequeueFirstAvailable_fst]
  · intro after hafter
    have e : after = q.Cleanup now := by
      rcases hafter with h | h | h
      · rw [h, Peek_snd]
      · rw [h, PeekByTidAndAddress_snd]
      · rw [h, PeekFirstAvailable_snd]
    rw [e]
    refine ⟨Cleanup_queue q now, ?_, ?_⟩
    · rw [WifiMacQueue.GetSize, Cleanup_size q now hc]
    · intro hlive
      have := Cleanup_size_unchanged q now hc hlive
      exact ⟨this.1, by rw [WifiMacQueue.GetSize, WifiMacQueue.GetSize, this.2]⟩

/-- Witness for C7: on a queue with an expired head, `Peek` and `Dequeue` both
return the second packet. -/
theorem Peek_agrees_with_Dequeue_witness :
    ((enqueueAll WifiMacQueue.new
        [(0, 1, sampleHdr 7), (5, 2, sampleHdr 8)]).Peek 10000000000).1 =
      some (2, sampleHdr 8) ∧
    ((enqueueAll WifiMacQueue.new
        [(0, 1, sampleHdr 7), (5, 2, sampleHdr 8)]).Dequeue 10000000000).1 =
      some (2, sampleHdr 8) :=
  have h := (Peek_agrees_with_Dequeue
    (enqueueAll WifiMacQueue.new [(0, 1, sampleHdr 7), (5, 2, sampleHdr 8)]) 10000000000
    0 AddressType.ADDR1 8 (fun _ _ => false) (by decide)).1
  ⟨h.trans (by decide), by decide⟩

/-- Counterexample to C7 as stated: a `Peek` at the expiry time of the only
entry returns nothing and leaves the queue empty with size 0, whereas before
the call the queue held that entry and had size 1. -/
theorem Peek_removes_expired_entry :
    ((WifiMacQueue.new.Enqueue 0 1 (sampleHdr 7)).Peek 10000000000).1 = none ∧
    (WifiMacQueue.new.Enqueue 0 1 (sampleHdr 7)).m_queue = [Item.mk 1 (sampleHdr 7) 0] ∧
    (WifiMacQueue.new.Enqueue 0 1 (sampleHdr 7)).GetSize = 1 ∧
    ((WifiMacQueue.new.Enqueue 0 1 (sampleHdr 7)).Peek 10000000000).2.m_queue = [] ∧
    ((WifiMacQueue.new.Enqueue 0 1 (sampleHdr 7)).Peek 10000000000).2.GetSize = 0 ∧
    ((WifiMacQueue.new.Enqueue 0 1 (sampleHdr 7)).Peek 10000000000).2.m_queue ≠
      (WifiMacQueue.new.Enqueue 0 1 (sampleHdr 7)).m_queue := by
  decide

/-! ## Remove -/

theorem Remove_none (q : WifiMacQueue) (packet : Packet)
    (hs : scanErase (fun it => it.packet == packet) q.m_queue = none) :
    q.Remove packet = (false, q) := by
  unfold WifiMacQueue.Remove
  rw [hs]

theorem Remove_some (q : WifiMacQueue) (packet : Packet) (it : Item) (others : List Item)
    (hs : scanErase (fun it => it.packet == packet) q.m_queue = some (it, others)) :
    q.Remove packet = (true, { q with m_queue := others, m_size := u32dec q.m_size }) := by
  unfold WifiMacQueue.Remove
  rw [hs]

/-- C8: `Remove (packet)` returns true exactly when some entry of the queue
holds that packet identity. When it does, the first such entry is removed, the
size goes down by one and the other entries keep their order; when it returns
false the queue is unchanged. -/
theorem Remove_first_with_identity (q : WifiMacQueue) (packet : Packet) (hc : Consistent q) :
    ((q.Remove packet).1 = true ↔ ∃ it ∈ q.m_queue, it.packet = packet) ∧
    (∀ l1 it l2, q.m_queue = l1 ++ it :: l2 → (∀ x ∈ l1, x.packet ≠ packet) →
      it.packet = packet →
      (q.Remove packet).1 = true ∧ (q.Remove packet).2.m_queue = l1 ++ l2 ∧
      (q.Remove packet).2.GetSize + 1 = q.GetSize) ∧
    ((q.Remove packet).1 = false → (q.Remove packet).2 = q) := by
  refine ⟨?_, ?_, ?_⟩
  · cases hs : scanErase (fun it => it.packet == packet) q.m_queue with
    | none =>
      rw [Remove_none q packet hs]
      rw [scanErase_none] at hs
      refine ⟨fun h => (by cases h), fun ⟨it, hit, hp⟩ => ?_⟩
      have := hs it hit
      simp [hp] at this
    | some r =>
      obtain ⟨f, o⟩ := r
      rw [Remove_some q packet f o hs]
      obtain ⟨l1, l2, e1, -, -, hf⟩ := scanErase_some _ _ f o hs
      refine ⟨fun _ => ⟨f, by rw [e1]; simp, by simpa using hf⟩, fun _ => rfl⟩
  · intro l1 it l2 hsplit hl1 hit
    have hs : scanErase (fun it => it.packet == packet) q.m_queue = some (it, l1 ++ l2) := by
      rw [hsplit]
      exact scanErase_split _ l1 l2 it (fun x hx => by simpa using hl1 x hx)
        (by simpa using hit)
    have he := erased_size q _ it (l1 ++ l2) hc hs
    rw [Remove_some q packet it (l1 ++ l2) hs]
    refine ⟨rfl, rfl, ?_⟩
    rw [WifiMacQueue.GetSize, WifiMacQueue.GetSize, he, hc.1, hsplit]
    simp only [List.length_append, List.length_cons]
    omega
  · intro hfalse
    cases hs : scanErase (fun it => it.packet == packet) q.m_queue with
    | none => rw [Remove_none q packet hs]
    | some r =>
      obtain ⟨f, o⟩ := r
      rw [Remove_some q packet f o hs] at hfalse
      cases hfalse

/-- Witness for C8: of two entries holding packet 1, `Remove` takes the first
and leaves the other entries in order. -/
theorem Remove_first_with_identity_witness :
    ((enqueueAll WifiMacQueue.new
        [(0, 1, sampleHdr 7), (0, 2, sampleHdr 8), (0, 1, sampleHdr 9)]).Remove 1).1 = true ∧
    ((enqueueAll WifiMacQueue.new
        [(0, 1, sampleHdr 7), (0, 2, sampleHdr 8), (0, 1, sampleHdr 9)]).Remove 1).2.m_queue =
      [Item.mk 2 (sampleHdr 8) 0, Item.mk 1 (sampleHdr 9) 0] :=
  have h := (Remove_first_with_identity
    (enqueueAll WifiMacQueue.new
      [(0, 1, sampleHdr 7), (0, 2, sampleHdr 8), (0, 1, sampleHdr 9)]) 1 (by decide)).2.1
    [] (Item.mk 1 (sampleHdr 7) 0) [Item.mk 2 (sampleHdr 8) 0, Item.mk 1 (sampleHdr 9) 0]
    (by decide) (by decide) (by decide)
  ⟨h.1, h.2.1⟩

/-! ## PushFront -/

theorem PushFront_full (q : WifiMacQueue) (now : Time) (packet : Packet) (hdr : WifiMacHeader)
    (hfull : (q.Cleanup now).m_size = (q.Cleanup now).m_maxSize) :
    q.PushFront now packet hdr = q.Cleanup now := by
  unfold WifiMacQueue.PushFront
  dsimp only
  rw [if_pos hfull]

theorem PushFront_free_queue (q : WifiMacQueue) (now : Time) (packet : Packet)
    (hdr : WifiMacHeader) (hfree : ¬ (q.Cleanup now).m_size = (q.Cleanup now).m_maxSize) :
    (q.PushFront now packet hdr).m_queue = Item.mk packet hdr now :: (q.Cleanup now).m_queue := by
  unfold WifiMacQueue.PushFront
  dsimp only
  rw [if_neg hfree]

theorem PushFront_free_size (q : WifiMacQueue) (now : Time) (packet : Packet)
    (hdr : WifiMacHeader) (hfree : ¬ (q.Cleanup now).m_size = (q.Cleanup now).m_maxSize) :
    (q.PushFront now packet hdr).m_size = u32inc (q.Cleanup now).m_size := by
  unfold WifiMacQueue.PushFront
  dsimp only
  rw [if_neg hfree]

theorem PushFront_fields (q : WifiMacQueue) (now : Time) (packet : Packet)
    (hdr : WifiMacHeader) :
    (q.PushFront now packet hdr).m_maxSize = q.m_maxSize ∧
    (q.PushFront now packet hdr).m_maxDelay = q.m_maxDelay := by
  unfold WifiMacQueue.PushFront
  dsimp only
  split
  · exact Cleanup_fields q now
  · exact Cleanup_fields q now

/-- C9: `PushFront (packet, hdr)` at time `now` purges first. When the purged
queue holds `m_maxSize` entries the packet is dropped and the queue is the
purged queue. Otherwise the new entry, stamped `now`, is the head, the purged
entries follow in their order and the size is one more; then, for
`max_delay > 0`, a `Dequeue` at the same time returns the pushed packet and
header. -/
theorem PushFront_inserts_at_head (q : WifiMacQueue) (now : Time) (packet : Packet)
    (hdr : WifiMacHeader) (hc : Consistent q) (hroom : q.m_queue.length + 1 < UINT32_MOD) :
    ((unexpired q.m_maxDelay now q.m_queue).length = q.m_maxSize →
      (q.PushFront now packet hdr).m_queue = unexpired q.m_maxDelay now q.m_queue ∧
      (q.PushFront now packet hdr).GetSize = (unexpired q.m_maxDelay now q.m_queue).length) ∧
    ((unexpired q.m_maxDelay now q.m_queue).length ≠ q.m_maxSize →
      (q.PushFront now packet hdr).m_queue =
        Item.mk packet hdr now :: unexpired q.m_maxDelay now q.m_queue ∧
      (q.PushFront now packet hdr).GetSize =
        (unexpired q.m_maxDelay now q.m_queue).length + 1 ∧
      (0 < q.m_maxDelay →
        ((q.PushFront now packet hdr).Dequeue now).1 = some (packet, hdr))) := by
  have hq := Cleanup_queue q now
  have hs := Cleanup_size q now hc
  have hm := (Cleanup_fields q now).1
  have hle := unexpired_length_le q.m_maxDelay now q.m_queue
  constructor
  · intro hfull
    rw [PushFront_full q now packet hdr (by rw [hs, hm, hfull])]
    exact ⟨hq, by rw [WifiMacQueue.GetSize, hs]⟩
  · intro hfree
    have hfree' : ¬ (q.Cleanup now).m_size = (q.Cleanup now).m_maxSize := by
      rw [hs, hm]; exact hfree
    have hqueue := PushFront_free_queue q now packet hdr hfree'
    rw [hq] at hqueue
    refine ⟨hqueue, ?_, ?_⟩
    · rw [WifiMacQueue.GetSize, PushFront_free_size q now packet hdr hfree', hs]
      exact u32inc_eq _ (by omega)
    · intro hpos
      rw [Dequeue_fst, hqueue, (PushFront_fields q now packet hdr).2]
      have hlive : decide (now + q.m_maxDelay > now) = true :=
        decide_eq_true (lt_add_of_pos_right now hpos)
      rw [unexpired, List.filter_cons, if_pos hlive]
      rfl

/-- Witness for C9: a packet pushed in front of a waiting entry is the head and
is what the next `Dequeue` at the same time returns. -/
theorem PushFront_inserts_at_head_witness :
    ((enqueueAll WifiMacQueue.new [(0, 1, sampleHdr 7)]).PushFront 1 2 (sampleHdr 8)).m_queue =
      [Item.mk 2 (sampleHdr 8) 1, Item.mk 1 (sampleHdr 7) 0] ∧
    ((enqueueAll WifiMacQueue.new [(0, 1, sampleHdr 7)]).PushFront 1 2 (sampleHdr 8)).GetSize =
      2 ∧
    (((enqueueAll WifiMacQueue.new [(0, 1, sampleHdr 7)]).PushFront 1 2
      (sampleHdr 8)).Dequeue 1).1 = some (2, sampleHdr 8) :=
  have h := (PushFront_inserts_at_head (enqueueAll WifiMacQueue.new [(0, 1, sampleHdr 7)])
    1 2 (sampleHdr 8) (by decide) (by decide)).2 (by decide)
  ⟨h.1.trans (by decide), h.2.1.trans (by decide), h.2.2 (by decide)⟩

/-! ## Counting by traffic class and address -/

theorem nPacketsTest_iff (tid : Nat) (type : AddressType) (addr : Mac48Address) (it : Item) :
    WifiMacQueue.nPacketsTest tid type addr it = true ↔ Matches tid type addr it := by
  cases type <;>
    simp [WifiMacQueue.nPacketsTest, WifiMacQueue.GetAddressForPacket, Matches, addressAt,
      WifiMacHeader.IsQosData, WifiMacHeader.GetQosTid, WifiMacHeader.GetAddr1,
      WifiMacHeader.GetAddr2, WifiMacHeader.GetAddr3] <;>
    exact ⟨fun h => ⟨h.2.1, h.2.2, h.1⟩, fun h => ⟨h.2.2, h.1, h.2.1⟩⟩

theorem nPacketsTest_eq (tid : Nat) (type : AddressType) (addr : Mac48Address) :
    WifiMacQueue.nPacketsTest tid type addr = WifiMacQueue.tidAddressTest tid type addr := by
  funext it
  rw [Bool.eq_iff_iff, nPacketsTest_iff, tidAddressTest_iff]

theorem tidAddressTest_eq_decide (tid : Nat) (type : AddressType) (addr : Mac48Address) :
    WifiMacQueue.tidAddressTest tid type addr = fun it => decide (Matches tid type addr it) := by
  funext it
  rw [Bool.eq_iff_iff, tidAddressTest_iff, decide_eq_true_iff]

theorem GetNPacketsByTidAndAddress_fst (q : WifiMacQueue) (now : Time) (tid : Nat)
    (type : AddressType) (addr : Mac48Address) :
    (q.GetNPacketsByTidAndAddress now tid type addr).1 =
      countScan (WifiMacQueue.nPacketsTest tid type addr) (q.Cleanup now).m_queue := by
  unfold WifiMacQueue.GetNPacketsByTidAndAddress
  dsimp only
  split
  · next he => rw [List.isEmpty_iff.mp he]; rfl
  · rfl

theorem GetNPacketsByTidAndAddress_snd (q : WifiMacQueue) (now : Time) (tid : Nat)
    (type : AddressType) (addr : Mac48Address) :
    (q.GetNPacketsByTidAndAddress now tid type addr).2 = q.Cleanup now := by
  unfold WifiMacQueue.GetNPacketsByTidAndAddress
  dsimp only
  split <;> rfl

theorem GetNPacketsByTidAndAddress_count (q : WifiMacQueue) (now : Time) (tid : Nat)
    (type : AddressType) (addr : Mac48Address) (hc : Consistent q) :
    (q.GetNPacketsByTidAndAddress now tid type addr).1 =
      (unexpired q.m_maxDelay now q.m_queue).countP
        (WifiMacQueue.tidAddressTest tid type addr) := by
  rw [GetNPacketsByTidAndAddress_fst, countScan_eq _ _ (Cleanup_consistent q now hc).2,
    Cleanup_queue, nPacketsTest_eq]

theorem DequeueByTidAndAddress_state (q : WifiMacQueue) (now : Time) (tid : Nat)
    (type : AddressType) (dest : Mac48Address) (it : Item) (others : List Item)
    (hc : Consistent q)
    (hs : scanErase (WifiMacQueue.tidAddressTest tid type dest) (q.Cleanup now).m_queue =
      some (it, others)) :
    (q.DequeueByTidAndAddress now tid type dest).2.m_queue = others ∧
    (q.DequeueByTidAndAddress now tid type dest).2.m_size = others.length ∧
    (q.DequeueByTidAndAddress now tid type dest).2.m_maxDelay = q.m_maxDelay := by
  have he := erased_size (q.Cleanup now) _ it others (Cleanup_consistent q now hc) hs
  rw [DequeueByTidAndAddress_some q now tid type dest it others hs]
  exact ⟨rfl, he, (Cleanup_fields q now).2⟩

theorem unexpired_of_split (maxDelay now : Time) (l l1 l2 : List Item) (it : Item)
    (h : unexpired maxDelay now l = l1 ++ it :: l2) :
    unexpired maxDelay now (l1 ++ l2) = l1 ++ l2 := by
  apply unexpired_eq_self
  intro x hx
  have hmem : x ∈ unexpired maxDelay now l := by
    rw [h]
    rcases List.mem_append.mp hx with hx | hx
    · exact List.mem_append_left _ hx
    · exact List.mem_append_right _ (List.mem_cons_of_mem _ hx)
  have := (List.mem_filter.mp hmem).2
  simpa using this

/-- C10: `GetNPacketsByTidAndAddress (tid, type, addr)` returns the number of
unexpired entries that are QoS data with traffic-class id `tid` and whose
address at role `type` is `addr`, and removes none of them (the queue after the
call is the purged queue). The count is positive exactly when
`DequeueByTidAndAddress` with the same arguments at the same time returns an
entry, and after one such dequeue the count is lower by exactly one. -/
theorem GetNPacketsByTidAndAddress_counts_matches (q : WifiMacQueue) (now : Time) (tid : Nat)
    (type : AddressType) (addr : Mac48Address) (hc : Consistent q) :
    (q.GetNPacketsByTidAndAddress now tid type addr).1 =
      (unexpired q.m_maxDelay now q.m_queue).countP
        (fun it => decide (Matches tid type addr it)) ∧
    (q.GetNPacketsByTidAndAddress now tid type addr).2.m_queue =
      unexpired q.m_maxDelay now q.m_queue ∧
    (q.GetNPacketsByTidAndAddress now tid type addr).2.GetSize =
      (unexpired q.m_maxDelay now q.m_queue).length ∧
    (0 < (q.GetNPacketsByTidAndAddress now tid type addr).1 ↔
      (q.DequeueByTidAndAddress now tid type addr).1 ≠ none) ∧
    ((q.DequeueByTidAndAddress now tid type addr).1 ≠ none →
      ((q.DequeueByTidAndAddress now tid type addr).2.GetNPacketsByTidAndAddress now tid type
        addr).1 + 1 = (q.GetNPacketsByTidAndAddress now tid type addr).1) := by
  have hq := Cleanup_queue q now
  have hcount := GetNPacketsByTidAndAddress_count q now tid type addr hc
  refine ⟨?_, ?_, ?_, ?_, ?_⟩
  · rw [hcount, tidAddressTest_eq_decide]
  · rw [GetNPacketsByTidAndAddress_snd, hq]
  · rw [GetNPacketsByTidAndAddress_snd, WifiMacQueue.GetSize, Cleanup_size q now hc]
  · rw [hcount, DequeueByTidAndAddress_fst, hq, List.countP_pos_iff]
    cases hf : (unexpired q.m_maxDelay now q.m_queue).find?
        (WifiMacQueue.tidAddressTest tid type addr) with
    | none =>
      rw [List.find?_eq_none] at hf
      constructor
      · rintro ⟨x, hx, hcx⟩
        exact absurd hcx (hf x hx)
      · intro h
        exact absurd rfl h
    | some x =>
      constructor
      · intro _ h
        cases h
      · intro _
        exact ⟨x, List.mem_of_find?_eq_some hf, List.find?_some hf⟩
  · intro hsome
    cases hs : scanErase (WifiMacQueue.tidAddressTest tid type addr) (q.Cleanup now).m_queue with
    | none =>
      rw [DequeueByTidAndAddress_none q now tid type addr hs] at hsome
      exact absurd rfl hsome
    | some r =>
      obtain ⟨f, o⟩ := r
      obtain ⟨l1, l2, e1, e2, hl1, hf⟩ := scanErase_some _ _ f o hs
      obtain ⟨s1, s2, s3⟩ := DequeueByTidAndAddress_state q now tid type addr f o hc hs
      have hc' : Consistent (q.DequeueByTidAndAddress now tid type addr).2 := by
        refine ⟨by rw [s2, s1], ?_⟩
        rw [s1]
        have h1 := scanErase_length _ _ f o hs
        have h2 := (Cleanup_consistent q now hc).2
        omega
      rw [hq] at e1
      rw [GetNPacketsByTidAndAddress_count _ now tid type addr hc', hcount, s1, s3, e2,
        unexpired_of_split _ _ _ l1 l2 f e1, e1]
      have hl1' : l1.countP (WifiMacQueue.tidAddressTest tid type addr) = 0 := by
        rw [List.countP_eq_zero]
        intro x hx
        rw [hl1 x hx]
        simp
      simp only [List.countP_append, List.countP_cons, hf, if_true, hl1']
      omega

/-- Witness for C10: of three waiting entries two are QoS data of class 0 for
destination 8; the count is 2 and is 1 after one selective dequeue. -/
theorem GetNPacketsByTidAndAddress_counts_matches_witness :
    ((enqueueAll WifiMacQueue.new
        [(0, 1, sampleHdr 8), (0, 2, sampleHdr 7), (0, 3, sampleHdr 8)]).GetNPacketsByTidAndAddress
          1 0 AddressType.ADDR1 8).1 = 2 ∧
    (((enqueueAll WifiMacQueue.new
        [(0, 1, sampleHdr 8), (0, 2, sampleHdr 7), (0, 3, sampleHdr 8)]).DequeueByTidAndAddress
          1 0 AddressType.ADDR1 8).2.GetNPacketsByTidAndAddress 1 0 AddressType.ADDR1 8).1 + 1 =
      2 :=
  have h := GetNPacketsByTidAndAddress_counts_matches
    (enqueueAll WifiMacQueue.new
      [(0, 1, sampleHdr 8), (0, 2, sampleHdr 7), (0, 3, sampleHdr 8)])
    1 0 AddressType.ADDR1 8 (by decide)
  ⟨h.1.trans (by decide), (h.2.2.2.2 (by decide)).trans (by decide)⟩

/-! ## Purging before each operation -/

/-- C11, at the failing input: `Remove` does not call `Cleanup`. On a queue
whose two entries, stamped 0, have both expired at time 10 s, removing packet 2
at that time returns true and leaves the expired entry of packet 1 in the
queue, whereas `IsEmpty` at the same time purges both. -/
theorem Remove_keeps_expired_entry :
    ((Op.Remove 2).apply 10000000000
        (enqueueAll WifiMacQueue.new [(0, 1, sampleHdr 7), (0, 2, sampleHdr 8)])).m_queue =
      [Item.mk 1 (sampleHdr 7) 0] ∧
    (0 : Time) +
      ((Op.Remove 2).apply 10000000000
        (enqueueAll WifiMacQueue.new
          [(0, 1, sampleHdr 7), (0, 2, sampleHdr 8)])).m_maxDelay ≤ 10000000000 ∧
    (Op.IsEmpty.apply 10000000000
        (enqueueAll WifiMacQueue.new [(0, 1, sampleHdr 7), (0, 2, sampleHdr 8)])).m_queue =
      [] := by
  decide

/-! ## The time stamp and the dequeue operations -/

/-- C12, as the code has it: no dequeue operation compares the time stamp of an
entry with `now`. Each of `Dequeue`, `DequeueByTidAndAddress` and
`DequeueFirstAvailable` returns only an entry of the queue that has not expired
at `now` (`tstamp + max_delay > now`). -/
theorem Dequeue_returns_only_unexpired (q : WifiMacQueue) (now : Time) (tid : Nat)
    (type : AddressType) (dest : Mac48Address) (blockedPackets : QosBlockedDestinations) :
    (∀ p h, (q.Dequeue now).1 = some (p, h) →
      ∃ it ∈ q.m_queue, it.packet = p ∧ it.hdr = h ∧ it.tstamp + q.m_maxDelay > now) ∧
    (∀ p h, (q.DequeueByTidAndAddress now tid type dest).1 = some (p, h) →
      ∃ it ∈ q.m_queue, it.packet = p ∧ it.hdr = h ∧ it.tstamp + q.m_maxDelay > now) ∧
    (∀ p h t, (q.DequeueFirstAvailable now blockedPackets).1 = some (p, h, t) →
      ∃ it ∈ q.m_queue, it.packet = p ∧ it.hdr = h ∧ it.tstamp = t ∧
        t + q.m_maxDelay > now) := by
  have hmem : ∀ it, it ∈ unexpired q.m_maxDelay now q.m_queue →
      it ∈ q.m_queue ∧ it.tstamp + q.m_maxDelay > now := by
    intro it hit
    have := List.mem_filter.mp hit
    exact ⟨this.1, by simpa using this.2⟩
  refine ⟨?_, ?_, ?_⟩
  · intro p h hres
    rw [Dequeue_fst] at hres
    cases hq : unexpired q.m_maxDelay now q.m_queue with
    | nil => rw [hq] at hres; cases hres
    | cons i rest =>
      rw [hq] at hres
      simp only [List.head?_cons, Option.map_some', Option.some.injEq, Prod.mk.injEq] at hres
      have := hmem i (by rw [hq]; exact List.mem_cons_self _ _)
      exact ⟨i, this.1, hres.1, hres.2, this.2⟩
  · intro p h hres
    rw [DequeueByTidAndAddress_fst, Cleanup_queue] at hres
    cases hf : (unexpired q.m_maxDelay now q.m_queue).find?
        (WifiMacQueue.tidAddressTest tid type dest) with
    | none => rw [hf] at hres; cases hres
    | some i =>
      rw [hf] at hres
      simp only [Option.map_some', Option.some.injEq, Prod.mk.injEq] at hres
      have := hmem i (List.mem_of_find?_eq_some hf)
      exact ⟨i, this.1, hres.1, hres.2, this.2⟩
  · intro p h t hres
    rw [DequeueFirstAvailable_fst, Cleanup_queue] at hres
    cases hf : (unexpired q.m_maxDelay now q.m_queue).find?
        (WifiMacQueue.availableTest blockedPackets) with
    | none => rw [hf] at hres; cases hres
    | some i =>
      rw [hf] at hres
      simp only [Option.map_some', Option.some.injEq, Prod.mk.injEq] at hres
      have := hmem i (List.mem_of_find?_eq_some hf)
      obtain ⟨h1, h2, h3⟩ := hres
      exact ⟨i, this.1, h1, h2, h3, by rw [← h3]; exact this.2⟩

/-- Witness for C12: the packet dequeued at time 3 from a queue filled at times
0 and 1 is an unexpired entry of that queue. -/
theorem Dequeue_returns_only_unexpired_witness :
    ∃ it ∈ (enqueueAll WifiMacQueue.new [(0, 1, sampleHdr 7), (1, 2, sampleHdr 8)]).m_queue,
      it.packet = 1 ∧ it.hdr = sampleHdr 7 ∧
      it.tstamp +
        (enqueueAll WifiMacQueue.new [(0, 1, sampleHdr 7), (1, 2, sampleHdr 8)]).m_maxDelay >
          3 :=
  (Dequeue_returns_only_unexpired
    (enqueueAll WifiMacQueue.new [(0, 1, sampleHdr 7), (1, 2, sampleHdr 8)]) 3 0
    AddressType.ADDR1 7 (fun _ _ => false)).1 1 (sampleHdr 7) (by decide)

/-- Counterexample to C12 as stated: with the bias switched on, a packet
enqueued at time 0 with draw 0.99 > R = 0.95 is stamped 0.5 s, and a `Dequeue`
at time 0 returns it although its time stamp is later than 0. -/
theorem Dequeue_returns_entry_stamped_later :
    (((WifiMacQueue.new.EnqueueWith staticBias (sampleEnv [99 / 100] none) 0 1
        (sampleHdr 7)).map (fun r => r.1.m_queue)) =
      some [Item.mk 77 (sampleHdr 7) 500000000]) ∧
    (((WifiMacQueue.new.EnqueueWith staticBias (sampleEnv [99 / 100] none) 0 1
        (sampleHdr 7)).map (fun r => (r.1.Dequeue 0).1)) =
      some (some (77, sampleHdr 7))) ∧
    (0 : Time) < 500000000 := by
  decide!

/-! ## The delay decision of the bias controller -/

theorem Cleanup_controller (q : WifiMacQueue) (now : Time) :
    (q.Cleanup now).distance = q.distance ∧ (q.Cleanup now).current = q.current ∧
    (q.Cleanup now).best = q.best ∧ (q.Cleanup now).tabuList = q.tabuList ∧
    (q.Cleanup now).packetCount = q.packetCount ∧
    (q.Cleanup now).iterationCount = q.iterationCount := by
  unfold WifiMacQueue.Cleanup
  split <;> simp

theorem withDistance_fields (env : Environment) (q : WifiMacQueue) :
    (WifiMacQueue.withDistance env q).m_queue = q.m_queue ∧
    (WifiMacQueue.withDistance env q).m_size = q.m_size ∧
    (WifiMacQueue.withDistance env q).current = q.current ∧
    (WifiMacQueue.withDistance env q).best = q.best ∧
    (WifiMacQueue.withDistance env q).tabuList = q.tabuList ∧
    (WifiMacQueue.withDistance env q).packetCount = q.packetCount ∧
    (WifiMacQueue.withDistance env q).iterationCount = q.iterationCount := by
  unfold WifiMacQueue.withDistance
  split <;> simp

theorem withDistance_distance (env : Environment) (q : WifiMacQueue) :
    (WifiMacQueue.withDistance env q).distance =
      if q.distance = -1 then env.GetDistanceFrom else q.distance := by
  unfold WifiMacQueue.withDistance
  split <;> rfl

theorem R_Cleanup (mb : MixedBias) (env : Environment) (q : WifiMacQueue) (now : Time) :
    WifiMacQueue.R mb env (q.Cleanup now) = WifiMacQueue.R mb env q := by
  have h := Cleanup_controller q now
  have hd : (WifiMacQueue.withDistance env (q.Cleanup now)).hops =
      (WifiMacQueue.withDistance env q).hops := by
    unfold WifiMacQueue.hops
    rw [withDistance_distance, withDistance_distance, h.1]
  unfold WifiMacQueue.R
  rw [hd, h.2.1]

theorem push_fields (q : WifiMacQueue) (it : Item) :
    (q.push it).m_queue = q.m_queue ++ [it] ∧ (q.push it).m_size = u32inc q.m_size ∧
    (q.push it).packetCount = q.packetCount ∧ (q.push it).iterationCount = q.iterationCount ∧
    (q.push it).current = q.current ∧ (q.push it).best = q.best ∧
    (q.push it).tabuList = q.tabuList ∧ (q.push it).m_maxSize = q.m_maxSize ∧
    (q.push it).m_maxDelay = q.m_maxDelay ∧ (q.push it).distance = q.distance :=
  ⟨rfl, rfl, rfl, rfl, rfl, rfl, rfl, rfl, rfl, rfl⟩
theorem setMark_self (marks : Packet → Bool) (p : Packet) (b : Bool) :
    setMark marks p b p = b := by
  simp [setMark]

theorem delayTest_iff (mb : MixedBias) (env : Environment) (q : WifiMacQueue) (now : Time)
    (packet : Packet) :
    (decide (env.GetValue 0 > WifiMacQueue.R mb env (q.Cleanup now)) &&
      !setMark env.Delayed env.Copy (env.Delayed packet) env.Copy) = true ↔
    (env.GetValue 0 > WifiMacQueue.R mb env q ∧ env.Delayed packet = false) := by
  rw [setMark_self, R_Cleanup]
  simp

theorem EnqueueWith_not_delayed (mb : MixedBias) (env : Environment) (q : WifiMacQueue)
    (now : Time) (packet : Packet) (hdr : WifiMacHeader)
    (hfree : ¬ (q.Cleanup now).m_size = (q.Cleanup now).m_maxSize) (hmb : mb.MB = true)
    (hnd : ¬ (env.GetValue 0 > WifiMacQueue.R mb env q ∧ env.Delayed packet = false)) :
    q.EnqueueWith mb env now packet hdr =
      some ((WifiMacQueue.withDistance env (q.Cleanup now)).push (Item.mk env.Copy hdr now),
        setMark env.Delayed env.Copy (env.Delayed packet)) := by
  have ht := (delayTest_iff mb env q now packet).not.mpr hnd
  unfold WifiMacQueue.EnqueueWith
  dsimp only
  rw [if_neg hfree, if_pos hmb, if_neg ht, if_neg ht]
  split <;> rfl

theorem EnqueueWith_delayed_static (mb : MixedBias) (env : Environment) (q : WifiMacQueue)
    (now : Time) (packet : Packet) (hdr : WifiMacHeader)
    (hfree : ¬ (q.Cleanup now).m_size = (q.Cleanup now).m_maxSize) (hmb : mb.MB = true)
    (hs : mb.ADAPTIVE = false)
    (hd : env.GetValue 0 > WifiMacQueue.R mb env q ∧ env.Delayed packet = false) :
    q.EnqueueWith mb env now packet hdr =
      some ((WifiMacQueue.withDistance env (q.Cleanup now)).push
          (Item.mk env.Copy hdr (now + extraDelay)),
        setMark (setMark env.Delayed env.Copy (env.Delayed packet)) env.Copy true) := by
  have ht := (delayTest_iff mb env q now packet).mpr hd
  unfold WifiMacQueue.EnqueueWith
  dsimp only
  rw [if_neg hfree, if_pos hmb, if_pos ht, hs]
  rfl

theorem EnqueueWith_delayed_adaptive (mb : MixedBias) (env : Environment) (q : WifiMacQueue)
    (now : Time) (packet : Packet) (hdr : WifiMacHeader)
    (hfree : ¬ (q.Cleanup now).m_size = (q.Cleanup now).m_maxSize) (hmb : mb.MB = true)
    (ha : mb.ADAPTIVE = true)
    (hd : env.GetValue 0 > WifiMacQueue.R mb env q ∧ env.Delayed packet = false) :
    q.EnqueueWith mb env now packet hdr =
      (if (WifiMacQueue.withDistance env (q.Cleanup now)).packetCount + 1 > PACKETRESET then
          WifiMacQueue.ReconfigurationCycle env
            { WifiMacQueue.withDistance env (q.Cleanup now) with
              packetCount := (WifiMacQueue.withDistance env (q.Cleanup now)).packetCount + 1 }
            now
        else
          some { WifiMacQueue.withDistance env (q.Cleanup now) with
            packetCount :=
              (WifiMacQueue.withDistance env (q.Cleanup now)).packetCount + 1 }).map
        (fun q' => (q'.push (Item.mk env.Copy hdr (now + extraDelay)),
          setMark (setMark env.Delayed env.Copy (env.Delayed packet)) env.Copy true)) := by
  have ht := (delayTest_iff mb env q now packet).mpr hd
  unfold WifiMacQueue.EnqueueWith
  dsimp only
  rw [if_neg hfree, if_pos hmb, ha]
  simp only [Bool.not_true, Bool.false_eq_true, if_false]
  rw [if_pos ht]
theorem ReconfigurationCycle_some (env : Environment) (q : WifiMacQueue) (now : Time)
    (q' : WifiMacQueue) (h : q.ReconfigurationCycle env now = some q') :
    ∃ pruned cand k,
      tabuPrune now q.tabuList = some pruned ∧
      searchCandidate
        (Solution.mk q.current.ALPHA q.current.BETA1 q.current.BETA2 (cycleUtility env.server))
        pruned env.GetValue env.tries 1 = some (cand, k) ∧
      q'.m_queue = q.m_queue ∧ q'.m_size = q.m_size ∧ q'.m_maxSize = q.m_maxSize ∧
      q'.m_maxDelay = q.m_maxDelay ∧ q'.distance = q.distance ∧
      q'.packetCount = 0 ∧
      q'.best =
        (if cycleUtility env.server > q.best.utility then
          Solution.mk q.current.ALPHA q.current.BETA1 q.current.BETA2 (cycleUtility env.server)
        else q.best) ∧
      q'.tabuList = pruned ++ [Tabu.mk (now + Seconds TABULIFE) cand.ALPHA cand.BETA1 cand.BETA2] ∧
      ((q.iterationCount + 1 > TABURESET ∧ env.GetValue k < 1 / 2) →
        q'.current = q'.best ∧ q'.iterationCount = 0) ∧
      (¬ (q.iterationCount + 1 > TABURESET ∧ env.GetValue k < 1 / 2) →
        q'.current = Solution.mk cand.ALPHA cand.BETA1 cand.BETA2 0 ∧
        q'.iterationCount = q.iterationCount + 1) := by
  unfold WifiMacQueue.ReconfigurationCycle at h
  cases hp : tabuPrune now q.tabuList with
  | none => rw [hp] at h; cases h
  | some pruned =>
    rw [hp] at h
    dsimp only at h
    by_cases hu : cycleUtility env.server > q.best.utility
    · simp only [hu, if_true] at h
      cases hs : searchCandidate
          (Solution.mk q.current.ALPHA q.current.BETA1 q.current.BETA2 (cycleUtility env.server))
          pruned env.GetValue env.tries 1 with
      | none => rw [hs] at h; cases h
      | some r =>
        obtain ⟨cand, k⟩ := r
        rw [hs] at h
        dsimp only at h
        refine ⟨pruned, cand, k, rfl, hs, ?_⟩
        by_cases h1 : q.iterationCount + 1 > TABURESET
        · by_cases h2 : env.GetValue k < 1 / 2
          · rw [if_pos h1, if_pos h2] at h
            cases h
            exact ⟨rfl, rfl, rfl, rfl, rfl, rfl, (if_pos hu).symm, rfl, fun _ => ⟨rfl, rfl⟩,
              fun hn => absurd ⟨h1, h2⟩ hn⟩
          · rw [if_pos h1, if_neg h2] at h
            cases h
            exact ⟨rfl, rfl, rfl, rfl, rfl, rfl, (if_pos hu).symm, rfl, fun hn => absurd hn.2 h2,
              fun _ => ⟨rfl, rfl⟩⟩
        · rw [if_neg h1] at h
          cases h
          exact ⟨rfl, rfl, rfl, rfl, rfl, rfl, (if_pos hu).symm, rfl, fun hn => absurd hn.1 h1,
            fun _ => ⟨rfl, rfl⟩⟩
    · simp only [hu, if_false] at h
      cases hs : searchCandidate
          (Solution.mk q.current.ALPHA q.current.BETA1 q.current.BETA2 (cycleUtility env.server))
          pruned env.GetValue env.tries 1 with
      | none => rw [hs] at h; cases h
      | some r =>
        obtain ⟨cand, k⟩ := r
        rw [hs] at h
        dsimp only at h
        refine ⟨pruned, cand, k, rfl, hs, ?_⟩
        by_cases h1 : q.iterationCount + 1 > TABURESET
        · by_cases h2 : env.GetValue k < 1 / 2
          · rw [if_pos h1, if_pos h2] at h
            cases h
            exact ⟨rfl, rfl, rfl, rfl, rfl, rfl, (if_neg hu).symm, rfl, fun _ => ⟨rfl, rfl⟩,
              fun hn => absurd ⟨h1, h2⟩ hn⟩
          · rw [if_pos h1, if_neg h2] at h
            cases h
            exact ⟨rfl, rfl, rfl, rfl, rfl, rfl, (if_neg hu).symm, rfl, fun hn => absurd hn.2 h2,
              fun _ => ⟨rfl, rfl⟩⟩
        · rw [if_neg h1] at h
          cases h
          exact ⟨rfl, rfl, rfl, rfl, rfl, rfl, (if_neg hu).symm, rfl, fun hn => absurd hn.1 h1,
            fun _ => ⟨rfl, rfl⟩⟩

theorem ReconfigurationCycle_isSome (env : Environment) (q : WifiMacQueue) (now : Time)
    (pruned : List Tabu) (cand : Solution) (k : Nat)
    (hp : tabuPrune now q.tabuList = some pruned)
    (hs : searchCandidate
      (Solution.mk q.current.ALPHA q.current.BETA1 q.current.BETA2 (cycleUtility env.server))
      pruned env.GetValue env.tries 1 = some (cand, k)) :
    ∃ q', q.ReconfigurationCycle env now = some q' := by
  unfold WifiMacQueue.ReconfigurationCycle
  rw [hp]
  dsimp only
  by_cases hu : cycleUtility env.server > q.best.utility
  · simp only [hu, if_true]
    rw [hs]
    dsimp only
    split
    · split <;> exact ⟨_, rfl⟩
    · exact ⟨_, rfl⟩
  · simp only [hu, if_false]
    rw [hs]
    dsimp only
    split
    · split <;> exact ⟨_, rfl⟩
    · exact ⟨_, rfl⟩

/-! ## The bias probability -/

/-- C14: in static and in adaptive mode, a cached distance equal to the
separation distance gives hop count 1, and with hop count 1 the value `R` that
the delay decision uses is 0.95 whatever the parameters. `R` is computed from
the constants in static mode and from `current` in adaptive mode; with any hop
count `h` other than 1 it is `(A / pow (h, B1) + (1 − A) / pow (h, B2)) * 5` in
`double` arithmetic, and nothing clamps it to [0, 1]: when neither power is 0
it is the number `5 × (A / h^B1 + (1 − A) / h^B2)`; when both powers are 0, as
at hop count 0, and `A` is between 0 and 1, it is +∞ and no draw exceeds it. -/
theorem R_override_at_one_hop (mb : MixedBias) (env : Environment) (q : WifiMacQueue) :
    ((WifiMacQueue.withDistance env q).distance = SEPARATIONDISTANCE →
      (WifiMacQueue.withDistance env q).hops = 1) ∧
    ((WifiMacQueue.withDistance env q).hops = 1 →
      WifiMacQueue.R mb env q = Double.finite (19 / 20)) ∧
    (mb.ADAPTIVE = false →
      WifiMacQueue.R mb env q =
        biasProbability env.pow (WifiMacQueue.withDistance env q).hops mb.A mb.B1 mb.B2) ∧
    (mb.ADAPTIVE = true →
      WifiMacQueue.R mb env q =
        biasProbability env.pow (WifiMacQueue.withDistance env q).hops q.current.ALPHA
          q.current.BETA1 q.current.BETA2) ∧
    (∀ (h : Int) (a b1 b2 : ℚ), h ≠ 1 →
      biasProbability env.pow h a b1 b2 =
        Double.mul
          (Double.add (Double.div a (env.pow h b1)) (Double.div (1 - a) (env.pow h b2))) 5 ∧
      (env.pow h b1 ≠ 0 → env.pow h b2 ≠ 0 →
        biasProbability env.pow h a b1 b2 =
          Double.finite (5 * (a / env.pow h b1 + (1 - a) / env.pow h b2))) ∧
      (env.pow h b1 = 0 → env.pow h b2 = 0 → 0 < a → a < 1 →
        biasProbability env.pow h a b1 b2 = Double.posInf ∧
        ∀ prob : ℚ, ¬ ((prob : Double) > biasProbability env.pow h a b1 b2))) := by
  refine ⟨?_, ?_, ?_, ?_, ?_⟩
  · intro hd
    unfold WifiMacQueue.hops
    rw [hd]
    with_unfolding_all decide
  · intro h1
    unfold WifiMacQueue.R biasProbability
    rw [h1]
    split <;> simp
  · intro hs
    unfold WifiMacQueue.R
    rw [hs]
    rfl
  · intro ha
    unfold WifiMacQueue.R
    rw [ha]
    rfl
  · intro h a b1 b2 h1
    have hform : biasProbability env.pow h a b1 b2 =
        Double.mul
          (Double.add (Double.div a (env.pow h b1)) (Double.div (1 - a) (env.pow h b2)))
          5 := by
      unfold biasProbability
      dsimp only
      rw [if_neg h1]
    refine ⟨hform, ?_, ?_⟩
    · intro hb1 hb2
      rw [hform]
      unfold Double.div
      rw [if_neg hb1, if_neg hb2]
      show Double.finite ((a / env.pow h b1 + (1 - a) / env.pow h b2) * 5) = _
      rw [mul_comm]
    · intro hb1 hb2 ha0 ha1
      have hinf : biasProbability env.pow h a b1 b2 = Double.posInf := by
        rw [hform]
        unfold Double.div
        rw [if_pos hb1, if_pos hb2, if_pos ha0, if_pos (by linarith : (0 : ℚ) < 1 - a)]
        decide!
      refine ⟨hinf, ?_⟩
      intro prob hgt
      rw [hinf] at hgt
      exact Bool.false_ne_true hgt

/-- Witness for C14: at distance 100 the value is 0.95 in adaptive mode; at
distance 200 (two hops), with a `pow` that returns 1, the value is 5; at the
gateway (hop count 0, `pow (0, b)` = 0) it is +∞. -/
theorem R_override_at_one_hop_witness :
    WifiMacQueue.R adaptiveBias (sampleEnv [] none) WifiMacQueue.new = Double.finite (19 / 20) ∧
    WifiMacQueue.R staticBias (sampleEnv [] none) { WifiMacQueue.new with distance := 200 } =
      Double.finite 5 ∧
    WifiMacQueue.R staticBias (gatewayEnv []) WifiMacQueue.new = Double.posInf :=
  ⟨(R_override_at_one_hop adaptiveBias (sampleEnv [] none) WifiMacQueue.new).2.1
      ((R_override_at_one_hop adaptiveBias (sampleEnv [] none) WifiMacQueue.new).1
        (by decide!)),
   ((R_override_at_one_hop staticBias (sampleEnv [] none)
      { WifiMacQueue.new with distance := 200 }).2.2.1 rfl).trans
    ((((R_override_at_one_hop staticBias (sampleEnv [] none)
      { WifiMacQueue.new with distance := 200 }).2.2.2.2
        _ (1 / 2) 2 5 (by decide!)).2.1 (by decide!) (by decide!)).trans (by decide!)),
   ((R_override_at_one_hop staticBias (gatewayEnv []) WifiMacQueue.new).2.2.1 rfl).trans
    (((R_override_at_one_hop staticBias (gatewayEnv []) WifiMacQueue.new).2.2.2.2
        _ (1 / 2) 2 5 (by decide!)).2.2 (by decide!) (by decide!) (by decide!)
          (by decide!)).1⟩

/-! ## Pruning the tabu list -/

theorem filter_eraseIdx_of_false (p : Tabu → Bool) :
    ∀ (l : List Tabu) (y : Nat) (t : Tabu), l[y]? = some t → p t = false →
      (l.eraseIdx y).filter p = l.filter p := by
  intro l
  induction l with
  | nil => intro y t h; simp at h
  | cons a l0 ih =>
    intro y t h hp
    cases y with
    | zero =>
      simp only [List.getElem?_cons_zero, Option.some.injEq] at h
      subst h
      simp [List.eraseIdx_cons_zero, List.filter_cons, hp]
    | succ y =>
      simp only [List.getElem?_cons_succ] at h
      simp only [List.eraseIdx_cons_succ, List.filter_cons]
      rw [ih y t h hp]

theorem tabuPruneLoop_from_one (now : Time) (a : Tabu) :
    ∀ (fuel : Nat) (l0 : List Tabu) (y : Nat),
      (∀ t ∈ l0.take y, ¬ t.expiry < now) →
      (l0.length - y) + l0.length * (l0.length + 1) + 1 ≤ fuel →
      tabuPruneLoop now fuel (y + 1) (a :: l0) =
        some (a :: l0.filter (fun t => decide (¬ t.expiry < now))) := by
  intro fuel
  induction fuel with
  | zero => intro l0 y _ hf; omega
  | succ fuel ih =>
    intro l0 y hkeep hf
    unfold tabuPruneLoop
    simp only [List.getElem?_cons_succ]
    cases hy : l0[y]? with
    | none =>
      have hlen : l0.length ≤ y := by
        rcases Nat.lt_or_ge y l0.length with h | h
        · rw [List.getElem?_eq_getElem h] at hy; cases hy
        · exact h
      rw [List.take_of_length_le hlen] at hkeep
      have : l0.filter (fun t => decide (¬ t.expiry < now)) = l0 := by
        rw [List.filter_eq_self]
        intro t ht
        simpa using hkeep t ht
      simp only [this]
    | some t =>
      have hlt : y < l0.length := by
        rcases Nat.lt_or_ge y l0.length with h | h
        · exact h
        · rw [List.getElem?_eq_none h] at hy; cases hy
      by_cases hexp : t.expiry < now
      · simp only [hexp, if_true, List.eraseIdx_cons_succ]
        obtain ⟨k, hk⟩ : ∃ k, l0.length = k + 1 := ⟨l0.length - 1, by omega⟩
        have hlen' : (l0.eraseIdx y).length = k := by
          rw [List.length_eraseIdx, if_pos hlt]
          omega
        have e : (k + 1) * (k + 1 + 1) = k * (k + 1) + 2 * k + 2 := by ring
        rw [ih (l0.eraseIdx y) 0 (by simp) (by rw [hlen']; rw [hk, e] at hf; omega)]
        rw [filter_eraseIdx_of_false _ l0 y t hy (by simpa using hexp)]
      · simp only [hexp, if_false]
        rw [ih l0 (y + 1) ?_ (by omega)]
        intro t' ht'
        rw [List.take_succ, hy] at ht'
        rcases List.mem_append.mp ht' with h | h
        · exact hkeep t' h
        · have : t' = t := by simpa using h
          rw [this]
          exact hexp

theorem tabuPrune_nil (now : Time) : tabuPrune now [] = some [] := by
  rfl

theorem tabuPrune_cons_keep (now : Time) (a : Tabu) (l0 : List Tabu) (h : ¬ a.expiry < now) :
    tabuPrune now (a :: l0) = some (a :: l0.filter (fun t => decide (¬ t.expiry < now))) := by
  unfold tabuPrune tabuPruneLoop
  simp only [List.getElem?_cons_zero, h, if_false, List.length_cons]
  apply tabuPruneLoop_from_one now a _ l0 0 (by simp)
  have e : (l0.length + 1 + 1) * (l0.length + 1 + 1) =
      l0.length * (l0.length + 1) + 3 * l0.length + 4 := by ring
  rw [e]
  omega

theorem tabuPrune_cons_erase_nil (now : Time) (a : Tabu) (h : a.expiry < now) :
    tabuPrune now [a] = some [] := by
  unfold tabuPrune tabuPruneLoop
  simp only [List.getElem?_cons_zero, h, if_true, List.eraseIdx_cons_zero]
  rfl

theorem tabuPrune_cons_erase_cons (now : Time) (a b : Tabu) (l1 : List Tabu)
    (h : a.expiry < now) :
    tabuPrune now (a :: b :: l1) =
      some (b :: l1.filter (fun t => decide (¬ t.expiry < now))) := by
  unfold tabuPrune tabuPruneLoop
  simp only [List.getElem?_cons_zero, h, if_true, List.eraseIdx_cons_zero, List.length_cons]
  apply tabuPruneLoop_from_one now b _ l1 0 (by simp)
  have e : (l1.length + 1 + 1 + 1) * (l1.length + 1 + 1 + 1) =
      l1.length * (l1.length + 1) + 5 * l1.length + 9 := by ring
  rw [e]
  omega
theorem keep_filter_filter (now : Time) (l : List Tabu) :
    (l.filter (fun t => decide (¬ t.expiry < now))).filter (fun t => decide (now ≤ t.expiry)) =
      l.filter (fun t => decide (now ≤ t.expiry)) := by
  rw [List.filter_filter]
  congr 1
  funext t
  by_cases h : now ≤ t.expiry
  · simp [h]
  · simp [h]

theorem tabuPrune_total (now : Time) (l : List Tabu) :
    ∃ pruned, tabuPrune now l = some pruned ∧ pruned.Sublist l ∧
      pruned.filter (fun t => decide (now ≤ t.expiry)) =
        l.filter (fun t => decide (now ≤ t.expiry)) := by
  cases l with
  | nil => exact ⟨[], tabuPrune_nil now, List.Sublist.refl _, rfl⟩
  | cons a l0 =>
    by_cases h : a.expiry < now
    · have ha : decide (now ≤ a.expiry) = false := by simpa using h
      cases l0 with
      | nil =>
        refine ⟨[], tabuPrune_cons_erase_nil now a h, List.nil_sublist _, ?_⟩
        simp [List.filter_cons, ha]
      | cons b l1 =>
        refine ⟨_, tabuPrune_cons_erase_cons now a b l1 h, ?_, ?_⟩
        · exact List.Sublist.cons _ (List.Sublist.cons₂ _ (List.filter_sublist _))
        · have e1 : List.filter (fun t => decide (now ≤ t.expiry)) (a :: b :: l1) =
              List.filter (fun t => decide (now ≤ t.expiry)) (b :: l1) :=
            List.filter_cons_of_neg (by rw [ha]; simp)
          rw [e1, List.filter_cons, List.filter_cons, keep_filter_filter]
    · refine ⟨_, tabuPrune_cons_keep now a l0 h, ?_, ?_⟩
      · exact List.Sublist.cons₂ _ (List.filter_sublist _)
      · rw [List.filter_cons, List.filter_cons, keep_filter_filter]

theorem tabuPrune_mem (now : Time) (l pruned : List Tabu) (e : Tabu)
    (hp : tabuPrune now l = some pruned) (he : e ∈ l) (hlive : now ≤ e.expiry) :
    e ∈ pruned := by
  obtain ⟨pruned', hp', -, hfilter⟩ := tabuPrune_total now l
  rw [hp] at hp'
  cases hp'
  have hmem : e ∈ l.filter (fun t => decide (now ≤ t.expiry)) :=
    List.mem_filter.mpr ⟨he, by simpa using hlive⟩
  rw [← hfilter] at hmem
  exact (List.mem_filter.mp hmem).1

/-- C18, as the code has it: the erase loop of a reconfiguration cycle ends,
removes nothing but entries whose expiry is before `now`, and retains every
entry whose expiry is at or after `now`, in the original order. -/
theorem tabuPrune_keeps_unexpired (now : Time) (tabuList : List Tabu) :
    ∃ pruned, tabuPrune now tabuList = some pruned ∧ pruned.Sublist tabuList ∧
      pruned.filter (fun t => decide (now ≤ t.expiry)) =
        tabuList.filter (fun t => decide (now ≤ t.expiry)) ∧
      (∀ t ∈ tabuList, t ∉ pruned → t.expiry < now) := by
  obtain ⟨pruned, hp, hsub, hfilter⟩ := tabuPrune_total now tabuList
  refine ⟨pruned, hp, hsub, hfilter, ?_⟩
  intro t ht hnot
  by_contra hlive
  have hmem : t ∈ tabuList.filter (fun t => decide (now ≤ t.expiry)) :=
    List.mem_filter.mpr ⟨ht, by simpa using hlive⟩
  rw [← hfilter] at hmem
  exact hnot (List.mem_filter.mp hmem).1

/-- Counterexample to C18 as stated: an entry whose expiry equals `now` is
retained (the test is `expiry < Now ()`); and of two expired entries at the head
of the list the second is retained, because the loop continues at index 1 after
erasing index 0. -/
theorem tabuPrune_retains_entry_at_expiry :
    tabuPrune 10 [Tabu.mk 10 (1 / 2) 2 5] = some [Tabu.mk 10 (1 / 2) 2 5] ∧
    tabuPrune 10 [Tabu.mk 5 (1 / 2) 2 5, Tabu.mk 6 (3 / 5) 2 5] =
      some [Tabu.mk 6 (3 / 5) 2 5] := by
  decide!

/-! ## The reconfiguration cycle -/

theorem IsTabu_false_iff (tabuList : List Tabu) (s : Solution) :
    IsTabu tabuList s = false ↔
      ∀ t ∈ tabuList, ¬ (s.ALPHA = t.ALPHA ∧ s.BETA1 = t.BETA1 ∧ s.BETA2 = t.BETA2) := by
  unfold IsTabu
  rw [← Bool.not_eq_true, List.any_eq_true]
  constructor
  · intro h t ht heq
    exact h ⟨t, ht, by simp [heq.1, heq.2.1, heq.2.2]⟩
  · rintro h ⟨t, ht, heq⟩
    simp only [Bool.and_eq_true, decide_eq_true_eq] at heq
    exact h t ht ⟨heq.1.1, heq.1.2, heq.2⟩

theorem searchCandidate_not_tabu (current : Solution) (tabuList : List Tabu)
    (GetValue : Nat → ℚ) :
    ∀ (tries k : Nat) (cand : Solution) (k' : Nat),
      searchCandidate current tabuList GetValue tries k = some (cand, k') →
      IsTabu tabuList cand = false := by
  intro tries
  induction tries with
  | zero => intro k cand k' h; simp [searchCandidate] at h
  | succ tries ih =>
    intro k cand k' h
    unfold searchCandidate at h
    dsimp only at h
    split at h
    · exact ih _ cand k' h
    · next hnot =>
      cases h
      simpa using hnot

theorem searchCandidate_first (current : Solution) (tabuList : List Tabu)
    (GetValue : Nat → ℚ) (tries k : Nat) (htries : 0 < tries)
    (h : IsTabu tabuList (GetPotentialSolution current GetValue k).1 = false) :
    searchCandidate current tabuList GetValue tries k =
      some (GetPotentialSolution current GetValue k) := by
  obtain ⟨n, rfl⟩ : ∃ n, tries = n + 1 := ⟨tries - 1, by omega⟩
  unfold searchCandidate
  dsimp only
  rw [h]
  rfl

/-- C13: the delay decision of `Enqueue` with the bias switched on, the queue
not being full after the purge. When the draw `prob` exceeds `R` and the packet
is not yet marked delayed, the appended entry holds the copy, stamped
`now + 0.5 s`, and the copy is marked delayed; in every other case the entry is
stamped `now` and the copy carries the mark of the original. In static mode
`packetCount` is never changed; in adaptive mode it is left alone in the
undelayed case and incremented in the delayed case (a count that then exceeds
`PACKETRESET` starts the reconfiguration, which resets it: the call returns as
soon as a candidate is not tabu, the first one in particular). `prob > R` is
the comparison of `double` values: when `R` is +∞ or NaN, as at hop count 0, no
draw exceeds it and no packet is delayed. -/
theorem EnqueueWith_delay_decision (mb : MixedBias) (env : Environment) (q : WifiMacQueue)
    (now : Time) (packet : Packet) (hdr : WifiMacHeader) (hmb : mb.MB = true)
    (hc : Consistent q)
    (hfree : (unexpired q.m_maxDelay now q.m_queue).length ≠ q.m_maxSize) :
    ((env.GetValue 0 > WifiMacQueue.R mb env q ∧ env.Delayed packet = false) →
      ∀ r, q.EnqueueWith mb env now packet hdr = some r →
        r.1.m_queue = unexpired q.m_maxDelay now q.m_queue ++
          [Item.mk env.Copy hdr (now + extraDelay)] ∧
        r.2 env.Copy = true) ∧
    (¬ (env.GetValue 0 > WifiMacQueue.R mb env q ∧ env.Delayed packet = false) →
      ∃ r, q.EnqueueWith mb env now packet hdr = some r ∧
        r.1.m_queue = unexpired q.m_maxDelay now q.m_queue ++ [Item.mk env.Copy hdr now] ∧
        r.2 env.Copy = env.Delayed packet ∧
        r.1.packetCount = q.packetCount) ∧
    ((env.GetValue 0 > WifiMacQueue.R mb env q ∧ env.Delayed packet = false) →
      mb.ADAPTIVE = false →
      ∃ r, q.EnqueueWith mb env now packet hdr = some r ∧ r.1.packetCount = q.packetCount) ∧
    ((env.GetValue 0 > WifiMacQueue.R mb env q ∧ env.Delayed packet = false) →
      mb.ADAPTIVE = true → q.packetCount + 1 ≤ PACKETRESET →
      ∃ r, q.EnqueueWith mb env now packet hdr = some r ∧
        r.1.packetCount = q.packetCount + 1) ∧
    ((env.GetValue 0 > WifiMacQueue.R mb env q ∧ env.Delayed packet = false) →
      mb.ADAPTIVE = true → PACKETRESET < q.packetCount + 1 → 0 < env.tries →
      (∀ pruned, tabuPrune now q.tabuList = some pruned →
        IsTabu pruned (GetPotentialSolution
          (Solution.mk q.current.ALPHA q.current.BETA1 q.current.BETA2
            (cycleUtility env.server)) env.GetValue 1).1 = false) →
      ∃ r, q.EnqueueWith mb env now packet hdr = some r ∧ r.1.packetCount = 0) ∧
    ((WifiMacQueue.R mb env q = Double.posInf ∨ WifiMacQueue.R mb env q = Double.NaN) →
      ¬ env.GetValue 0 > WifiMacQueue.R mb env q) := by
  have hq := Cleanup_queue q now
  have hs := Cleanup_size q now hc
  have hm := (Cleanup_fields q now).1
  have hcc := Cleanup_controller q now
  have hw := withDistance_fields env (q.Cleanup now)
  have hfree' : ¬ (q.Cleanup now).m_size = (q.Cleanup now).m_maxSize := by
    rw [hs, hm]; exact hfree
  refine ⟨?_, ?_, ?_, ?_, ?_, ?_⟩
  · intro hd r hr
    cases hA : mb.ADAPTIVE with
    | false =>
      rw [EnqueueWith_delayed_static mb env q now packet hdr hfree' hmb hA hd] at hr
      cases hr
      exact ⟨by rw [(push_fields _ _).1, hw.1, hq], setMark_self _ _ _⟩
    | true =>
      rw [EnqueueWith_delayed_adaptive mb env q now packet hdr hfree' hmb hA hd] at hr
      split at hr
      · cases hcy : WifiMacQueue.ReconfigurationCycle env
            { WifiMacQueue.withDistance env (q.Cleanup now) with
              packetCount := (WifiMacQueue.withDistance env (q.Cleanup now)).packetCount + 1 }
            now with
        | none => rw [hcy] at hr; cases hr
        | some q' =>
          rw [hcy] at hr
          cases hr
          obtain ⟨_, _, _, _, _, hq', _⟩ := ReconfigurationCycle_some env _ now q' hcy
          exact ⟨by rw [(push_fields _ _).1, hq']; show (WifiMacQueue.withDistance env
            (q.Cleanup now)).m_queue ++ _ = _; rw [hw.1, hq], setMark_self _ _ _⟩
      · cases hr
        exact ⟨by rw [(push_fields _ _).1]; show (WifiMacQueue.withDistance env
          (q.Cleanup now)).m_queue ++ _ = _; rw [hw.1, hq], setMark_self _ _ _⟩
  · intro hnd
    refine ⟨_, EnqueueWith_not_delayed mb env q now packet hdr hfree' hmb hnd, ?_, ?_, ?_⟩
    · rw [(push_fields _ _).1, hw.1, hq]
    · exact setMark_self _ _ _
    · rw [(push_fields _ _).2.2.1, hw.2.2.2.2.2.1, hcc.2.2.2.2.1]
  · intro hd hA
    refine ⟨_, EnqueueWith_delayed_static mb env q now packet hdr hfree' hmb hA hd, ?_⟩
    rw [(push_fields _ _).2.2.1, hw.2.2.2.2.2.1, hcc.2.2.2.2.1]
  · intro hd hA hle
    have hcount : (WifiMacQueue.withDistance env (q.Cleanup now)).packetCount = q.packetCount := by
      rw [hw.2.2.2.2.2.1, hcc.2.2.2.2.1]
    have hno : ¬ (WifiMacQueue.withDistance env (q.Cleanup now)).packetCount + 1 >
        PACKETRESET := by
      rw [hcount]; omega
    have hE : q.EnqueueWith mb env now packet hdr =
        some (({ WifiMacQueue.withDistance env (q.Cleanup now) with
            packetCount := (WifiMacQueue.withDistance env (q.Cleanup now)).packetCount + 1 } :
              WifiMacQueue).push (Item.mk env.Copy hdr (now + extraDelay)),
          setMark (setMark env.Delayed env.Copy (env.Delayed packet)) env.Copy true) := by
      rw [EnqueueWith_delayed_adaptive mb env q now packet hdr hfree' hmb hA hd, if_neg hno]
      rfl
    refine ⟨_, hE, ?_⟩
    rw [(push_fields _ _).2.2.1]
    show (WifiMacQueue.withDistance env (q.Cleanup now)).packetCount + 1 = _
    rw [hcount]
  · intro hd hA hgt htries hfirst
    have hcount : (WifiMacQueue.withDistance env (q.Cleanup now)).packetCount = q.packetCount := by
      rw [hw.2.2.2.2.2.1, hcc.2.2.2.2.1]
    have htabu : (WifiMacQueue.withDistance env (q.Cleanup now)).tabuList = q.tabuList := by
      rw [hw.2.2.2.2.1, hcc.2.2.2.1]
    have hcur : (WifiMacQueue.withDistance env (q.Cleanup now)).current = q.current := by
      rw [hw.2.2.1, hcc.2.1]
    have hyes : (WifiMacQueue.withDistance env (q.Cleanup now)).packetCount + 1 >
        PACKETRESET := by
      rw [hcount]; exact hgt
    obtain ⟨pruned, hp, -, -⟩ := tabuPrune_total now q.tabuList
    have hsearch := searchCandidate_first
      (Solution.mk q.current.ALPHA q.current.BETA1 q.current.BETA2 (cycleUtility env.server))
      pruned env.GetValue env.tries 1 htries (hfirst pruned hp)
    obtain ⟨q', hq'⟩ := ReconfigurationCycle_isSome env
      { WifiMacQueue.withDistance env (q.Cleanup now) with
        packetCount := (WifiMacQueue.withDistance env (q.Cleanup now)).packetCount + 1 }
      now pruned _ _ (by show tabuPrune now (WifiMacQueue.withDistance env
        (q.Cleanup now)).tabuList = _; rw [htabu]; exact hp)
      (by show searchCandidate (Solution.mk (WifiMacQueue.withDistance env
            (q.Cleanup now)).current.ALPHA (WifiMacQueue.withDistance env
            (q.Cleanup now)).current.BETA1 (WifiMacQueue.withDistance env
            (q.Cleanup now)).current.BETA2 _) _ _ _ _ = _
          rw [hcur]; exact hsearch)
    obtain ⟨_, _, _, -, -, -, -, -, -, -, hpc, -⟩ := ReconfigurationCycle_some env _ now q' hq'
    have hE : q.EnqueueWith mb env now packet hdr =
        some (q'.push (Item.mk env.Copy hdr (now + extraDelay)),
          setMark (setMark env.Delayed env.Copy (env.Delayed packet)) env.Copy true) := by
      rw [EnqueueWith_delayed_adaptive mb env q now packet hdr hfree' hmb hA hd, if_pos hyes, hq']
      rfl
    refine ⟨_, hE, ?_⟩
    rw [(push_fields _ _).2.2.1]
    exact hpc
  · intro hR hgt
    rcases hR with h | h
    · rw [h] at hgt
      exact Bool.false_ne_true hgt
    · rw [h] at hgt
      exact Bool.false_ne_true hgt

/-- Witness for C13: at one hop (`R` = 0.95), a draw of 0.99 stamps the copy
0.5 s after the call and marks it delayed; at the gateway (`R` = +∞) the same
draw stamps the copy with the time of the call. -/
theorem EnqueueWith_delay_decision_witness :
    (∃ r, WifiMacQueue.new.EnqueueWith staticBias (sampleEnv [99 / 100] none) 0 1
        (sampleHdr 7) = some r ∧
      r.1.m_queue = [Item.mk 77 (sampleHdr 7) 500000000] ∧ r.2 77 = true) ∧
    (∃ r, WifiMacQueue.new.EnqueueWith staticBias (gatewayEnv [99 / 100]) 0 1
        (sampleHdr 7) = some r ∧
      r.1.m_queue = [Item.mk 77 (sampleHdr 7) 0] ∧ r.2 77 = false) :=
  have h := EnqueueWith_delay_decision staticBias (sampleEnv [99 / 100] none)
    WifiMacQueue.new 0 1 (sampleHdr 7) rfl (by decide) (by decide)
  have g := EnqueueWith_delay_decision staticBias (gatewayEnv [99 / 100])
    WifiMacQueue.new 0 1 (sampleHdr 7) rfl (by decide) (by decide)
  ⟨Exists.elim (h.2.2.1 (by decide!) rfl) (fun r hr => ⟨r, hr.1, h.1 (by decide!) r hr.1⟩),
   Exists.elim (g.2.1 (fun hd => g.2.2.2.2.2 (Or.inl (by decide!)) hd.1))
     (fun r hr => ⟨r, hr.1, hr.2.1, hr.2.2.1⟩)⟩

/-- C15, as the code has it: in adaptive mode a delayed packet increments
`packetCount`, and the reconfiguration runs when the incremented count exceeds
`PACKETRESET` (5). While `packetCount + 1 ≤ 5` the count goes up by one and the
tabu list is untouched, so starting from 0 the first five delayed packets only
bring the count to 5; at the delayed packet that makes it 6 the cycle runs: the
count is 0 again and a `Tabu` for the adopted candidate, with expiry
`now + TABULIFE`, is appended to the pruned tabu list. The cycle finishes as
soon as a candidate is not tabu, the first one in particular. -/
theorem cycle_runs_when_count_exceeds_reset (mb : MixedBias) (env : Environment)
    (q : WifiMacQueue) (now : Time) (packet : Packet) (hdr : WifiMacHeader)
    (hmb : mb.MB = true) (hA : mb.ADAPTIVE = true) (hc : Consistent q)
    (hfree : (unexpired q.m_maxDelay now q.m_queue).length ≠ q.m_maxSize)
    (hd : env.GetValue 0 > WifiMacQueue.R mb env q ∧ env.Delayed packet = false) :
    (q.packetCount + 1 ≤ PACKETRESET →
      ∃ r, q.EnqueueWith mb env now packet hdr = some r ∧
        r.1.packetCount = q.packetCount + 1 ∧ r.1.tabuList = q.tabuList) ∧
    (PACKETRESET < q.packetCount + 1 →
      ∀ r, q.EnqueueWith mb env now packet hdr = some r →
        r.1.packetCount = 0 ∧
        ∃ pruned cand, tabuPrune now q.tabuList = some pruned ∧
          IsTabu pruned cand = false ∧
          r.1.tabuList =
            pruned ++ [Tabu.mk (now + Seconds TABULIFE) cand.ALPHA cand.BETA1 cand.BETA2]) ∧
    (PACKETRESET < q.packetCount + 1 → 0 < env.tries →
      (∀ pruned, tabuPrune now q.tabuList = some pruned →
        IsTabu pruned (GetPotentialSolution
          (Solution.mk q.current.ALPHA q.current.BETA1 q.current.BETA2
            (cycleUtility env.server)) env.GetValue 1).1 = false) →
      ∃ r, q.EnqueueWith mb env now packet hdr = some r) := by
  have hs := Cleanup_size q now hc
  have hm := (Cleanup_fields q now).1
  have hcc := Cleanup_controller q now
  have hw := withDistance_fields env (q.Cleanup now)
  have hfree' : ¬ (q.Cleanup now).m_size = (q.Cleanup now).m_maxSize := by
    rw [hs, hm]; exact hfree
  have hcount : (WifiMacQueue.withDistance env (q.Cleanup now)).packetCount = q.packetCount := by
    rw [hw.2.2.2.2.2.1, hcc.2.2.2.2.1]
  have htabu : (WifiMacQueue.withDistance env (q.Cleanup now)).tabuList = q.tabuList := by
    rw [hw.2.2.2.2.1, hcc.2.2.2.1]
  have hcur : (WifiMacQueue.withDistance env (q.Cleanup now)).current = q.current := by
    rw [hw.2.2.1, hcc.2.1]
  have hE := EnqueueWith_delayed_adaptive mb env q now packet hdr hfree' hmb hA hd
  refine ⟨?_, ?_, ?_⟩
  · intro hle
    have hno : ¬ (WifiMacQueue.withDistance env (q.Cleanup now)).packetCount + 1 >
        PACKETRESET := by
      rw [hcount]; omega
    rw [if_neg hno] at hE
    refine ⟨_, hE, ?_, ?_⟩
    · rw [(push_fields _ _).2.2.1]
      show (WifiMacQueue.withDistance env (q.Cleanup now)).packetCount + 1 = _
      rw [hcount]
    · rw [(push_fields _ _).2.2.2.2.2.2.1]
      exact htabu
  · intro hgt r hr
    have hyes : (WifiMacQueue.withDistance env (q.Cleanup now)).packetCount + 1 >
        PACKETRESET := by
      rw [hcount]; exact hgt
    rw [hE, if_pos hyes] at hr
    cases hcy : WifiMacQueue.ReconfigurationCycle env
        { WifiMacQueue.withDistance env (q.Cleanup now) with
          packetCount := (WifiMacQueue.withDistance env (q.Cleanup now)).packetCount + 1 }
        now with
    | none => rw [hcy] at hr; cases hr
    | some q' =>
      rw [hcy] at hr
      cases hr
      obtain ⟨pruned, cand, k, hp, hsearch, -, -, -, -, -, hpc, -, htl, -, -⟩ :=
        ReconfigurationCycle_some env _ now q' hcy
      refine ⟨by rw [(push_fields _ _).2.2.1, hpc], pruned, cand, ?_, ?_, ?_⟩
      · rw [← htabu]; exact hp
      · exact searchCandidate_not_tabu _ _ _ _ _ _ _ hsearch
      · rw [(push_fields _ _).2.2.2.2.2.2.1, htl]
  · intro hgt htries hfirst
    have hyes : (WifiMacQueue.withDistance env (q.Cleanup now)).packetCount + 1 >
        PACKETRESET := by
      rw [hcount]; exact hgt
    obtain ⟨pruned, hp, -, -⟩ := tabuPrune_total now q.tabuList
    have hsearch := searchCandidate_first
      (Solution.mk q.current.ALPHA q.current.BETA1 q.current.BETA2 (cycleUtility env.server))
      pruned env.GetValue env.tries 1 htries (hfirst pruned hp)
    obtain ⟨q', hq'⟩ := ReconfigurationCycle_isSome env
      { WifiMacQueue.withDistance env (q.Cleanup now) with
        packetCount := (WifiMacQueue.withDistance env (q.Cleanup now)).packetCount + 1 }
      now pruned _ _ (by show tabuPrune now (WifiMacQueue.withDistance env
        (q.Cleanup now)).tabuList = _; rw [htabu]; exact hp)
      (by show searchCandidate (Solution.mk (WifiMacQueue.withDistance env
            (q.Cleanup now)).current.ALPHA (WifiMacQueue.withDistance env
            (q.Cleanup now)).current.BETA1 (WifiMacQueue.withDistance env
            (q.Cleanup now)).current.BETA2 _) _ _ _ _ = _
          rw [hcur]; exact hsearch)
    rw [hE, if_pos hyes, hq']
    exact ⟨_, rfl⟩

/-- Witness for C15: with `packetCount` at 5, one more delayed packet makes the
cycle run and leaves the count at 0. -/
theorem cycle_runs_when_count_exceeds_reset_witness :
    ∃ r, WifiMacQueue.EnqueueWith adaptiveBias (delayedCall none).1
        { WifiMacQueue.new with packetCount := 5 } 0 1 (sampleHdr 7) = some r ∧
      r.1.packetCount = 0 :=
  have h := cycle_runs_when_count_exceeds_reset adaptiveBias (delayedCall none).1
    { WifiMacQueue.new with packetCount := 5 } 0 1 (sampleHdr 7) rfl rfl (by decide)
    (by decide) (by decide!)
  Exists.elim (h.2.2 (by decide) (by decide) (fun _ hp => by cases hp; rfl))
    (fun r hr => ⟨r, hr, (h.2.1 (by decide) r hr).1⟩)

/-- Counterexample to C15 as stated: starting from a fresh queue in adaptive
mode, after exactly five delayed packets (all stamped 0.5 s) `packetCount` is 5
and the tabu list is still empty: no cycle has run. The sixth delayed packet
runs it. -/
theorem no_cycle_after_five_delayed_packets :
    (enqueueAllWith adaptiveBias WifiMacQueue.new (List.replicate 5 (delayedCall none))).map
        (fun q => (q.m_queue.map (fun it => it.tstamp), q.packetCount, q.tabuList)) =
      some ([500000000, 500000000, 500000000, 500000000, 500000000], 5, []) ∧
    (enqueueAllWith adaptiveBias WifiMacQueue.new (List.replicate 6 (delayedCall none))).map
        (fun q => (q.packetCount, q.tabuList)) =
      some (0, [Tabu.mk 5000000000 (3 / 5) (5 / 2) (11 / 2)]) := by
  decide!

/-! ## The best solution -/

theorem EnqueueWith_full (mb : MixedBias) (env : Environment) (q : WifiMacQueue) (now : Time)
    (packet : Packet) (hdr : WifiMacHeader)
    (hfull : (q.Cleanup now).m_size = (q.Cleanup now).m_maxSize) :
    q.EnqueueWith mb env now packet hdr = some (q.Cleanup now, env.Delayed) := by
  unfold WifiMacQueue.EnqueueWith
  dsimp only
  rw [if_pos hfull]

theorem EnqueueWith_off (mb : MixedBias) (env : Environment) (q : WifiMacQueue) (now : Time)
    (packet : Packet) (hdr : WifiMacHeader)
    (hfree : ¬ (q.Cleanup now).m_size = (q.Cleanup now).m_maxSize) (hmb : mb.MB = false) :
    q.EnqueueWith mb env now packet hdr =
      some ({ q.Cleanup now with
        packetCount := (q.Cleanup now).packetCount + 1
        iterationCount := (q.Cleanup now).iterationCount + 1
        m_queue := (q.Cleanup now).m_queue ++ [Item.mk packet hdr now]
        m_size := u32inc (q.Cleanup now).m_size }, env.Delayed) := by
  unfold WifiMacQueue.EnqueueWith
  dsimp only
  rw [if_neg hfree, hmb]
  rfl

theorem ReconfigurationCycle_best (env : Environment) (q : WifiMacQueue) (now : Time)
    (q' : WifiMacQueue) (h : q.ReconfigurationCycle env now = some q') :
    q.best.utility ≤ q'.best.utility := by
  obtain ⟨_, _, _, -, -, -, -, -, -, -, -, hbest, -⟩ := ReconfigurationCycle_some env q now q' h
  rw [hbest]
  split
  · next hu => exact le_of_lt hu
  · exact le_refl _

theorem EnqueueWith_best (mb : MixedBias) (env : Environment) (q : WifiMacQueue) (now : Time)
    (packet : Packet) (hdr : WifiMacHeader) (r : WifiMacQueue × (Packet → Bool))
    (h : q.EnqueueWith mb env now packet hdr = some r) :
    q.best.utility ≤ r.1.best.utility := by
  have hcc := (Cleanup_controller q now).2.2.1
  have hw := (withDistance_fields env (q.Cleanup now)).2.2.2.1
  by_cases hfull : (q.Cleanup now).m_size = (q.Cleanup now).m_maxSize
  · rw [EnqueueWith_full mb env q now packet hdr hfull] at h
    cases h
    exact le_of_eq (congrArg Solution.utility hcc.symm)
  · cases hmb : mb.MB with
    | false =>
      rw [EnqueueWith_off mb env q now packet hdr hfull hmb] at h
      cases h
      exact le_of_eq (congrArg Solution.utility hcc.symm)
    | true =>
      by_cases hd : env.GetValue 0 > WifiMacQueue.R mb env q ∧ env.Delayed packet = false
      · cases hA : mb.ADAPTIVE with
        | false =>
          rw [EnqueueWith_delayed_static mb env q now packet hdr hfull hmb hA hd] at h
          cases h
          rw [(push_fields _ _).2.2.2.2.2.1, hw, hcc]
        | true =>
          rw [EnqueueWith_delayed_adaptive mb env q now packet hdr hfull hmb hA hd] at h
          split at h
          · cases hcy : WifiMacQueue.ReconfigurationCycle env
                { WifiMacQueue.withDistance env (q.Cleanup now) with
                  packetCount :=
                    (WifiMacQueue.withDistance env (q.Cleanup now)).packetCount + 1 }
                now with
            | none => rw [hcy] at h; cases h
            | some q' =>
              rw [hcy] at h
              cases h
              have hb := ReconfigurationCycle_best env _ now q' hcy
              rw [(push_fields _ _).2.2.2.2.2.1]
              refine le_trans (le_of_eq ?_) hb
              show q.best.utility = (WifiMacQueue.withDistance env (q.Cleanup now)).best.utility
              rw [hw, hcc]
          · cases h
            rw [(push_fields _ _).2.2.2.2.2.1]
            show q.best.utility ≤ (WifiMacQueue.withDistance env (q.Cleanup now)).best.utility
            rw [hw, hcc]
      · rw [EnqueueWith_not_delayed mb env q now packet hdr hfull hmb hd] at h
        cases h
        rw [(push_fields _ _).2.2.2.2.2.1, hw, hcc]

theorem enqueueAllWith_best (mb : MixedBias)
    (calls : List (Environment × Time × Packet × WifiMacHeader)) :
    ∀ q q', enqueueAllWith mb q calls = some q' → q.best.utility ≤ q'.best.utility := by
  induction calls with
  | nil =>
    intro q q' h
    simp only [enqueueAllWith, Option.some.injEq] at h
    rw [h]
  | cons c rest ih =>
    intro q q' h
    obtain ⟨env, now, packet, hdr⟩ := c
    unfold enqueueAllWith at h
    cases hr : q.EnqueueWith mb env now packet hdr with
    | none => rw [hr] at h; cases h
    | some r =>
      rw [hr] at h
      exact le_trans (EnqueueWith_best mb env q now packet hdr r hr) (ih r.1 q' h)

/-- C16: `best.utility` never decreases. A reconfiguration cycle replaces
`best` exactly when the utility just computed for `current` is strictly greater
than `best.utility`, and then `best` takes the three parameters of that
`current` and the computed utility; otherwise `best` is unchanged. Along every
sequence of `Enqueue` calls, with any statistics and draws, `best.utility` at
the end is at least what it was at the start. A cycle finishes as soon as a
candidate is not tabu, the first one in particular. -/
theorem best_utility_never_decreases :
    (∀ (env : Environment) (q : WifiMacQueue) (now : Time) (q' : WifiMacQueue),
      q.ReconfigurationCycle env now = some q' →
        q.best.utility ≤ q'.best.utility ∧
        (cycleUtility env.server > q.best.utility →
          q'.best = Solution.mk q.current.ALPHA q.current.BETA1 q.current.BETA2
            (cycleUtility env.server)) ∧
        (¬ cycleUtility env.server > q.best.utility → q'.best = q.best)) ∧
    (∀ (mb : MixedBias) (calls : List (Environment × Time × Packet × WifiMacHeader))
      (q q' : WifiMacQueue),
      enqueueAllWith mb q calls = some q' → q.best.utility ≤ q'.best.utility) ∧
    (∀ (env : Environment) (q : WifiMacQueue) (now : Time), 0 < env.tries →
      (∀ pruned, tabuPrune now q.tabuList = some pruned →
        IsTabu pruned (GetPotentialSolution
          (Solution.mk q.current.ALPHA q.current.BETA1 q.current.BETA2
            (cycleUtility env.server)) env.GetValue 1).1 = false) →
      ∃ q', q.ReconfigurationCycle env now = some q') := by
  refine ⟨?_, ?_, ?_⟩
  · intro env q now q' h
    obtain ⟨_, _, _, -, -, -, -, -, -, -, -, hbest, -⟩ :=
      ReconfigurationCycle_some env q now q' h
    refine ⟨ReconfigurationCycle_best env q now q' h, ?_, ?_⟩
    · intro hu
      rw [hbest, if_pos hu]
    · intro hu
      rw [hbest, if_neg hu]
  · intro mb calls q q' h
    exact enqueueAllWith_best mb calls q q' h
  · intro env q now htries hfirst
    obtain ⟨pruned, hp, -, -⟩ := tabuPrune_total now q.tabuList
    exact ReconfigurationCycle_isSome env q now pruned _ _ hp
      (searchCandidate_first _ pruned env.GetValue env.tries 1 htries (hfirst pruned hp))

/-- Witness for C16: the first cycle of a fresh queue, without a server, ends
and does not lower `best.utility`. -/
theorem best_utility_never_decreases_witness :
    ∃ q', WifiMacQueue.new.ReconfigurationCycle (delayedCall none).1 0 = some q' ∧
      WifiMacQueue.new.best.utility ≤ q'.best.utility :=
  Exists.elim
    (best_utility_never_decreases.2.2 (delayedCall none).1 WifiMacQueue.new 0 (by decide)
      (fun _ hp => by cases hp; rfl))
    (fun q' hq' =>
      ⟨q', hq', (best_utility_never_decreases.1 (delayedCall none).1 WifiMacQueue.new 0 q'
        hq').1⟩)

/-! ## Tabu exclusion and aspiration -/

/-- C17, as the code has it: let `e` be in the tabu list when a cycle starts,
the cycle running at a time not after `e.expiry`. When the aspiration step does
not fire, `current` at the end of the cycle differs from `e` in at least one of
`ALPHA`, `BETA1`, `BETA2`. `current` can equal `e` only through the aspiration
step, which (once `iterationCount` exceeds `TABURESET`) copies `best` into
`current` without consulting the tabu list and resets `iterationCount`. -/
theorem current_differs_from_live_tabu (env : Environment) (q : WifiMacQueue) (now : Time)
    (q' : WifiMacQueue) (e : Tabu) (h : q.ReconfigurationCycle env now = some q')
    (he : e ∈ q.tabuList) (hlive : now ≤ e.expiry) :
    (q.iterationCount + 1 ≤ TABURESET →
      ¬ (q'.current.ALPHA = e.ALPHA ∧ q'.current.BETA1 = e.BETA1 ∧
        q'.current.BETA2 = e.BETA2)) ∧
    ((q'.current.ALPHA = e.ALPHA ∧ q'.current.BETA1 = e.BETA1 ∧ q'.current.BETA2 = e.BETA2) →
      TABURESET < q.iterationCount + 1 ∧ q'.iterationCount = 0 ∧ q'.current = q'.best) := by
  obtain ⟨pruned, cand, k, hp, hsearch, -, -, -, -, -, -, -, -, hasp, hnasp⟩ :=
    ReconfigurationCycle_some env q now q' h
  have hmem := tabuPrune_mem now q.tabuList pruned e hp he hlive
  have hcand := (IsTabu_false_iff pruned cand).mp
    (searchCandidate_not_tabu _ _ _ _ _ _ _ hsearch) e hmem
  by_cases hfire : q.iterationCount + 1 > TABURESET ∧ env.GetValue k < 1 / 2
  · obtain ⟨h1, h2⟩ := hasp hfire
    refine ⟨fun hle => absurd hfire.1 (by omega), fun _ => ⟨hfire.1, h2, h1⟩⟩
  · obtain ⟨h1, -⟩ := hnasp hfire
    have hne : ¬ (q'.current.ALPHA = e.ALPHA ∧ q'.current.BETA1 = e.BETA1 ∧
        q'.current.BETA2 = e.BETA2) := by
      rw [h1]
      exact hcand
    exact ⟨fun _ => hne, fun heq => absurd heq hne⟩

/-- Witness for C17: the candidate one step up from the initial solution is
tabu, so the cycle adopts the next candidate, one step down, which differs from
the tabu entry. -/
theorem current_differs_from_live_tabu_witness :
    ∃ q', WifiMacQueue.ReconfigurationCycle
        (sampleEnv [99 / 100, 1 / 5, 1 / 5, 1 / 5, 1 / 2, 1 / 2, 1 / 2] none)
        { WifiMacQueue.new with tabuList := [Tabu.mk 5000000000 (3 / 5) (5 / 2) (11 / 2)] } 0 =
          some q' ∧
      ¬ (q'.current.ALPHA = 3 / 5 ∧ q'.current.BETA1 = 5 / 2 ∧ q'.current.BETA2 = 11 / 2) := by
  cases hq : WifiMacQueue.ReconfigurationCycle
      (sampleEnv [99 / 100, 1 / 5, 1 / 5, 1 / 5, 1 / 2, 1 / 2, 1 / 2] none)
      { WifiMacQueue.new with tabuList := [Tabu.mk 5000000000 (3 / 5) (5 / 2) (11 / 2)] } 0 with
  | none =>
    have hsome : (WifiMacQueue.ReconfigurationCycle
        (sampleEnv [99 / 100, 1 / 5, 1 / 5, 1 / 5, 1 / 2, 1 / 2, 1 / 2] none)
        { WifiMacQueue.new with tabuList := [Tabu.mk 5000000000 (3 / 5) (5 / 2) (11 / 2)] }
        0).isSome = true := by decide!
    rw [hq] at hsome
    cases hsome
  | some q' =>
    exact ⟨q', rfl, (current_differs_from_live_tabu _ _ 0 q'
      (Tabu.mk 5000000000 (3 / 5) (5 / 2) (11 / 2)) hq (by decide!) (by decide)).1
      (by decide)⟩

set_option maxRecDepth 1000000 in
/-- Counterexample to C17 as stated: a fresh queue in adaptive mode receives
306 delayed packets at time 0, six for each cycle. Every cycle takes the random
pick for the three parameters, so the candidate of cycle `i` is
(`i / 64`, 2, 5): these are binary fractions and small integers, which `double`
arithmetic holds and compares without rounding, and no candidate is tabu.
After 305 packets, 50 cycles have run, `current` is (50/64, 2, 5) and the tabu
list holds, at index 49, the entry made for it, with expiry 5 s. The last packet
starts the 51st cycle, whose statistics give utility 2: `best` becomes
(50/64, 2, 5), the candidate (51/64, 2, 5) is adopted, and since
`iterationCount` is now 51 > 50 and `prob2` = 0.25 < 0.5 the aspiration step
sets `current` back to `best`, the parameters of that live tabu entry. -/
theorem aspiration_adopts_live_tabu :
    (enqueueAllWith adaptiveBias WifiMacQueue.new
        (pickCycles 50 ++ List.replicate 5 (pickCall 51 (some exactServer)))).map
        (fun q => (q.iterationCount, q.packetCount, q.current, q.tabuList[49]?)) =
      some (50, 5, Solution.mk (25 / 32) 2 5 0, some (Tabu.mk 5000000000 (25 / 32) 2 5)) ∧
    (enqueueAllWith adaptiveBias WifiMacQueue.new
        (pickCycles 50 ++ List.replicate 6 (pickCall 51 (some exactServer)))).map
        (fun q => (q.current, q.best, q.tabuList[49]?, q.tabuList[50]?)) =
      some (Solution.mk (25 / 32) 2 5 2, Solution.mk (25 / 32) 2 5 2,
        some (Tabu.mk 5000000000 (25 / 32) 2 5), some (Tabu.mk 5000000000 (51 / 64) 2 5)) ∧
    (0 : Time) < 5000000000 := by
  decide!

/-! ## A cycle without statistics -/

/-- C20, as the code has it: in `GetPotentialSolution` each of the three
parameters is set by its own block. When the step-up branch (draw ≤ 0.45) is
taken and `current + increment` is below the upper bound (1 for `ALPHA` with
+0.1, 7.5 for `BETA1` and `BETA2` with +0.5), or the step-down branch (draw in
(0.45, 0.9]) is taken and `current − increment` is above 0, the candidate's
value is `current ± increment`. When the bound fails, the candidate keeps the
value that the constructor `Solution ()` gave it, 0.5 for `ALPHA`, 2 for
`BETA1` and 5 for `BETA2`, and not the value of `current`. -/
theorem GetPotentialSolution_guarded_steps (current : Solution) (GetValue : Nat → ℚ)
    (k : Nat) :
    (GetPotentialSolution current GetValue k).1.ALPHA =
      (potentialALPHA current GetValue k).1 ∧
    (GetPotentialSolution current GetValue k).1.BETA1 =
      (potentialBETA1 current GetValue (potentialALPHA current GetValue k).2).1 ∧
    (GetPotentialSolution current GetValue k).1.BETA2 =
      (potentialBETA2 current GetValue
        (potentialBETA1 current GetValue (potentialALPHA current GetValue k).2).2).1 ∧
    (∀ j,
      (GetValue j ≤ 9 / 20 → current.ALPHA + 1 / 10 < 1 →
        (potentialALPHA current GetValue j).1 = current.ALPHA + 1 / 10) ∧
      (GetValue j ≤ 9 / 20 → ¬ current.ALPHA + 1 / 10 < 1 →
        (potentialALPHA current GetValue j).1 = 1 / 2) ∧
      (9 / 20 < GetValue j → GetValue j ≤ 9 / 10 → current.ALPHA - 1 / 10 > 0 →
        (potentialALPHA current GetValue j).1 = current.ALPHA - 1 / 10) ∧
      (9 / 20 < GetValue j → GetValue j ≤ 9 / 10 → ¬ current.ALPHA - 1 / 10 > 0 →
        (potentialALPHA current GetValue j).1 = 1 / 2)) ∧
    (∀ j,
      (GetValue j ≤ 9 / 20 → current.BETA1 + 1 / 2 < 15 / 2 →
        (potentialBETA1 current GetValue j).1 = current.BETA1 + 1 / 2) ∧
      (GetValue j ≤ 9 / 20 → ¬ current.BETA1 + 1 / 2 < 15 / 2 →
        (potentialBETA1 current GetValue j).1 = 2) ∧
      (9 / 20 < GetValue j → GetValue j ≤ 9 / 10 → current.BETA1 - 1 / 2 > 0 →
        (potentialBETA1 current GetValue j).1 = current.BETA1 - 1 / 2) ∧
      (9 / 20 < GetValue j → GetValue j ≤ 9 / 10 → ¬ current.BETA1 - 1 / 2 > 0 →
        (potentialBETA1 current GetValue j).1 = 2)) ∧
    (∀ j,
      (GetValue j ≤ 9 / 20 → current.BETA2 + 1 / 2 < 15 / 2 →
        (potentialBETA2 current GetValue j).1 = current.BETA2 + 1 / 2) ∧
      (GetValue j ≤ 9 / 20 → ¬ current.BETA2 + 1 / 2 < 15 / 2 →
        (potentialBETA2 current GetValue j).1 = 5) ∧
      (9 / 20 < GetValue j → GetValue j ≤ 9 / 10 → current.BETA2 - 1 / 2 > 0 →
        (potentialBETA2 current GetValue j).1 = current.BETA2 - 1 / 2) ∧
      (9 / 20 < GetValue j → GetValue j ≤ 9 / 10 → ¬ current.BETA2 - 1 / 2 > 0 →
        (potentialBETA2 current GetValue j).1 = 5)) := by
  refine ⟨rfl, rfl, rfl, ?_, ?_, ?_⟩
  · intro j
    refine ⟨?_, ?_, ?_, ?_⟩
    · intro h1 h2
      unfold potentialALPHA
      dsimp only
      rw [if_pos h1, if_pos h2]
    · intro h1 h2
      unfold potentialALPHA
      dsimp only
      rw [if_pos h1, if_neg h2]
      rfl
    · intro h1 h2 h3
      unfold potentialALPHA
      dsimp only
      rw [if_neg (not_le.mpr h1), if_pos h2, if_pos h3]
    · intro h1 h2 h3
      unfold potentialALPHA
      dsimp only
      rw [if_neg (not_le.mpr h1), if_pos h2, if_neg h3]
      rfl
  · intro j
    refine ⟨?_, ?_, ?_, ?_⟩
    · intro h1 h2
      unfold potentialBETA1
      dsimp only
      rw [if_pos h1, if_pos h2]
    · intro h1 h2
      unfold potentialBETA1
      dsimp only
      rw [if_pos h1, if_neg h2]
      rfl
    · intro h1 h2 h3
      unfold potentialBETA1
      dsimp only
      rw [if_neg (not_le.mpr h1), if_pos h2, if_pos h3]
    · intro h1 h2 h3
      unfold potentialBETA1
      dsimp only
      rw [if_neg (not_le.mpr h1), if_pos h2, if_neg h3]
      rfl
  · intro j
    refine ⟨?_, ?_, ?_, ?_⟩
    · intro h1 h2
      unfold potentialBETA2
      dsimp only
      rw [if_pos h1, if_pos h2]
    · intro h1 h2
      unfold potentialBETA2
      dsimp only
      rw [if_pos h1, if_neg h2]
      rfl
    · intro h1 h2 h3
      unfold potentialBETA2
      dsimp only
      rw [if_neg (not_le.mpr h1), if_pos h2, if_pos h3]
    · intro h1 h2 h3
      unfold potentialBETA2
      dsimp only
      rw [if_neg (not_le.mpr h1), if_pos h2, if_neg h3]
      rfl

/-- Witness for C20: from `current` = (0.5, 2, 7) the draws 0.2 step `ALPHA` up
to 0.6, and leave `BETA2` at the constructor value 5 because 7 + 0.5 is not
below 7.5. -/
theorem GetPotentialSolution_guarded_steps_witness :
    (potentialALPHA (Solution.mk (1 / 2) 2 7 0) (fun _ => 1 / 5) 0).1 = 1 / 2 + 1 / 10 ∧
    (potentialBETA2 (Solution.mk (1 / 2) 2 7 0) (fun _ => 1 / 5) 2).1 = 5 :=
  ⟨((GetPotentialSolution_guarded_steps (Solution.mk (1 / 2) 2 7 0) (fun _ => 1 / 5)
      0).2.2.2.1 0).1 (by decide!) (by decide!),
   ((GetPotentialSolution_guarded_steps (Solution.mk (1 / 2) 2 7 0) (fun _ => 1 / 5)
      0).2.2.2.2.2 2).2.1 (by decide!) (by decide!)⟩

/-- Counterexample to C20 as stated: with `current.BETA2` = 7 the step-up branch
is taken (draw 0.2 ≤ 0.45) and its guard fails (7.5 is not below 7.5); the
candidate's `BETA2` is then 5, the value set by `Solution ()`, not 0. -/
theorem guarded_step_keeps_constructor_value :
    (1 / 5 : ℚ) ≤ 9 / 20 ∧ ¬ ((7 : ℚ) + 1 / 2 < 15 / 2) ∧
    (GetPotentialSolution (Solution.mk (1 / 2) 2 7 0) (fun _ => 1 / 5) 0).1.BETA2 = 5 ∧
    (GetPotentialSolution (Solution.mk (1 / 2) 2 7 0) (fun _ => 1 / 5) 0).1.BETA2 ≠ 0 := by
  decide!

/-! ## The compiled configuration -/

theorem EnqueueWith_compiled (env : Environment) (q : WifiMacQueue) (now : Time)
    (packet : Packet) (hdr : WifiMacHeader) :
    q.EnqueueWith MixedBias.compiled env now packet hdr =
      some (q.Enqueue now packet hdr, env.Delayed) := by
  by_cases hfull : (q.Cleanup now).m_size = (q.Cleanup now).m_maxSize
  · rw [EnqueueWith_full _ env q now packet hdr hfull, Enqueue_full q now packet hdr hfull]
  · rw [EnqueueWith_off _ env q now packet hdr hfull rfl]
    unfold WifiMacQueue.Enqueue
    dsimp only
    rw [if_neg hfull]

/-! ## The range of the parameters -/

theorem toInt_unit_range (v : ℚ) (h0 : 0 ≤ v) (h1 : v < 1) :
    0 ≤ ((toInt (v * 10) : Int) : ℚ) ∧ ((toInt (v * 10) : Int) : ℚ) ≤ 9 := by
  have hnn : (0 : ℚ) ≤ v * 10 := by linarith
  have hfl : toInt (v * 10) = Rat.floor (v * 10) := by
    unfold toInt
    rw [if_pos hnn]
  rw [hfl]
  have hlo : (0 : Int) ≤ Rat.floor (v * 10) := Rat.le_floor.mpr (by simpa using hnn)
  have hhi : Rat.floor (v * 10) ≤ 9 := by
    by_contra hcon
    have h10 : (10 : Int) ≤ Rat.floor (v * 10) := by omega
    have := Rat.le_floor.mp h10
    have h10q : (10 : ℚ) ≤ v * 10 := by simpa using this
    linarith
  exact ⟨by exact_mod_cast hlo, by exact_mod_cast hhi⟩

theorem potentialALPHA_range (current : Solution) (GetValue : Nat → ℚ) (k : Nat)
    (hd : UnitDraws GetValue) (h : 0 ≤ current.ALPHA ∧ current.ALPHA < 1) :
    0 ≤ (potentialALPHA current GetValue k).1 ∧ (potentialALPHA current GetValue k).1 < 1 := by
  unfold potentialALPHA
  dsimp only
  split
  · split
    · next hg => exact ⟨by linarith [h.1], hg⟩
    · exact ⟨by norm_num [Solution.new], by norm_num [Solution.new]⟩
  · split
    · split
      · next hg => exact ⟨le_of_lt hg, by linarith [h.2]⟩
      · exact ⟨by norm_num [Solution.new], by norm_num [Solution.new]⟩
    · exact hd (k + 1)

theorem potentialBETA1_range (current : Solution) (GetValue : Nat → ℚ) (k : Nat)
    (hd : UnitDraws GetValue) (h : 0 ≤ current.BETA1 ∧ current.BETA1 ≤ 9) :
    0 ≤ (potentialBETA1 current GetValue k).1 ∧ (potentialBETA1 current GetValue k).1 ≤ 9 := by
  unfold potentialBETA1
  dsimp only
  split
  · split
    · next hg => exact ⟨by linarith [h.1], by linarith⟩
    · exact ⟨by norm_num [Solution.new], by norm_num [Solution.new]⟩
  · split
    · split
      · next hg => exact ⟨le_of_lt hg, by linarith [h.2]⟩
      · exact ⟨by norm_num [Solution.new], by norm_num [Solution.new]⟩
    · exact toInt_unit_range _ (hd (k + 1)).1 (hd (k + 1)).2

theorem potentialBETA2_range (current : Solution) (GetValue : Nat → ℚ) (k : Nat)
    (hd : UnitDraws GetValue) (h : 0 ≤ current.BETA2 ∧ current.BETA2 ≤ 9) :
    0 ≤ (potentialBETA2 current GetValue k).1 ∧ (potentialBETA2 current GetValue k).1 ≤ 9 := by
  unfold potentialBETA2
  dsimp only
  split
  · split
    · next hg => exact ⟨by linarith [h.1], by linarith⟩
    · exact ⟨by norm_num [Solution.new], by norm_num [Solution.new]⟩
  · split
    · split
      · next hg => exact ⟨le_of_lt hg, by linarith [h.2]⟩
      · exact ⟨by norm_num [Solution.new], by norm_num [Solution.new]⟩
    · exact toInt_unit_range _ (hd (k + 1)).1 (hd (k + 1)).2

theorem GetPotentialSolution_range (current : Solution) (GetValue : Nat → ℚ) (k : Nat)
    (hd : UnitDraws GetValue) (h : InRange current.ALPHA current.BETA1 current.BETA2) :
    InRange (GetPotentialSolution current GetValue k).1.ALPHA
      (GetPotentialSolution current GetValue k).1.BETA1
      (GetPotentialSolution current GetValue k).1.BETA2 :=
  ⟨potentialALPHA_range current GetValue k hd h.1,
   potentialBETA1_range current GetValue _ hd h.2.1,
   potentialBETA2_range current GetValue _ hd h.2.2⟩

theorem searchCandidate_range (current : Solution) (tabuList : List Tabu)
    (GetValue : Nat → ℚ) (hd : UnitDraws GetValue)
    (h : InRange current.ALPHA current.BETA1 current.BETA2) :
    ∀ (tries k : Nat) (cand : Solution) (k' : Nat),
      searchCandidate current tabuList GetValue tries k = some (cand, k') →
      InRange cand.ALPHA cand.BETA1 cand.BETA2 := by
  intro tries
  induction tries with
  | zero => intro k cand k' hs; simp [searchCandidate] at hs
  | succ tries ih =>
    intro k cand k' hs
    unfold searchCandidate at hs
    dsimp only at hs
    split at hs
    · exact ih _ cand k' hs
    · have hr := GetPotentialSolution_range current GetValue k hd h
      rw [Option.some.injEq] at hs
      rw [hs] at hr
      exact hr

theorem ReconfigurationCycle_range (env : Environment) (q : WifiMacQueue) (now : Time)
    (q' : WifiMacQueue) (hd : UnitDraws env.GetValue) (h : ParametersInRange q)
    (hc : q.ReconfigurationCycle env now = some q') : ParametersInRange q' := by
  obtain ⟨pruned, cand, k, hp, hsearch, -, -, -, -, -, -, hbest, htl, hasp, hnasp⟩ :=
    ReconfigurationCycle_some env q now q' hc
  obtain ⟨pruned', hp', hsub, -⟩ := tabuPrune_total now q.tabuList
  rw [hp] at hp'
  cases hp'
  have hcand := searchCandidate_range
    (Solution.mk q.current.ALPHA q.current.BETA1 q.current.BETA2 (cycleUtility env.server))
    pruned env.GetValue hd h.1 _ _ _ _ hsearch
  have hb : InRange q'.best.ALPHA q'.best.BETA1 q'.best.BETA2 := by
    rw [hbest]
    split
    · exact h.1
    · exact h.2.1
  refine ⟨?_, hb, ?_⟩
  · by_cases hfire : q.iterationCount + 1 > TABURESET ∧ env.GetValue k < 1 / 2
    · rw [(hasp hfire).1]
      exact hb
    · rw [(hnasp hfire).1]
      exact hcand
  · intro t ht
    rw [htl, List.mem_append, List.mem_singleton] at ht
    rcases ht with ht | ht
    · exact h.2.2 t (hsub.subset ht)
    · rw [ht]
      exact hcand

theorem EnqueueWith_range (mb : MixedBias) (env : Environment) (q : WifiMacQueue)
    (now : Time) (packet : Packet) (hdr : WifiMacHeader) (r : WifiMacQueue × (Packet → Bool))
    (hd : UnitDraws env.GetValue) (h : ParametersInRange q)
    (hr : q.EnqueueWith mb env now packet hdr = some r) : ParametersInRange r.1 := by
  have hcc := Cleanup_controller q now
  have hw := withDistance_fields env (q.Cleanup now)
  have hC : ParametersInRange (q.Cleanup now) := by
    unfold ParametersInRange
    rw [hcc.2.1, hcc.2.2.1, hcc.2.2.2.1]
    exact h
  have hW : ParametersInRange (WifiMacQueue.withDistance env (q.Cleanup now)) := by
    unfold ParametersInRange
    rw [hw.2.2.1, hw.2.2.2.1, hw.2.2.2.2.1]
    exact hC
  have hpush : ∀ (q0 : WifiMacQueue) (it : Item), ParametersInRange q0 →
      ParametersInRange (q0.push it) := by
    intro q0 it h0
    unfold ParametersInRange
    rw [(push_fields q0 it).2.2.2.2.1, (push_fields q0 it).2.2.2.2.2.1,
      (push_fields q0 it).2.2.2.2.2.2.1]
    exact h0
  by_cases hfull : (q.Cleanup now).m_size = (q.Cleanup now).m_maxSize
  · rw [EnqueueWith_full mb env q now packet hdr hfull] at hr
    cases hr
    exact hC
  · cases hmb : mb.MB with
    | false =>
      rw [EnqueueWith_off mb env q now packet hdr hfull hmb] at hr
      cases hr
      exact hC
    | true =>
      by_cases hdel : env.GetValue 0 > WifiMacQueue.R mb env q ∧ env.Delayed packet = false
      · cases hA : mb.ADAPTIVE with
        | false =>
          rw [EnqueueWith_delayed_static mb env q now packet hdr hfull hmb hA hdel] at hr
          cases hr
          exact hpush _ _ hW
        | true =>
          rw [EnqueueWith_delayed_adaptive mb env q now packet hdr hfull hmb hA hdel] at hr
          split at hr
          · cases hcy : WifiMacQueue.ReconfigurationCycle env
                { WifiMacQueue.withDistance env (q.Cleanup now) with
                  packetCount :=
                    (WifiMacQueue.withDistance env (q.Cleanup now)).packetCount + 1 }
                now with
            | none => rw [hcy] at hr; cases hr
            | some q' =>
              rw [hcy] at hr
              cases hr
              exact hpush _ _ (ReconfigurationCycle_range env _ now q' hd hW hcy)
          · cases hr
            exact hpush _ _ hW
      · rw [EnqueueWith_not_delayed mb env q now packet hdr hfull hmb hdel] at hr
        cases hr
        exact hpush _ _ hW

theorem new_parametersInRange : ParametersInRange WifiMacQueue.new := by
  have h : InRange (1 / 2) 2 5 := by
    unfold InRange
    norm_num
  exact ⟨h, h, fun t ht => by cases ht⟩

theorem restartDraws_unit : UnitDraws restartDraws := by
  intro k
  unfold restartDraws
  split
  · norm_num
  · split <;> norm_num

/-- C21, as the code has it: from the state that the constructor sets up, along
every sequence of `Enqueue` calls (with any constants, times, packets,
statistics and tabu outcomes) whose draws all lie in [0,1), the solutions
`current` and `best` and every entry of the tabu list satisfy 0 ≤ `ALPHA` < 1,
0 ≤ `BETA1` ≤ 9 and 0 ≤ `BETA2` ≤ 9. The bounds of `BETA1` and `BETA2` are those
of the random pick `(int)(u.GetValue () * 10)`, an integer from 0 to 9, and not
the bounds 0 and 7.5 of the guarded steps. -/
theorem parameters_stay_in_range (mb : MixedBias)
    (calls : List (Environment × Time × Packet × WifiMacHeader)) (q : WifiMacQueue)
    (hdraws : ∀ c ∈ calls, UnitDraws c.1.GetValue)
    (hrun : enqueueAllWith mb WifiMacQueue.new calls = some q) :
    (0 ≤ q.current.ALPHA ∧ q.current.ALPHA < 1 ∧ 0 ≤ q.current.BETA1 ∧ q.current.BETA1 ≤ 9 ∧
      0 ≤ q.current.BETA2 ∧ q.current.BETA2 ≤ 9) ∧
    (0 ≤ q.best.ALPHA ∧ q.best.ALPHA < 1 ∧ 0 ≤ q.best.BETA1 ∧ q.best.BETA1 ≤ 9 ∧
      0 ≤ q.best.BETA2 ∧ q.best.BETA2 ≤ 9) ∧
    (∀ t ∈ q.tabuList, 0 ≤ t.ALPHA ∧ t.ALPHA < 1 ∧ 0 ≤ t.BETA1 ∧ t.BETA1 ≤ 9 ∧
      0 ≤ t.BETA2 ∧ t.BETA2 ≤ 9) := by
  have hgen : ∀ (calls : List (Environment × Time × Packet × WifiMacHeader))
      (q0 q1 : WifiMacQueue), (∀ c ∈ calls, UnitDraws c.1.GetValue) →
      ParametersInRange q0 → enqueueAllWith mb q0 calls = some q1 → ParametersInRange q1 := by
    intro calls
    induction calls with
    | nil =>
      intro q0 q1 _ h0 hrun
      simp only [enqueueAllWith, Option.some.injEq] at hrun
      rw [← hrun]
      exact h0
    | cons c rest ih =>
      intro q0 q1 hd h0 hrun
      obtain ⟨env, now, packet, hdr⟩ := c
      unfold enqueueAllWith at hrun
      cases hr : q0.EnqueueWith mb env now packet hdr with
      | none => rw [hr] at hrun; cases hrun
      | some r =>
        rw [hr] at hrun
        exact ih r.1 q1 (fun c hc => hd c (List.mem_cons_of_mem _ hc))
          (EnqueueWith_range mb env q0 now packet hdr r
            (hd (env, now, packet, hdr) (List.mem_cons_self _ _)) h0 hr) hrun
  obtain ⟨⟨hca, hcb1, hcb2⟩, ⟨hba, hbb1, hbb2⟩, ht⟩ :=
    hgen calls WifiMacQueue.new q hdraws new_parametersInRange hrun
  refine ⟨⟨hca.1, hca.2, hcb1.1, hcb1.2, hcb2.1, hcb2.2⟩,
    ⟨hba.1, hba.2, hbb1.1, hbb1.2, hbb2.1, hbb2.2⟩, ?_⟩
  intro t htm
  obtain ⟨h1, h2, h3⟩ := ht t htm
  exact ⟨h1.1, h1.2, h2.1, h2.2, h3.1, h3.2⟩

/-- Witness for C21: six delayed packets whose draws are `restartDraws` run one
cycle; the solution adopted is within the ranges. -/
theorem parameters_stay_in_range_witness :
    ∃ q, enqueueAllWith adaptiveBias WifiMacQueue.new (List.replicate 6 restartCall) = some q ∧
      (0 ≤ q.current.ALPHA ∧ q.current.ALPHA < 1 ∧ 0 ≤ q.current.BETA1 ∧
        q.current.BETA1 ≤ 9 ∧ 0 ≤ q.current.BETA2 ∧ q.current.BETA2 ≤ 9) := by
  cases hq : enqueueAllWith adaptiveBias WifiMacQueue.new (List.replicate 6 restartCall) with
  | none =>
    have hsome : (enqueueAllWith adaptiveBias WifiMacQueue.new
        (List.replicate 6 restartCall)).isSome = true := by decide!
    rw [hq] at hsome
    cases hsome
  | some q =>
    exact ⟨q, rfl, (parameters_stay_in_range adaptiveBias (List.replicate 6 restartCall) q
      (fun c hc => by rw [List.eq_of_mem_replicate hc]; exact restartDraws_unit) hq).1⟩

/-- Counterexample to C21 as stated: every draw of `restartDraws` lies strictly
between 0 and 1; a fresh queue in adaptive mode receives six delayed packets,
the sixth runs the first cycle, and the random pick gives `BETA1` the value
`(int)(0.95 * 10)` = 9, above 7.5, and `BETA2` the value `(int)(0.05 * 10)` = 0,
not above 0. The candidate (0.95, 9, 0) becomes `current` and a tabu entry. -/
theorem random_pick_leaves_claimed_range :
    (∀ k, 0 < restartDraws k ∧ restartDraws k < 1) ∧
    (enqueueAllWith adaptiveBias WifiMacQueue.new (List.replicate 6 restartCall)).map
        (fun q => (q.current, q.tabuList)) =
      some (Solution.mk (19 / 20) 9 0 0, [Tabu.mk 5000000000 (19 / 20) 9 0]) ∧
    ¬ ((9 : ℚ) < 15 / 2) ∧ ¬ ((0 : ℚ) < 0) := by
  refine ⟨?_, by decide!, by norm_num, by norm_num⟩
  intro k
  unfold restartDraws
  split
  · norm_num
  · split <;> norm_num

/-! ## Cleanup as a filter -/

theorem u32sub_lt (x n : Nat) : u32sub x n < UINT32_MOD := by
  unfold u32sub
  exact Nat.mod_lt _ (by decide)

theorem u32sub_zero (x : Nat) (h : x < UINT32_MOD) : u32sub x 0 = x :=
  u32sub_eq x 0 (Nat.zero_le _) h

theorem CleanupScan_of_all_live (maxDelay now : Time) (l : List Item)
    (h : ∀ it ∈ l, it.tstamp + maxDelay > now) : CleanupScan maxDelay now l = (l, 0) := by
  induction l with
  | nil => rfl
  | cons i rest ih =>
    have hi := h i (List.mem_cons_self _ _)
    have hrest := ih (fun it hit => h it (List.mem_cons_of_mem _ hit))
    unfold CleanupScan
    dsimp only
    rw [if_pos hi, hrest]

theorem mem_unexpired (maxDelay now : Time) (l : List Item) (it : Item) :
    it ∈ unexpired maxDelay now l ↔ it ∈ l ∧ it.tstamp + maxDelay > now := by
  unfold unexpired
  rw [List.mem_filter]
  simp

theorem Cleanup_of_nil (q : WifiMacQueue) (now : Time) (he : q.m_queue = []) :
    q.Cleanup now = q := by
  unfold WifiMacQueue.Cleanup
  rw [he]
  rfl

theorem Cleanup_of_ne_nil (q : WifiMacQueue) (now : Time) (he : q.m_queue ≠ []) :
    q.Cleanup now =
      { q with m_queue := (CleanupScan q.m_maxDelay now q.m_queue).1,
               m_size := u32sub q.m_size (CleanupScan q.m_maxDelay now q.m_queue).2 } := by
  unfold WifiMacQueue.Cleanup
  have : q.m_queue.isEmpty = false := by
    cases hq : q.m_queue with
    | nil => exact absurd hq he
    | cons a l => rfl
  rw [this]
  rfl

theorem Cleanup_idem (q : WifiMacQueue) (now : Time) :
    (q.Cleanup now).Cleanup now = q.Cleanup now := by
  by_cases he : q.m_queue = []
  · rw [Cleanup_of_nil q now he, Cleanup_of_nil q now he]
  · by_cases he2 : (q.Cleanup now).m_queue = []
    · exact Cleanup_of_nil _ now he2
    · have hq := Cleanup_queue q now
      have hd := (Cleanup_fields q now).2
      have hscan : CleanupScan (q.Cleanup now).m_maxDelay now (q.Cleanup now).m_queue =
          ((q.Cleanup now).m_queue, 0) := by
        apply CleanupScan_of_all_live
        intro it hit
        rw [hq, mem_unexpired] at hit
        rw [hd]
        exact hit.2
      have hlt : (q.Cleanup now).m_size < UINT32_MOD := by
        rw [Cleanup_of_ne_nil q now he]
        exact u32sub_lt _ _
      rw [Cleanup_of_ne_nil (q.Cleanup now) now he2, hscan, u32sub_zero _ hlt]

theorem unexpired_length_add_expired (maxDelay now : Time) (l : List Item) :
    (unexpired maxDelay now l).length +
      l.countP (fun it => decide (it.tstamp + maxDelay ≤ now)) = l.length := by
  induction l with
  | nil => rfl
  | cons i rest ih =>
    unfold unexpired at ih ⊢
    by_cases h : i.tstamp + maxDelay > now
    · have h' : ¬ i.tstamp + maxDelay ≤ now := not_le.mpr h
      simp only [List.filter_cons, h, decide_True, if_true, List.length_cons, List.countP_cons,
        h', decide_False, Bool.false_eq_true, if_false]
      omega
    · have h' : i.tstamp + maxDelay ≤ now := not_lt.mp h
      simp only [List.filter_cons, h, decide_False, Bool.false_eq_true, if_false,
        List.length_cons, List.countP_cons, h', decide_True, if_true]
      omega

theorem withDistance_bounds (env : Environment) (q : WifiMacQueue) :
    (WifiMacQueue.withDistance env q).m_maxSize = q.m_maxSize ∧
    (WifiMacQueue.withDistance env q).m_maxDelay = q.m_maxDelay := by
  unfold WifiMacQueue.withDistance
  split <;> simp

theorem EnqueueWith_delayed_entry (mb : MixedBias) (env : Environment) (q : WifiMacQueue)
    (now : Time) (packet : Packet) (hdr : WifiMacHeader) (r : WifiMacQueue × (Packet → Bool))
    (hfree : ¬ (q.Cleanup now).m_size = (q.Cleanup now).m_maxSize) (hmb : mb.MB = true)
    (hd : env.GetValue 0 > WifiMacQueue.R mb env q ∧ env.Delayed packet = false)
    (hr : q.EnqueueWith mb env now packet hdr = some r) :
    r.1.m_queue = (q.Cleanup now).m_queue ++ [Item.mk env.Copy hdr (now + extraDelay)] ∧
    r.1.m_maxDelay = q.m_maxDelay := by
  have hw := withDistance_fields env (q.Cleanup now)
  have hb := (withDistance_bounds env (q.Cleanup now)).2
  have hm := (Cleanup_fields q now).2
  cases hA : mb.ADAPTIVE with
  | false =>
    rw [EnqueueWith_delayed_static mb env q now packet hdr hfree hmb hA hd] at hr
    cases hr
    exact ⟨by rw [(push_fields _ _).1, hw.1], by rw [(push_fields _ _).2.2.2.2.2.2.2.2.1, hb, hm]⟩
  | true =>
    rw [EnqueueWith_delayed_adaptive mb env q now packet hdr hfree hmb hA hd] at hr
    split at hr
    · cases hcy : WifiMacQueue.ReconfigurationCycle env
          { WifiMacQueue.withDistance env (q.Cleanup now) with
            packetCount := (WifiMacQueue.withDistance env (q.Cleanup now)).packetCount + 1 }
          now with
      | none => rw [hcy] at hr; cases hr
      | some q' =>
        rw [hcy] at hr
        cases hr
        obtain ⟨_, _, _, _, _, hq', _, _, hd', _⟩ := ReconfigurationCycle_some env _ now q' hcy
        refine ⟨?_, ?_⟩
        · rw [(push_fields _ _).1, hq']
          show (WifiMacQueue.withDistance env (q.Cleanup now)).m_queue ++ _ = _
          rw [hw.1]
        · rw [(push_fields _ _).2.2.2.2.2.2.2.2.1, hd']
          show (WifiMacQueue.withDistance env (q.Cleanup now)).m_maxDelay = _
          rw [hb, hm]
    · cases hr
      refine ⟨?_, ?_⟩
      · rw [(push_fields _ _).1]
        show (WifiMacQueue.withDistance env (q.Cleanup now)).m_queue ++ _ = _
        rw [hw.1]
      · rw [(push_fields _ _).2.2.2.2.2.2.2.2.1]
        show (WifiMacQueue.withDistance env (q.Cleanup now)).m_maxDelay = _
        rw [hb, hm]

/-- C22, as the code has it: `Cleanup` compares the stamp stored in the entry.
For every queue and every time `now` the queue after `Cleanup` is the
subsequence, in the original order, of the entries with
`tstamp + m_maxDelay > now`; when the counter agrees with the entries before
the call it is decremented by exactly the number of entries with
`tstamp + m_maxDelay ≤ now`, and agrees with the entries afterwards; a second
`Cleanup` at the same time changes nothing. The stamp of an entry that the bias
controller delays in a call at time `T` is `T + 0.5 s`: the entry is the last of
the queue after that call, and a `Cleanup` at time `t` retains it exactly when
`T + 0.5 s + m_maxDelay > t`. -/
theorem Cleanup_filters_by_stored_stamp (q : WifiMacQueue) (now : Time) :
    (q.Cleanup now).m_queue =
      q.m_queue.filter (fun it => decide (it.tstamp + q.m_maxDelay > now)) ∧
    (q.Cleanup now).m_queue.Sublist q.m_queue ∧
    (∀ it, it ∈ (q.Cleanup now).m_queue ↔ it ∈ q.m_queue ∧ it.tstamp + q.m_maxDelay > now) ∧
    (Consistent q →
      (q.Cleanup now).m_size +
          q.m_queue.countP (fun it => decide (it.tstamp + q.m_maxDelay ≤ now)) = q.m_size ∧
      (q.Cleanup now).m_size = (q.Cleanup now).m_queue.length) ∧
    (q.Cleanup now).Cleanup now = q.Cleanup now ∧
    (∀ (mb : MixedBias) (env : Environment) (T : Time) (packet : Packet) (hdr : WifiMacHeader)
      (r : WifiMacQueue × (Packet → Bool)),
      mb.MB = true → ¬ (q.Cleanup T).m_size = (q.Cleanup T).m_maxSize →
      (env.GetValue 0 > WifiMacQueue.R mb env q ∧ env.Delayed packet = false) →
      q.EnqueueWith mb env T packet hdr = some r →
        r.1.m_queue.getLast? = some (Item.mk env.Copy hdr (T + extraDelay)) ∧
        ∀ t, Item.mk env.Copy hdr (T + extraDelay) ∈ (r.1.Cleanup t).m_queue ↔
          T + extraDelay + q.m_maxDelay > t) := by
  have hq := Cleanup_queue q now
  refine ⟨hq, ?_, ?_, ?_, Cleanup_idem q now, ?_⟩
  · rw [hq]
    exact List.filter_sublist _
  · intro it
    rw [hq]
    exact mem_unexpired _ _ _ it
  · intro hc
    have hs := Cleanup_size q now hc
    have hcount := unexpired_length_add_expired q.m_maxDelay now q.m_queue
    refine ⟨?_, ?_⟩
    · rw [hs, hcount, hc.1]
    · rw [hs, hq]
  · intro mb env T packet hdr r hmb hfree hd hr
    obtain ⟨hrq, hrd⟩ := EnqueueWith_delayed_entry mb env q T packet hdr r hfree hmb hd hr
    refine ⟨by rw [hrq, List.getLast?_append]; rfl, ?_⟩
    intro t
    rw [Cleanup_queue, mem_unexpired, hrd]
    constructor
    · intro h
      exact h.2
    · intro h
      exact ⟨by rw [hrq]; exact List.mem_append_right _ (List.mem_singleton_self _), h⟩

/-- Witness for C22: of two entries stamped 0 s and 5 s, with `m_maxDelay` 10 s,
a `Cleanup` at 12 s removes one and brings the counter from 2 to 1. -/
theorem Cleanup_filters_by_stored_stamp_witness :
    Consistent { WifiMacQueue.new with
      m_queue := [Item.mk 1 (sampleHdr 7) 0, Item.mk 2 (sampleHdr 7) 5000000000], m_size := 2 } ∧
    (WifiMacQueue.Cleanup { WifiMacQueue.new with
      m_queue := [Item.mk 1 (sampleHdr 7) 0, Item.mk 2 (sampleHdr 7) 5000000000], m_size := 2 }
        12000000000).m_size +
      [Item.mk 1 (sampleHdr 7) 0, Item.mk 2 (sampleHdr 7) 5000000000].countP
        (fun it => decide (it.tstamp + Seconds 10 ≤ 12000000000)) = 2 :=
  ⟨by decide,
   ((Cleanup_filters_by_stored_stamp { WifiMacQueue.new with
      m_queue := [Item.mk 1 (sampleHdr 7) 0, Item.mk 2 (sampleHdr 7) 5000000000], m_size := 2 }
      12000000000).2.2.2.1 (by decide)).1⟩

/-- Counterexample to C22 as stated: with the bias on, a packet enqueued at time
0 is delayed and its entry is stamped 0.5 s. With `m_maxDelay` 10 s, the time
of the call plus `m_maxDelay` is not after `now` = 10 s, and a `Cleanup` at 10 s
(and at every time before 10.5 s) retains the entry; the `Cleanup` at 10.5 s
removes it. -/
theorem Cleanup_retains_delayed_entry_after_max_delay :
    (WifiMacQueue.new.EnqueueWith staticBias (sampleEnv [99 / 100] none) 0 1 (sampleHdr 7)).map
        (fun r => ((r.1.Cleanup 10000000000).m_queue, (r.1.Cleanup 10499999999).m_queue,
          (r.1.Cleanup 10500000000).m_queue)) =
      some ([Item.mk 77 (sampleHdr 7) 500000000], [Item.mk 77 (sampleHdr 7) 500000000], []) ∧
    (0 : Time) + WifiMacQueue.new.m_maxDelay ≤ 10000000000 := by
  decide!

/-! ## The counter and the stored entries -/

theorem admissible_of_no_SetMaxSize (ops : List (Time × Op)) :
    ∀ q : WifiMacQueue, (∀ e ∈ ops, e.2.isSetMaxSize = false) → Admissible ops q := by
  induction ops with
  | nil => intro q _; trivial
  | cons x xs ih =>
    intro q h
    obtain ⟨now, op⟩ := x
    refine ⟨?_, ih _ (fun e he => h e (List.mem_cons_of_mem _ he))⟩
    have hop := h (now, op) (List.mem_cons_self _ _)
    cases op <;> trivial

theorem configured_withinBound (maxSize : Nat) (maxDelay : Time) :
    WithinBound ((WifiMacQueue.new.SetMaxSize maxSize).SetMaxDelay maxDelay) :=
  ⟨rfl, Nat.zero_le _, Nat.mod_lt _ (by decide)⟩

theorem withinBound_of_eq (q q' : WifiMacQueue) (h : WithinBound q)
    (hq : q'.m_queue = q.m_queue) (hs : q'.m_size = q.m_size)
    (hm : q'.m_maxSize = q.m_maxSize) : WithinBound q' := by
  unfold WithinBound
  rw [hq, hs, hm]
  exact h

theorem push_withinBound (q : WifiMacQueue) (it : Item) (h : WithinBound q)
    (hfree : ¬ q.m_size = q.m_maxSize) : WithinBound (q.push it) := by
  obtain ⟨h1, h2, h3⟩ := h
  have hf := push_fields q it
  unfold WithinBound
  rw [hf.1, hf.2.1, hf.2.2.2.2.2.2.2.1, u32inc_eq _ (by omega), List.length_append]
  refine ⟨by simp; omega, by simp; omega, h3⟩

theorem EnqueueWith_withinBound (mb : MixedBias) (env : Environment) (q : WifiMacQueue)
    (now : Time) (packet : Packet) (hdr : WifiMacHeader) (r : WifiMacQueue × (Packet → Bool))
    (h : WithinBound q) (hr : q.EnqueueWith mb env now packet hdr = some r) :
    WithinBound r.1 := by
  have hC := Cleanup_withinBound q now h
  have hw := withDistance_fields env (q.Cleanup now)
  have hb := (withDistance_bounds env (q.Cleanup now)).1
  have hW : WithinBound (WifiMacQueue.withDistance env (q.Cleanup now)) :=
    withinBound_of_eq _ _ hC hw.1 hw.2.1 hb
  by_cases hfull : (q.Cleanup now).m_size = (q.Cleanup now).m_maxSize
  · rw [EnqueueWith_full mb env q now packet hdr hfull] at hr
    cases hr
    exact hC
  · have hfreeW : ¬ (WifiMacQueue.withDistance env (q.Cleanup now)).m_size =
        (WifiMacQueue.withDistance env (q.Cleanup now)).m_maxSize := by
      rw [hw.2.1, hb]
      exact hfull
    cases hmb : mb.MB with
    | false =>
      rw [EnqueueWith_off mb env q now packet hdr hfull hmb] at hr
      cases hr
      exact insert_withinBound (q.Cleanup now) _ hC hfull (by simp) _ _
    | true =>
      by_cases hdel : env.GetValue 0 > WifiMacQueue.R mb env q ∧ env.Delayed packet = false
      · cases hA : mb.ADAPTIVE with
        | false =>
          rw [EnqueueWith_delayed_static mb env q now packet hdr hfull hmb hA hdel] at hr
          cases hr
          exact push_withinBound _ _ hW hfreeW
        | true =>
          rw [EnqueueWith_delayed_adaptive mb env q now packet hdr hfull hmb hA hdel] at hr
          split at hr
          · cases hcy : WifiMacQueue.ReconfigurationCycle env
                { WifiMacQueue.withDistance env (q.Cleanup now) with
                  packetCount :=
                    (WifiMacQueue.withDistance env (q.Cleanup now)).packetCount + 1 }
                now with
            | none => rw [hcy] at hr; cases hr
            | some q' =>
              rw [hcy] at hr
              cases hr
              obtain ⟨_, _, _, _, _, hq', hs', hm', _⟩ :=
                ReconfigurationCycle_some env _ now q' hcy
              have hQ : WithinBound q' := withinBound_of_eq _ q' hW hq' hs' hm'
              exact push_withinBound _ _ hQ (by rw [hs', hm']; exact hfreeW)
          · cases hr
            exact push_withinBound _ _ (withinBound_of_eq _ _ hW rfl rfl rfl) hfreeW
      · rw [EnqueueWith_not_delayed mb env q now packet hdr hfull hmb hdel] at hr
        cases hr
        exact push_withinBound _ _ hW hfreeW
/-- C23: a queue is constructed with any `MaxPacketNumber` and `MaxDelay`,
and any sequence of calls other than `SetMaxSize` is made, at any times and
with any arguments. After every call of the sequence the counter returned by
`GetSize` is the number of entries stored, and no decrement of the counter
underflows: the number `n` that `Cleanup` subtracts is at most the counter, and
the counter is positive whenever there is an entry to erase, in the queue as it
is (`Remove`) and in the purged queue (the dequeue operations). The counter of
the purged queue is the number of its entries, and so is the counter after an
`Enqueue` compiled with any constants of the bias. -/
theorem GetSize_is_number_of_entries (maxSize : Nat) (maxDelay : Time)
    (ops : List (Time × Op)) (hops : ∀ e ∈ ops, e.2.isSetMaxSize = false) :
    ∀ before after q, ops = before ++ after →
      q = run before ((WifiMacQueue.new.SetMaxSize maxSize).SetMaxDelay maxDelay) →
      q.GetSize = q.m_queue.length ∧
      (∀ now, (CleanupScan q.m_maxDelay now q.m_queue).2 ≤ q.m_size) ∧
      (q.m_queue ≠ [] → 0 < q.m_size) ∧
      (∀ now, (q.Cleanup now).m_queue ≠ [] → 0 < (q.Cleanup now).m_size) ∧
      (∀ now, (q.Cleanup now).GetSize = (q.Cleanup now).m_queue.length) ∧
      (∀ (mb : MixedBias) (env : Environment) (now : Time) (packet : Packet)
        (hdr : WifiMacHeader) (r : WifiMacQueue × (Packet → Bool)),
        q.EnqueueWith mb env now packet hdr = some r → r.1.GetSize = r.1.m_queue.length) := by
  intro before after q e hq
  subst e
  have hadm : Admissible before
      ((WifiMacQueue.new.SetMaxSize maxSize).SetMaxDelay maxDelay) :=
    admissible_of_no_SetMaxSize before _
      (fun x hx => hops x (List.mem_append_left _ hx))
  have hw : WithinBound q := by
    rw [hq]
    exact run_withinBound before _ (configured_withinBound maxSize maxDelay) hadm
  have hpos : ∀ q' : WifiMacQueue, WithinBound q' → q'.m_queue ≠ [] → 0 < q'.m_size := by
    intro q' h' hne
    rw [h'.1]
    exact List.length_pos.mpr hne
  refine ⟨?_, ?_, hpos q hw, ?_, ?_, ?_⟩
  · rw [WifiMacQueue.GetSize]
    exact hw.1
  · intro now
    rw [CleanupScan_snd _ _ _ hw.consistent.2, hw.1]
    exact Nat.sub_le _ _
  · intro now
    exact hpos _ (Cleanup_withinBound q now hw)
  · intro now
    rw [WifiMacQueue.GetSize]
    exact (Cleanup_withinBound q now hw).1
  · intro mb env now packet hdr r hr
    rw [WifiMacQueue.GetSize]
    exact (EnqueueWith_withinBound mb env q now packet hdr r hw hr).1

/-- Witness for C23: after two `Enqueue`, a `Dequeue`, a `Remove` of a packet
that is not stored and a `PushFront`, the counter is 2 and two entries are
stored. -/
theorem GetSize_is_number_of_entries_witness :
    (run [(0, Op.Enqueue 1 (sampleHdr 7)), (1, Op.Enqueue 2 (sampleHdr 8)), (2, Op.Dequeue),
        (3, Op.Remove 5), (4, Op.PushFront 3 (sampleHdr 7))]
        ((WifiMacQueue.new.SetMaxSize 3).SetMaxDelay (Seconds 10))).GetSize =
      (run [(0, Op.Enqueue 1 (sampleHdr 7)), (1, Op.Enqueue 2 (sampleHdr 8)), (2, Op.Dequeue),
        (3, Op.Remove 5), (4, Op.PushFront 3 (sampleHdr 7))]
        ((WifiMacQueue.new.SetMaxSize 3).SetMaxDelay (Seconds 10))).m_queue.length ∧
    (run [(0, Op.Enqueue 1 (sampleHdr 7)), (1, Op.Enqueue 2 (sampleHdr 8)), (2, Op.Dequeue),
        (3, Op.Remove 5), (4, Op.PushFront 3 (sampleHdr 7))]
        ((WifiMacQueue.new.SetMaxSize 3).SetMaxDelay (Seconds 10))).GetSize = 2 :=
  ⟨(GetSize_is_number_of_entries 3 (Seconds 10)
      [(0, Op.Enqueue 1 (sampleHdr 7)), (1, Op.Enqueue 2 (sampleHdr 8)), (2, Op.Dequeue),
        (3, Op.Remove 5), (4, Op.PushFront 3 (sampleHdr 7))]
      (by decide)
      [(0, Op.Enqueue 1 (sampleHdr 7)), (1, Op.Enqueue 2 (sampleHdr 8)), (2, Op.Dequeue),
        (3, Op.Remove 5), (4, Op.PushFront 3 (sampleHdr 7))] [] _ (by simp) rfl).1,
   by decide⟩

end ns3
